import Mathlib

/-!
The 5G NR round-robin scenario scripts (`5G_RR_LL.cc`, `5G_RR_VT.cc`)

A shallow embedding of the logic the two ns-3 scenario scripts implement in
their `main`: the frequency guard, the spectrum and power split, the
UE-to-gNB attachment loop, the bearer/TFT construction and the reduction of
the flow-monitor counters into per-flow and network-wide statistics.

Numbers of C++ type `double` are modelled by `Dbl α`: the finite values are
the elements of an ordered field `α` (taken to be `ℚ` for evaluation and `ℝ`
where `pow` and `log10` are interpreted), extended with the IEEE-754 special
values `+inf`, `-inf` and `NaN`, so that a division by zero produces what the
hardware produces.  In `Dbl α` the operations are exact: rounding and
overflow to infinity are not modelled, and the sign of a zero is not tracked
(a zero divisor acts as `+0.0`).  What is proved on `Dbl α` is therefore
proved of the expressions the scripts evaluate, in exact arithmetic.  Where
a statement is about the last bit of a result, the fairness index is
evaluated on `Binary64`, in which every operation rounds as the hardware
does.

Counters of type `uint32_t` are natural numbers reduced modulo `2 ^ 32`.

`5G_RR_VT.cc` is not a well-formed C++ program: its statements on the bearer
and the traffic flow template redeclare three names and read a variable
before its declaration.  Its other statements are embedded as they stand,
and its bearer part is absent from the model.
-/

namespace FiveG

/-! ## Doubles -/

/-- Values of C++ type double over the finite values `α`. -/
inductive Dbl (α : Type) where
  | fin (v : α)
  | inf (neg : Bool)
  | nan
  deriving DecidableEq, Repr

namespace Dbl

variable {α : Type} [LinearOrderedField α]

/-- Addition of doubles, as `+` and `+=` compute it. -/
def add : Dbl α → Dbl α → Dbl α
  | fin a, fin b => fin (a + b)
  | fin _, inf s => inf s
  | inf s, fin _ => inf s
  | inf s, inf t => if s = t then inf s else nan
  | nan, _ => nan
  | _, nan => nan

/-- Multiplication of doubles. -/
def mul : Dbl α → Dbl α → Dbl α
  | fin a, fin b => fin (a * b)
  | fin a, inf s => if a = 0 then nan else inf (xor s (decide (a < 0)))
  | inf s, fin b => if b = 0 then nan else inf (xor s (decide (b < 0)))
  | inf s, inf t => inf (xor s t)
  | nan, _ => nan
  | _, nan => nan

/-- Division of doubles: a finite value over zero is `NaN` for `0 / 0` and an
infinity of the sign of the numerator otherwise. -/
def div : Dbl α → Dbl α → Dbl α
  | fin a, fin b =>
    if b = 0 then (if a = 0 then nan else inf (decide (a < 0))) else fin (a / b)
  | fin _, inf _ => fin 0
  | inf s, fin b => inf (xor s (decide (b < 0)))
  | inf _, inf _ => nan
  | nan, _ => nan
  | _, nan => nan

instance : Add (Dbl α) := ⟨add⟩

instance : Mul (Dbl α) := ⟨mul⟩

instance : Div (Dbl α) := ⟨div⟩

/-- Conversion of an unsigned integer to double. -/
def ofNat (n : Nat) : Dbl α := fin (n : α)

/-- A double is finite when it is neither an infinity nor `NaN`. -/
def isFinite : Dbl α → Bool
  | fin _ => true
  | _ => false

end Dbl

/-! ## Machine integers -/

/-- Reduction to the range of `uint32_t`. -/
def u32 (n : Nat) : Nat := n % 2 ^ 32

/-- Subtraction of two `uint32_t` values, wrapping modulo `2 ^ 32`. -/
def subU32 (a b : Nat) : Nat := (a % 2 ^ 32 + 2 ^ 32 - b % 2 ^ 32) % 2 ^ 32

/-! ## Attachment of the user terminals

```
for (uint32_t i = 0; i < ueNetDev.GetN(); ++i)
    nrHelper->AttachToEnb(ueNetDev.Get(i), enbNetDev.Get(i % gNbNum));
```
-/

/-- One call `AttachToEnb(ueNetDev.Get(ue), enbNetDev.Get(gnb))`. -/
structure Attachment where
  ue : Nat
  gnb : Nat
  deriving DecidableEq, Repr

/-- The attachment loop from counter value `i` on, with `n = ueNetDev.GetN()`;
`acc` holds the calls made so far, in order. -/
def attachLoop (gNbNum n : Nat) (i : Nat) (acc : List Attachment) : List Attachment :=
  if i < n then attachLoop gNbNum n (i + 1) (acc ++ [⟨i, i % gNbNum⟩]) else acc
termination_by n - i

/-- The calls of the whole attachment loop, which starts at `i = 0`. -/
def attachUes (gNbNum n : Nat) : List Attachment := attachLoop gNbNum n 0 []

/-- The cells terminal `i` has been attached to. -/
def cellsOf (m : List Attachment) (i : Nat) : List Nat :=
  (m.filter (fun a => a.ue = i)).map Attachment.gnb

/-! ## Scenario set-up

The first half of `main`, up to `Simulator::Run`, as far as it computes
anything: the guard on the two central frequencies, the split of the
transmit power over the bands, the attachment loop and the bearer with its
traffic flow template.  The local variables the scripts initialise with
literals are the fields of `Config`; `Script.config` holds the literals. -/

/-- The two scripts: `5G_RR_LL.cc` (low latency) and `5G_RR_VT.cc` (voice). -/
inductive Script where
  | lowLatency
  | voice
  deriving DecidableEq, Repr

/-- The QoS class identifiers of `EpsBearer` the scripts use. -/
inductive Qci where
  | NGBR_LOW_LAT_EMBB
  | GBR_CONV_VOICE
  deriving DecidableEq, Repr

/-- The local variables at the head of `main`; `dlPort` is `dlPortLowLatency` in
one script and `dlPortVoice` in the other. -/
structure Config (α : Type) where
  gNbNum : Nat
  ueNum : Nat
  doubleOperationalBand : Bool
  numerologyBwp1 : Nat
  centralFrequencyBand1 : α
  bandwidthBand1 : α
  numerologyBwp2 : Nat
  centralFrequencyBand2 : α
  bandwidthBand2 : α
  totalTxPower : α
  dlPort : Nat

/-- The functions of the C mathematics library the scripts call, on finite
positive arguments. -/
structure Libm (α : Type) where
  pow : α → α → α
  log10 : α → α

/-- The ways the set-up can end before the simulation starts: one of the two
`NS_ABORT_IF` lines, or an index past the end of the gNB container (undefined
behaviour in C++, taken as a failed run). -/
inductive Abort where
  | frequencyBand1
  | frequencyBand2
  | gnbIndex
  deriving DecidableEq, Repr

/-- The two statements on `GetGnbPhy(enbNetDev.Get(gnb), bwp)`: the numerology
and the transmit power. -/
structure PhySetting (α : Type) where
  gnb : Nat
  bwp : Nat
  numerology : Nat
  txPower : Dbl α

/-- The fields of `EpcTft::PacketFilter` the scripts assign. -/
structure PacketFilter where
  localPortStart : Nat
  localPortEnd : Nat
  deriving DecidableEq, Repr

/-- One call `ActivateDedicatedEpsBearer(ueNetDev.Get(ue), bearer, tft)`; the
template is given by the filters added to it. -/
structure Activation where
  ue : Nat
  bearer : Qci
  tft : List PacketFilter
  deriving DecidableEq, Repr

/-- The bearer part of a set-up: the `EpcTft` objects created, each given by
the filters added to it, and the calls of `ActivateDedicatedEpsBearer` in
order. -/
structure BearerPlan where
  tfts : List (List PacketFilter)
  activations : List Activation
  deriving DecidableEq, Repr

/-- What the statements of the set-up hand to the simulator.  The bearer part
is absent where the statements that would build it are not well-formed C++
and so compute nothing. -/
structure Plan (α : Type) where
  phy : List (PhySetting α)
  bwpIdForTraffic : Nat
  attachments : List Attachment
  sinkPort : Nat
  remotePort : Nat
  bearer : Option BearerPlan

section Setup

variable {α : Type} [LinearOrderedField α]

/-- The literals of each script. -/
def Script.config : Script → Config α
  | .lowLatency =>
    { gNbNum := 3, ueNum := 5, doubleOperationalBand := true,
      numerologyBwp1 := 3, centralFrequencyBand1 := 28000000000, bandwidthBand1 := 400000000,
      numerologyBwp2 := 2, centralFrequencyBand2 := 28200000000, bandwidthBand2 := 400000000,
      totalTxPower := 55, dlPort := 1236 }
  | .voice =>
    { gNbNum := 3, ueNum := 5, doubleOperationalBand := true,
      numerologyBwp1 := 4, centralFrequencyBand1 := 28000000000, bandwidthBand1 := 100000000,
      numerologyBwp2 := 2, centralFrequencyBand2 := 28200000000, bandwidthBand2 := 100000000,
      totalTxPower := 55, dlPort := 1235 }

/-- The upper bound in the `NS_ABORT_IF` lines: `400e9` in one script, `100e9`
in the other. -/
def Script.maxFrequency : Script → α
  | .lowLatency => 400000000000
  | .voice => 100000000000

/-- The two `NS_ABORT_IF` lines, with `0.5e9` as the lower bound. -/
def checkFrequencies (s : Script) (cfg : Config α) : Except Abort Unit :=
  if cfg.centralFrequencyBand1 < 500000000 ∨ cfg.centralFrequencyBand1 > s.maxFrequency then
    .error Abort.frequencyBand1
  else if cfg.centralFrequencyBand2 < 500000000
      ∨ cfg.centralFrequencyBand2 > s.maxFrequency then
    .error Abort.frequencyBand2
  else
    .ok ()

/-- The function `log10` on doubles. -/
def Dbl.log10 (m : Libm α) : Dbl α → Dbl α
  | Dbl.fin v => if 0 < v then Dbl.fin (m.log10 v) else if v = 0 then Dbl.inf true else Dbl.nan
  | Dbl.inf false => Dbl.inf false
  | Dbl.inf true => Dbl.nan
  | Dbl.nan => Dbl.nan

/-- The variable `x = pow(20, totalTxPower / 5)`. -/
def x (m : Libm α) (cfg : Config α) : Dbl α :=
  Dbl.fin (m.pow 20 (cfg.totalTxPower / 5))

/-- The variable `totalBandwidth`: band 1, plus band 2 under
`doubleOperationalBand`. -/
def totalBandwidth (cfg : Config α) : Dbl α :=
  if cfg.doubleOperationalBand then
    Dbl.fin cfg.bandwidthBand1 + Dbl.fin cfg.bandwidthBand2
  else
    Dbl.fin cfg.bandwidthBand1

/-- The expression `bandwidthBand1 / totalBandwidth`. -/
def bandShare1 (cfg : Config α) : Dbl α :=
  Dbl.fin cfg.bandwidthBand1 / totalBandwidth cfg

/-- The expression `bandwidthBand2 / totalBandwidth`. -/
def bandShare2 (cfg : Config α) : Dbl α :=
  Dbl.fin cfg.bandwidthBand2 / totalBandwidth cfg

/-- The expression `10 * log10((bandwidthBand1 / totalBandwidth) * x)`. -/
def txPowerBand1 (m : Libm α) (cfg : Config α) : Dbl α :=
  Dbl.fin 10 * Dbl.log10 m (bandShare1 cfg * x m cfg)

/-- The expression `10 * log10((bandwidthBand2 / totalBandwidth) * x)`. -/
def txPowerBand2 (m : Libm α) (cfg : Config α) : Dbl α :=
  Dbl.fin 10 * Dbl.log10 m (bandShare2 cfg * x m cfg)

/-- The statements that configure the gNB PHYs.  They name the gNBs 0, 1 and 2
one by one, so the container must hold at least three; the second band is
configured under `doubleOperationalBand` only. -/
def configureGnbPhy (m : Libm α) (cfg : Config α) : Except Abort (List (PhySetting α)) :=
  if cfg.gNbNum < 3 then
    .error Abort.gnbIndex
  else
    .ok ([⟨0, 0, cfg.numerologyBwp1, txPowerBand1 m cfg⟩,
          ⟨1, 0, cfg.numerologyBwp1, txPowerBand1 m cfg⟩,
          ⟨2, 0, cfg.numerologyBwp1, txPowerBand1 m cfg⟩]
      ++ (if cfg.doubleOperationalBand then
            [⟨0, 1, cfg.numerologyBwp2, txPowerBand2 m cfg⟩,
             ⟨1, 1, cfg.numerologyBwp2, txPowerBand2 m cfg⟩,
             ⟨2, 1, cfg.numerologyBwp2, txPowerBand2 m cfg⟩]
          else []))

/-- The packet filter of the script: both ends of the local port range are the
downlink port. -/
def dlpf (cfg : Config α) : PacketFilter :=
  { localPortStart := cfg.dlPort, localPortEnd := cfg.dlPort }

/-- The loop of `5G_RR_LL.cc` that installs the client of every UE and
activates its dedicated bearer, with `n = ueLowLatencyContainer.GetN()`: every
call passes `lowLatBearer`, constructed from `EpsBearer::NGBR_LOW_LAT_EMBB`,
and `lowLatencyTft`, to which the one filter `dlpfLowLatency` was added. -/
def activateLoop (cfg : Config α) (n : Nat) (i : Nat) (acc : List Activation) :
    List Activation :=
  if i < n then
    activateLoop cfg n (i + 1) (acc ++ [⟨i, Qci.NGBR_LOW_LAT_EMBB, [dlpf cfg]⟩])
  else acc
termination_by n - i

/-- The bearer and its traffic flow template.

`5G_RR_LL.cc` creates one `EpcTft`, adds the one filter to it and activates
it for every UE.

`5G_RR_VT.cc` has no bearer part that could be embedded: the statements
that build `voiceBearer`, `voiceTft` and `dlpfVoice` occur twice in the same
scope, so the three names are redeclared, and the earlier copy reads
`dlPortVoice` before its declaration.  The file is not well-formed C++ at
these statements, they compute nothing, and the activation loop that names
`voiceBearer` and `voiceTft` has nothing to pass.  The other statements of
that script (frequency guard, power split, attachment loop, ports of the UDP
sink and client, statistics) are well-formed and are embedded as they
stand. -/
def Script.bearerPlan (s : Script) (cfg : Config α) : Option BearerPlan :=
  match s with
  | .lowLatency => some { tfts := [[dlpf cfg]], activations := activateLoop cfg cfg.ueNum 0 [] }
  | .voice => none

/-- The set-up part of `main`, statement by statement.  For `5G_RR_VT.cc`,
which does not compile as a whole, this is what its well-formed statements
compute, not a run of a program. -/
def main (s : Script) (m : Libm α) (cfg : Config α) : Except Abort (Plan α) := do
  checkFrequencies s cfg
  let phy ← configureGnbPhy m cfg
  pure
    { phy := phy
      bwpIdForTraffic := if cfg.doubleOperationalBand then 1 else 0
      attachments := attachUes cfg.gNbNum cfg.ueNum
      sinkPort := cfg.dlPort
      remotePort := cfg.dlPort
      bearer := s.bearerPlan cfg }

/-- The transmit powers set on band part `bwp` of gNB `gnb`. -/
def txPowerOf (p : Plan α) (gnb bwp : Nat) : List (Dbl α) :=
  (p.phy.filter (fun q => decide (q.gnb = gnb ∧ q.bwp = bwp))).map PhySetting.txPower

end Setup

/-! ## Flow statistics

The second half of `main` reads the flow monitor's `FlowStats` records and
prints, for each flow, throughput, mean delay and loss rate, and then four
network-wide figures. -/

/-- The counters of one `FlowMonitor::FlowStats` record the scripts read:
`txPackets` and `rxPackets` are `uint32_t`, `txBytes` and `rxBytes` are
`uint64_t`, and `delaySum` is the value of `delaySum.GetSeconds()`. -/
structure FlowStats (α : Type) where
  txPackets : Nat
  txBytes : Nat
  rxPackets : Nat
  rxBytes : Nat
  delaySum : α

/-- The counters fit their C++ types. -/
def FlowStats.WellTyped {α : Type} (r : FlowStats α) : Prop :=
  r.txPackets < 2 ^ 32 ∧ r.rxPackets < 2 ^ 32 ∧ r.txBytes < 2 ^ 64 ∧ r.rxBytes < 2 ^ 64

instance {α : Type} (r : FlowStats α) : Decidable r.WellTyped := by
  unfold FlowStats.WellTyped
  infer_instance

/-- The three figures printed for one flow. -/
structure FlowKPI (α : Type) where
  throughput : Dbl α
  delay : Dbl α
  lossRate : Dbl α

/-- The accumulators declared before the flow loop. -/
structure Totals (α : Type) where
  totalRxBytes : Dbl α
  totalDelay : Dbl α
  totalLostPackets : Dbl α
  totalRxPackets : Nat
  totalTxPackets : Nat
  totalFlows : Nat

/-- The four figures printed after the loops. -/
structure NetworkKPI (α : Type) where
  meanThroughput : Dbl α
  meanDelay : Dbl α
  packetLossRate : Dbl α
  fairnessIndex : Dbl α

/-- The variables of the statistics part of `main`: the six accumulators, the
four network figures and the two sums of the fairness computation. -/
structure Store (α : Type) where
  totalRxBytes : Dbl α
  totalDelay : Dbl α
  totalLostPackets : Dbl α
  totalRxPackets : Nat
  totalTxPackets : Nat
  totalFlows : Nat
  meanThroughput : Dbl α
  meanDelay : Dbl α
  packetLossRate : Dbl α
  fairnessIndex : Dbl α
  sumThroughput : Dbl α
  sumThroughputSq : Dbl α

section Stats

variable {α : Type} [LinearOrderedField α]

/-- The accumulators as initialised: all zero. -/
def Totals.init : Totals α :=
  { totalRxBytes := Dbl.fin 0, totalDelay := Dbl.fin 0, totalLostPackets := Dbl.fin 0,
    totalRxPackets := 0, totalTxPackets := 0, totalFlows := 0 }

/-- The expression `rxBytes * 8.0 / flowDuration / 1000 / 1000`, which occurs in
the flow loop and again in the fairness loop. -/
def throughputMbps (flowDuration : α) (r : FlowStats α) : Dbl α :=
  Dbl.ofNat r.rxBytes * Dbl.fin 8 / Dbl.fin flowDuration / Dbl.fin 1000 / Dbl.fin 1000

/-- One iteration of the flow loop: the figures printed for the flow and the
accumulators after it.  A flow with `rxPackets > 0` is computed and
accumulated; for any other flow the literals 0, 0 and 100 are printed and
the accumulators are left alone. -/
def flowStep (flowDuration : α) (t : Totals α) (r : FlowStats α) : FlowKPI α × Totals α :=
  if 0 < r.rxPackets then
    let throughput := throughputMbps flowDuration r
    let delay := Dbl.fin 1000 * Dbl.fin r.delaySum / Dbl.ofNat r.rxPackets
    let lossRate :=
      Dbl.ofNat (subU32 r.txPackets r.rxPackets) * Dbl.fin 100 / Dbl.ofNat r.txPackets
    (⟨throughput, delay, lossRate⟩,
      { totalRxBytes := t.totalRxBytes + Dbl.ofNat r.rxBytes
        totalDelay := t.totalDelay + Dbl.fin r.delaySum
        totalLostPackets := t.totalLostPackets + Dbl.ofNat (subU32 r.txPackets r.rxPackets)
        totalRxPackets := u32 (t.totalRxPackets + r.rxPackets)
        totalTxPackets := u32 (t.totalTxPackets + r.txPackets)
        totalFlows := u32 (t.totalFlows + 1) })
  else
    (⟨Dbl.fin 0, Dbl.fin 0, Dbl.fin 100⟩, t)

/-- The flow loop over the records in iteration order: the per-flow figures in
that order, and the final accumulators. -/
def flowLoop (flowDuration : α) : List (FlowStats α) → Totals α → List (FlowKPI α) × Totals α
  | [], t => ([], t)
  | r :: rs, t =>
    let step := flowStep flowDuration t r
    let rest := flowLoop flowDuration rs step.2
    (step.1 :: rest.1, rest.2)

/-- The loop inside `if (totalFlows > 1)`, on the pair
`(sumThroughput, sumThroughputSq)`. -/
def fairnessLoop (flowDuration : α) : List (FlowStats α) → Dbl α × Dbl α → Dbl α × Dbl α
  | [], sums => sums
  | r :: rs, sums =>
    if 0 < r.rxPackets then
      let throughput := throughputMbps flowDuration r
      fairnessLoop flowDuration rs (sums.1 + throughput, sums.2 + throughput * throughput)
    else
      fairnessLoop flowDuration rs sums

/-- The fairness index: 0.0 unless `totalFlows > 1`. -/
def fairnessIndex (flowDuration : α) (stats : List (FlowStats α)) (totalFlows : Nat) : Dbl α :=
  if 1 < totalFlows then
    let sums := fairnessLoop flowDuration stats (Dbl.fin 0, Dbl.fin 0)
    (sums.1 * sums.1) / (Dbl.ofNat totalFlows * sums.2)
  else
    Dbl.fin 0

/-- The network-wide figures computed from the final accumulators. -/
def networkKPI (flowDuration : α) (stats : List (FlowStats α)) (t : Totals α) : NetworkKPI α :=
  { meanThroughput :=
      t.totalRxBytes * Dbl.fin 8 / (Dbl.fin flowDuration * Dbl.ofNat t.totalFlows)
        / Dbl.fin 1000 / Dbl.fin 1000
    meanDelay := t.totalDelay / Dbl.ofNat t.totalRxPackets * Dbl.fin 1000
    packetLossRate := t.totalLostPackets * Dbl.fin 100 / Dbl.ofNat t.totalTxPackets
    fairnessIndex := fairnessIndex flowDuration stats t.totalFlows }

/-- The statistics part of `main`: the figures of every flow in the order the
flow monitor lists them, and the network-wide figures. -/
def aggregate (flowDuration : α) (stats : List (FlowStats α)) : List (FlowKPI α) × NetworkKPI α :=
  let run := flowLoop flowDuration stats Totals.init
  (run.1, networkKPI flowDuration stats run.2)

/-- The flows with `rxPackets > 0`, in order. -/
def contributing (stats : List (FlowStats α)) : List (FlowStats α) :=
  stats.filter (fun r => decide (0 < r.rxPackets))

/-! ### The statistics part, statement by statement

The variables of the statistics part of `main` are kept in a store whose
content at the start of the part is arbitrary, as an earlier evaluation of
the part may have left it.  The statements of each script are transcribed on
their own: those of `5G_RR_LL.cc` with the suffix `LL`, those of
`5G_RR_VT.cc` with the suffix `VT`.  The two files differ there only in how
the protocol name of a flow is printed, which is not a figure. -/

/-- The accumulators of a store. -/
def Store.totals (σ : Store α) : Totals α :=
  { totalRxBytes := σ.totalRxBytes, totalDelay := σ.totalDelay,
    totalLostPackets := σ.totalLostPackets, totalRxPackets := σ.totalRxPackets,
    totalTxPackets := σ.totalTxPackets, totalFlows := σ.totalFlows }

/-- The store with its accumulators replaced. -/
def Store.withTotals (σ : Store α) (t : Totals α) : Store α :=
  { σ with
    totalRxBytes := t.totalRxBytes, totalDelay := t.totalDelay,
    totalLostPackets := t.totalLostPackets, totalRxPackets := t.totalRxPackets,
    totalTxPackets := t.totalTxPackets, totalFlows := t.totalFlows }

/-- One iteration of the flow loop of `5G_RR_LL.cc` on the store: the three
figures printed for the flow, and the store after the iteration. -/
def flowBodyLL (flowDuration : α) (σ : Store α) (r : FlowStats α) : FlowKPI α × Store α :=
  if r.rxPackets > 0 then
    let throughput :=
      Dbl.ofNat r.rxBytes * Dbl.fin 8 / Dbl.fin flowDuration / Dbl.fin 1000 / Dbl.fin 1000
    let delay := Dbl.fin 1000 * Dbl.fin r.delaySum / Dbl.ofNat r.rxPackets
    let lossRate :=
      Dbl.ofNat (subU32 r.txPackets r.rxPackets) * Dbl.fin 100 / Dbl.ofNat r.txPackets
    let σ := { σ with totalRxBytes := σ.totalRxBytes + Dbl.ofNat r.rxBytes }
    let σ := { σ with totalDelay := σ.totalDelay + Dbl.fin r.delaySum }
    let σ := { σ with
      totalLostPackets := σ.totalLostPackets + Dbl.ofNat (subU32 r.txPackets r.rxPackets) }
    let σ := { σ with totalRxPackets := u32 (σ.totalRxPackets + r.rxPackets) }
    let σ := { σ with totalTxPackets := u32 (σ.totalTxPackets + r.txPackets) }
    let σ := { σ with totalFlows := u32 (σ.totalFlows + 1) }
    (⟨throughput, delay, lossRate⟩, σ)
  else
    (⟨Dbl.fin 0, Dbl.fin 0, Dbl.fin 100⟩, σ)

/-- The flow loop of `5G_RR_LL.cc` on the store, over the records in iteration
order: what is printed, and the store after the loop. -/
def flowForLL (flowDuration : α) : List (FlowStats α) → Store α → List (FlowKPI α) × Store α
  | [], σ => ([], σ)
  | r :: rs, σ =>
    let step := flowBodyLL flowDuration σ r
    let rest := flowForLL flowDuration rs step.2
    (step.1 :: rest.1, rest.2)

/-- The loop inside `if (totalFlows > 1)` of `5G_RR_LL.cc` on the store. -/
def fairnessForLL (flowDuration : α) : List (FlowStats α) → Store α → Store α
  | [], σ => σ
  | r :: rs, σ =>
    if r.rxPackets > 0 then
      let throughput :=
        Dbl.ofNat r.rxBytes * Dbl.fin 8 / Dbl.fin flowDuration / Dbl.fin 1000 / Dbl.fin 1000
      let σ := { σ with sumThroughput := σ.sumThroughput + throughput }
      let σ := { σ with sumThroughputSq := σ.sumThroughputSq + throughput * throughput }
      fairnessForLL flowDuration rs σ
    else
      fairnessForLL flowDuration rs σ

/-- The six declarations of `5G_RR_LL.cc` that open the statistics part, each
with the initialiser 0. -/
def declareTotalsLL (σ : Store α) : Store α :=
  { σ with
    totalRxBytes := Dbl.fin 0, totalDelay := Dbl.fin 0, totalLostPackets := Dbl.fin 0,
    totalRxPackets := 0, totalTxPackets := 0, totalFlows := 0 }

/-- The three declarations of `5G_RR_LL.cc` after the flow loop: mean throughput,
mean delay and loss rate, each initialised from the accumulators. -/
def networkFiguresLL (flowDuration : α) (σ : Store α) : Store α :=
  { σ with
    meanThroughput :=
      σ.totalRxBytes * Dbl.fin 8 / (Dbl.fin flowDuration * Dbl.ofNat σ.totalFlows)
        / Dbl.fin 1000 / Dbl.fin 1000
    meanDelay := σ.totalDelay / Dbl.ofNat σ.totalRxPackets * Dbl.fin 1000
    packetLossRate := σ.totalLostPackets * Dbl.fin 100 / Dbl.ofNat σ.totalTxPackets }

/-- The declaration `double fairnessIndex = 0.0` of `5G_RR_LL.cc`. -/
def declareFairnessLL (σ : Store α) : Store α :=
  { σ with fairnessIndex := Dbl.fin 0 }

/-- The declarations of the two sums inside `if (totalFlows > 1)` of
`5G_RR_LL.cc`, each with the initialiser 0.0. -/
def declareSumsLL (σ : Store α) : Store α :=
  { σ with sumThroughput := Dbl.fin 0, sumThroughputSq := Dbl.fin 0 }

/-- The assignment to `fairnessIndex` that closes `if (totalFlows > 1)` in
`5G_RR_LL.cc`. -/
def assignFairnessLL (σ : Store α) : Store α :=
  { σ with
    fairnessIndex :=
      (σ.sumThroughput * σ.sumThroughput) / (Dbl.ofNat σ.totalFlows * σ.sumThroughputSq) }

/-- The statement `if (totalFlows > 1)` of `5G_RR_LL.cc` with its block. -/
def fairnessPartLL (flowDuration : α) (stats : List (FlowStats α)) (σ : Store α) :
    Store α :=
  if σ.totalFlows > 1 then
    assignFairnessLL (fairnessForLL flowDuration stats (declareSumsLL σ))
  else σ

/-- The four network figures `5G_RR_LL.cc` prints at the end. -/
def printNetworkLL (σ : Store α) : NetworkKPI α :=
  ⟨σ.meanThroughput, σ.meanDelay, σ.packetLossRate, σ.fairnessIndex⟩

/-- The statistics part of `5G_RR_LL.cc` (lines 415-489), started on the store `σ`:
the declarations with their initialisers, the flow loop, the three network
figures, the fairness index, and what the part prints: the figures of every
flow in order and the four network figures.  The store after the part is
returned with it. -/
def statisticsLL (σ : Store α) (flowDuration : α) (stats : List (FlowStats α)) :
    (List (FlowKPI α) × NetworkKPI α) × Store α :=
  let run := flowForLL flowDuration stats (declareTotalsLL σ)
  let after :=
    fairnessPartLL flowDuration stats
      (declareFairnessLL (networkFiguresLL flowDuration run.2))
  ((run.1, printNetworkLL after), after)

/-- One iteration of the flow loop of `5G_RR_VT.cc` on the store: the three
figures printed for the flow, and the store after the iteration. -/
def flowBodyVT (flowDuration : α) (σ : Store α) (r : FlowStats α) : FlowKPI α × Store α :=
  if r.rxPackets > 0 then
    let throughput :=
      Dbl.ofNat r.rxBytes * Dbl.fin 8 / Dbl.fin flowDuration / Dbl.fin 1000 / Dbl.fin 1000
    let delay := Dbl.fin 1000 * Dbl.fin r.delaySum / Dbl.ofNat r.rxPackets
    let lossRate :=
      Dbl.ofNat (subU32 r.txPackets r.rxPackets) * Dbl.fin 100 / Dbl.ofNat r.txPackets
    let σ := { σ with totalRxBytes := σ.totalRxBytes + Dbl.ofNat r.rxBytes }
    let σ := { σ with totalDelay := σ.totalDelay + Dbl.fin r.delaySum }
    let σ := { σ with
      totalLostPackets := σ.totalLostPackets + Dbl.ofNat (subU32 r.txPackets r.rxPackets) }
    let σ := { σ with totalRxPackets := u32 (σ.totalRxPackets + r.rxPackets) }
    let σ := { σ with totalTxPackets := u32 (σ.totalTxPackets + r.txPackets) }
    let σ := { σ with totalFlows := u32 (σ.totalFlows + 1) }
    (⟨throughput, delay, lossRate⟩, σ)
  else
    (⟨Dbl.fin 0, Dbl.fin 0, Dbl.fin 100⟩, σ)

/-- The flow loop of `5G_RR_VT.cc` on the store, over the records in iteration
order: what is printed, and the store after the loop. -/
def flowForVT (flowDuration : α) : List (FlowStats α) → Store α → List (FlowKPI α) × Store α
  | [], σ => ([], σ)
  | r :: rs, σ =>
    let step := flowBodyVT flowDuration σ r
    let rest := flowForVT flowDuration rs step.2
    (step.1 :: rest.1, rest.2)

/-- The loop inside `if (totalFlows > 1)` of `5G_RR_VT.cc` on the store. -/
def fairnessForVT (flowDuration : α) : List (FlowStats α) → Store α → Store α
  | [], σ => σ
  | r :: rs, σ =>
    if r.rxPackets > 0 then
      let throughput :=
        Dbl.ofNat r.rxBytes * Dbl.fin 8 / Dbl.fin flowDuration / Dbl.fin 1000 / Dbl.fin 1000
      let σ := { σ with sumThroughput := σ.sumThroughput + throughput }
      let σ := { σ with sumThroughputSq := σ.sumThroughputSq + throughput * throughput }
      fairnessForVT flowDuration rs σ
    else
      fairnessForVT flowDuration rs σ

/-- The six declarations of `5G_RR_VT.cc` that open the statistics part, each
with the initialiser 0. -/
def declareTotalsVT (σ : Store α) : Store α :=
  { σ with
    totalRxBytes := Dbl.fin 0, totalDelay := Dbl.fin 0, totalLostPackets := Dbl.fin 0,
    totalRxPackets := 0, totalTxPackets := 0, totalFlows := 0 }

/-- The three declarations of `5G_RR_VT.cc` after the flow loop: mean throughput,
mean delay and loss rate, each initialised from the accumulators. -/
def networkFiguresVT (flowDuration : α) (σ : Store α) : Store α :=
  { σ with
    meanThroughput :=
      σ.totalRxBytes * Dbl.fin 8 / (Dbl.fin flowDuration * Dbl.ofNat σ.totalFlows)
        / Dbl.fin 1000 / Dbl.fin 1000
    meanDelay := σ.totalDelay / Dbl.ofNat σ.totalRxPackets * Dbl.fin 1000
    packetLossRate := σ.totalLostPackets * Dbl.fin 100 / Dbl.ofNat σ.totalTxPackets }

/-- The declaration `double fairnessIndex = 0.0` of `5G_RR_VT.cc`. -/
def declareFairnessVT (σ : Store α) : Store α :=
  { σ with fairnessIndex := Dbl.fin 0 }

/-- The declarations of the two sums inside `if (totalFlows > 1)` of
`5G_RR_VT.cc`, each with the initialiser 0.0. -/
def declareSumsVT (σ : Store α) : Store α :=
  { σ with sumThroughput := Dbl.fin 0, sumThroughputSq := Dbl.fin 0 }

/-- The assignment to `fairnessIndex` that closes `if (totalFlows > 1)` in
`5G_RR_VT.cc`. -/
def assignFairnessVT (σ : Store α) : Store α :=
  { σ with
    fairnessIndex :=
      (σ.sumThroughput * σ.sumThroughput) / (Dbl.ofNat σ.totalFlows * σ.sumThroughputSq) }

/-- The statement `if (totalFlows > 1)` of `5G_RR_VT.cc` with its block. -/
def fairnessPartVT (flowDuration : α) (stats : List (FlowStats α)) (σ : Store α) :
    Store α :=
  if σ.totalFlows > 1 then
    assignFairnessVT (fairnessForVT flowDuration stats (declareSumsVT σ))
  else σ

/-- The four network figures `5G_RR_VT.cc` prints at the end. -/
def printNetworkVT (σ : Store α) : NetworkKPI α :=
  ⟨σ.meanThroughput, σ.meanDelay, σ.packetLossRate, σ.fairnessIndex⟩

/-- The statistics part of `5G_RR_VT.cc` (lines 449-552), started on the store `σ`:
the declarations with their initialisers, the flow loop, the three network
figures, the fairness index, and what the part prints: the figures of every
flow in order and the four network figures.  The store after the part is
returned with it. -/
def statisticsVT (σ : Store α) (flowDuration : α) (stats : List (FlowStats α)) :
    (List (FlowKPI α) × NetworkKPI α) × Store α :=
  let run := flowForVT flowDuration stats (declareTotalsVT σ)
  let after :=
    fairnessPartVT flowDuration stats
      (declareFairnessVT (networkFiguresVT flowDuration run.2))
  ((run.1, printNetworkVT after), after)

/-- The statistics part of a script. -/
def Script.statistics (s : Script) (σ : Store α) (flowDuration : α)
    (stats : List (FlowStats α)) : (List (FlowKPI α) × NetworkKPI α) × Store α :=
  match s with
  | .lowLatency => statisticsLL σ flowDuration stats
  | .voice => statisticsVT σ flowDuration stats

end Stats

/-! ## Jain's index, as the specification words it -/

/-- The sum of a list of doubles, added from the left starting at 0.0. -/
def Dbl.sum {α : Type} [LinearOrderedField α] (xs : List (Dbl α)) : Dbl α :=
  xs.foldl (fun s x => s + x) (Dbl.fin 0)

/-- Jain's index `(Σ x_i)^2 / (n * Σ x_i^2)` of a list of `n` allocations. -/
def jainIndex {α : Type} [LinearOrderedField α] (xs : List (Dbl α)) : Dbl α :=
  (Dbl.sum xs * Dbl.sum xs) / (Dbl.ofNat xs.length * Dbl.sum (xs.map (fun x => x * x)))

/-! ## The fairness index on binary64

Where the last bit of a result matters, the doubles are taken as the hardware
has them.  A positive normal binary64 value is `m * 2 ^ e` with
`2 ^ 52 ≤ m < 2 ^ 53` and `-1074 ≤ e ≤ 971`, and zero is `m = 0`; every
operation rounds its exact result to the nearest such value, ties to the even
mantissa.  The fairness computation reads unsigned counters and a positive
flow duration and only adds, multiplies and divides, so no negative value
occurs in it.  An operation gives `none` where its result is not zero or a
positive normal value (overflow, the subnormal range, a zero divisor). -/

/-- A binary64 value `m * 2 ^ e`, zero or positive. -/
structure Binary64 where
  m : Nat
  e : Int
  deriving DecidableEq, Repr

namespace Binary64

/-- The number of binary digits of `m`, computed with `fuel ≥ m` halvings at
most. -/
def bitLength : Nat → Nat → Nat
  | 0, _ => 0
  | fuel + 1, m => if m = 0 then 0 else bitLength fuel (m / 2) + 1

/-- The value `m * 2 ^ e` rounded to 53 significant bits, to nearest and ties to
even, with the mantissa scaled to `2 ^ 52 ≤ m < 2 ^ 53`. -/
def roundEven (m : Nat) (e : Int) : Binary64 :=
  if m = 0 then ⟨0, 0⟩
  else
    let k := bitLength m m - 1
    if k ≤ 52 then ⟨m * 2 ^ (52 - k), e - ((52 - k : Nat) : Int)⟩
    else
      let s := k - 52
      let q := m / 2 ^ s
      let r := m % 2 ^ s
      let h := 2 ^ (s - 1)
      let q1 := if h < r ∨ (r = h ∧ q % 2 = 1) then q + 1 else q
      if q1 = 2 ^ 53 then ⟨2 ^ 52, e + (s : Int) + 1⟩ else ⟨q1, e + (s : Int)⟩

/-- A rounded result, when it is zero or in the range of the normal values. -/
def checked (x : Binary64) : Option Binary64 :=
  if x.m = 0 ∨ (-1074 ≤ x.e ∧ x.e ≤ 971) then some x else none

/-- The product of two doubles. -/
def mul (a b : Binary64) : Option Binary64 := checked (roundEven (a.m * b.m) (a.e + b.e))

/-- The sum of two doubles. -/
def add (a b : Binary64) : Option Binary64 :=
  if a.m = 0 then some b
  else if b.m = 0 then some a
  else
    let e := min a.e b.e
    checked (roundEven (a.m * 2 ^ (a.e - e).toNat + b.m * 2 ^ (b.e - e).toNat) e)

/-- The quotient of two doubles: 65 or 66 bits of the quotient of the mantissas,
the last of which records whether the division left a remainder, are
rounded. -/
def div (a b : Binary64) : Option Binary64 :=
  if b.m = 0 then none
  else if a.m = 0 then some ⟨0, 0⟩
  else
    let n := a.m * 2 ^ 64
    checked (roundEven (2 * (n / b.m) + (if n % b.m = 0 then 0 else 1)) (a.e - b.e - 65))

/-- Conversion of an unsigned integer to double. -/
def ofNat (n : Nat) : Binary64 := roundEven n 0

/-- The value of a double as a rational number. -/
def toRat (x : Binary64) : ℚ := (x.m : ℚ) * (2 : ℚ) ^ x.e

/-- A positive double with its mantissa in the normal form. -/
def Normal (x : Binary64) : Prop := 2 ^ 52 ≤ x.m ∧ x.m < 2 ^ 53

instance (x : Binary64) : Decidable x.Normal := by
  unfold Normal
  infer_instance

/-- Zero, or a positive double with its mantissa in the normal form. -/
def Valid (x : Binary64) : Prop := x.m = 0 ∨ x.Normal

/-- The unit roundoff of binary64, `2 ^ (-53)`: half the distance from 1.0 to the
next double. -/
def unitRoundoff : ℚ := 1 / 2 ^ 53

end Binary64

/-- The expression `rxBytes * 8.0 / flowDuration / 1000 / 1000` on binary64. -/
def throughputMbps64 (flowDuration : Binary64) (rxBytes : Nat) : Option Binary64 := do
  let a ← Binary64.mul (Binary64.ofNat rxBytes) (Binary64.ofNat 8)
  let b ← Binary64.div a flowDuration
  let c ← Binary64.div b (Binary64.ofNat 1000)
  Binary64.div c (Binary64.ofNat 1000)

/-- The counter `totalFlows` of the flow loop, which no double enters: one more,
modulo `2 ^ 32`, for every record with `rxPackets > 0`. -/
def countFlows {β : Type} : List (FlowStats β) → Nat → Nat
  | [], n => n
  | r :: rs, n => if 0 < r.rxPackets then countFlows rs (u32 (n + 1)) else countFlows rs n

/-- The loop inside `if (totalFlows > 1)` on binary64, on the pair
`(sumThroughput, sumThroughputSq)`. -/
def fairnessLoop64 {β : Type} (flowDuration : Binary64) :
    List (FlowStats β) → Binary64 × Binary64 → Option (Binary64 × Binary64)
  | [], sums => some sums
  | r :: rs, sums =>
    if 0 < r.rxPackets then do
      let throughput ← throughputMbps64 flowDuration r.rxBytes
      let sum ← Binary64.add sums.1 throughput
      let sq ← Binary64.mul throughput throughput
      let sumSq ← Binary64.add sums.2 sq
      fairnessLoop64 flowDuration rs (sum, sumSq)
    else
      fairnessLoop64 flowDuration rs sums

/-- The fairness index on binary64: 0.0 unless `totalFlows > 1`. -/
def fairnessIndex64 {β : Type} (flowDuration : Binary64) (stats : List (FlowStats β)) :
    Option Binary64 :=
  let totalFlows := countFlows stats 0
  if 1 < totalFlows then do
    let sums ← fairnessLoop64 flowDuration stats (⟨0, 0⟩, ⟨0, 0⟩)
    let num ← Binary64.mul sums.1 sums.1
    let den ← Binary64.mul (Binary64.ofNat totalFlows) sums.2
    Binary64.div num den
  else
    some ⟨0, 0⟩

/-! ## Theorems -/

/-! ### Arithmetic of doubles on finite values -/

section DblLemmas

variable {α : Type} [LinearOrderedField α]

@[simp] theorem Dbl.fin_add_fin (a b : α) : Dbl.fin a + Dbl.fin b = Dbl.fin (a + b) := rfl

@[simp] theorem Dbl.fin_mul_fin (a b : α) : Dbl.fin a * Dbl.fin b = Dbl.fin (a * b) := rfl

theorem Dbl.fin_div_fin (a b : α) (hb : b ≠ 0) : Dbl.fin a / Dbl.fin b = Dbl.fin (a / b) := by
  show Dbl.div (Dbl.fin a) (Dbl.fin b) = _
  simp [Dbl.div, hb]

@[simp] theorem Dbl.fin_div_thousand (a : α) :
    Dbl.fin a / Dbl.fin 1000 = Dbl.fin (a / 1000) :=
  Dbl.fin_div_fin a 1000 (by norm_num)

@[simp] theorem Dbl.zero_div_zero : (Dbl.fin 0 : Dbl α) / Dbl.fin 0 = Dbl.nan := by
  show Dbl.div (Dbl.fin 0) (Dbl.fin 0) = _
  simp [Dbl.div]

theorem Dbl.pos_div_zero (a : α) (ha : 0 < a) : Dbl.fin a / Dbl.fin 0 = Dbl.inf false := by
  show Dbl.div (Dbl.fin a) (Dbl.fin 0) = _
  have h1 : a ≠ 0 := ne_of_gt ha
  have h2 : ¬ a < 0 := not_lt.mpr ha.le
  simp [Dbl.div, h1, h2]

@[simp] theorem Dbl.nan_div (d : Dbl α) : Dbl.nan / d = Dbl.nan := by
  show Dbl.div Dbl.nan d = _
  cases d <;> rfl

@[simp] theorem Dbl.nan_mul (d : Dbl α) : Dbl.nan * d = Dbl.nan := by
  show Dbl.mul Dbl.nan d = _
  cases d <;> rfl

@[simp] theorem Dbl.ofNat_eq (n : Nat) : (Dbl.ofNat n : Dbl α) = Dbl.fin (n : α) := rfl

end DblLemmas

/-! ### Unsigned counters -/

theorem subU32_of_le (a b : Nat) (ha : a < 2 ^ 32) (hb : b ≤ a) : subU32 a b = a - b := by
  unfold subU32
  have h1 : a % 2 ^ 32 = a := Nat.mod_eq_of_lt ha
  have h2 : b % 2 ^ 32 = b := Nat.mod_eq_of_lt (by omega)
  rw [h1, h2]
  have h3 : a + 2 ^ 32 - b = (a - b) + 2 ^ 32 := by omega
  rw [h3, Nat.add_mod_right]
  exact Nat.mod_eq_of_lt (by omega)

theorem subU32_of_lt (a b : Nat) (hb : b < 2 ^ 32) (hab : a < b) :
    subU32 a b = a + 2 ^ 32 - b := by
  unfold subU32
  have h1 : a % 2 ^ 32 = a := Nat.mod_eq_of_lt (by omega)
  have h2 : b % 2 ^ 32 = b := Nat.mod_eq_of_lt hb
  rw [h1, h2]
  exact Nat.mod_eq_of_lt (by omega)

/-! ### The flow loop -/

section StatsLemmas

variable {α : Type} [LinearOrderedField α]

/-- A flow without received packets prints the three literals and leaves the
accumulators as they are. -/
theorem flowStep_of_rx_zero (flowDuration : α) (t : Totals α) (r : FlowStats α)
    (h : r.rxPackets = 0) :
    flowStep flowDuration t r = (⟨Dbl.fin 0, Dbl.fin 0, Dbl.fin 100⟩, t) := by
  simp [flowStep, h]

/-- The figures printed for a flow do not depend on the accumulators. -/
theorem flowStep_fst (flowDuration : α) (t u : Totals α) (r : FlowStats α) :
    (flowStep flowDuration t r).1 = (flowStep flowDuration u r).1 := by
  unfold flowStep
  split <;> rfl

/-- The per-flow figures of the loop are those of each record on its own. -/
theorem flowLoop_fst (flowDuration : α) (rs : List (FlowStats α)) (t : Totals α) :
    (flowLoop flowDuration rs t).1
      = rs.map (fun r => (flowStep flowDuration Totals.init r).1) := by
  induction rs generalizing t with
  | nil => rfl
  | cons r rs ih =>
    simp only [flowLoop, List.map_cons]
    rw [ih, flowStep_fst flowDuration t Totals.init r]

/-- The accumulators only see the flows with received packets. -/
theorem flowLoop_snd_contributing (flowDuration : α) (rs : List (FlowStats α)) (t : Totals α) :
    (flowLoop flowDuration rs t).2 = (flowLoop flowDuration (contributing rs) t).2 := by
  induction rs generalizing t with
  | nil => rfl
  | cons r rs ih =>
    by_cases h : 0 < r.rxPackets
    · have hc : contributing (r :: rs) = r :: contributing rs := by
        simp [contributing, h]
      rw [hc]
      simp only [flowLoop]
      exact ih _
    · have hc : contributing (r :: rs) = contributing rs := by
        simp [contributing, h]
      have h0 : r.rxPackets = 0 := by omega
      rw [hc]
      simp only [flowLoop, flowStep_of_rx_zero flowDuration t r h0]
      exact ih t

/-- The fairness loop only sees the flows with received packets. -/
theorem fairnessLoop_contributing (flowDuration : α) (rs : List (FlowStats α))
    (sums : Dbl α × Dbl α) :
    fairnessLoop flowDuration rs sums = fairnessLoop flowDuration (contributing rs) sums := by
  induction rs generalizing sums with
  | nil => rfl
  | cons r rs ih =>
    by_cases h : 0 < r.rxPackets
    · have hc : contributing (r :: rs) = r :: contributing rs := by
        simp [contributing, h]
      rw [hc]
      simp only [fairnessLoop, if_pos h]
      exact ih _
    · have hc : contributing (r :: rs) = contributing rs := by
        simp [contributing, h]
      rw [hc]
      simp only [fairnessLoop, if_neg h]
      exact ih sums

/-- The network figures only depend on the flows with received packets. -/
theorem aggregate_snd_contributing (flowDuration : α) (rs : List (FlowStats α)) :
    (aggregate flowDuration rs).2 = (aggregate flowDuration (contributing rs)).2 := by
  simp only [aggregate, networkKPI, fairnessIndex]
  rw [← flowLoop_snd_contributing, ← fairnessLoop_contributing]

/-- Removing a flow without received packets leaves the contributing flows. -/
theorem contributing_remove {β : Type} (pre post : List (FlowStats β)) (r : FlowStats β)
    (h : r.rxPackets = 0) :
    contributing (pre ++ r :: post) = contributing (pre ++ post) := by
  simp [contributing, List.filter_append, h]

end StatsLemmas

/-- The flow counter after the loop: the number of contributing flows, modulo
`2 ^ 32`. -/
theorem flowLoop_totalFlows {α : Type} [LinearOrderedField α] (flowDuration : α)
    (rs : List (FlowStats α)) (t : Totals α) (k : Nat) (hk : t.totalFlows = u32 k) :
    (flowLoop flowDuration rs t).2.totalFlows = u32 (k + (contributing rs).length) := by
  induction rs generalizing t k with
  | nil => simpa [flowLoop, contributing] using hk
  | cons r rs ih =>
    by_cases h : 0 < r.rxPackets
    · have hc : contributing (r :: rs) = r :: contributing rs := by
        simp [contributing, h]
      rw [hc]
      simp only [flowLoop, List.length_cons]
      rw [ih _ (k + 1)]
      · congr 1
        omega
      · simp only [flowStep, if_pos h, hk, u32]
        omega
    · have hc : contributing (r :: rs) = contributing rs := by
        simp [contributing, h]
      have h0 : r.rxPackets = 0 := by omega
      rw [hc]
      simp only [flowLoop, flowStep_of_rx_zero flowDuration t r h0]
      exact ih t k hk

/-- With fewer than `2 ^ 32` records the flow counter is exact. -/
theorem aggregate_totalFlows {α : Type} [LinearOrderedField α] (flowDuration : α)
    (rs : List (FlowStats α)) (hlen : rs.length < 2 ^ 32) :
    (flowLoop flowDuration rs Totals.init).2.totalFlows = (contributing rs).length := by
  rw [flowLoop_totalFlows flowDuration rs Totals.init 0 rfl, Nat.zero_add]
  have h1 : (contributing rs).length ≤ rs.length := List.length_filter_le _ _
  exact Nat.mod_eq_of_lt (by omega)

/-- The two sums of the fairness loop, as left folds over the contributing
flows. -/
theorem fairnessLoop_eq {α : Type} [LinearOrderedField α] (flowDuration : α)
    (rs : List (FlowStats α)) (sums : Dbl α × Dbl α) :
    fairnessLoop flowDuration rs sums
      = (((contributing rs).map (throughputMbps flowDuration)).foldl
            (fun s x => s + x) sums.1,
         (((contributing rs).map (throughputMbps flowDuration)).map (fun x => x * x)).foldl
            (fun s x => s + x) sums.2) := by
  induction rs generalizing sums with
  | nil => rfl
  | cons r rs ih =>
    by_cases h : 0 < r.rxPackets
    · have hc : contributing (r :: rs) = r :: contributing rs := by
        simp [contributing, h]
      rw [hc]
      simp only [fairnessLoop, if_pos h, List.map_cons, List.foldl_cons]
      exact ih _
    · have hc : contributing (r :: rs) = contributing rs := by
        simp [contributing, h]
      rw [hc]
      simp only [fairnessLoop, if_neg h]
      exact ih sums

/-- The fairness index the code prints, in terms of `jainIndex`. -/
theorem fairnessIndex_eq_jain {α : Type} [LinearOrderedField α] (flowDuration : α)
    (rs : List (FlowStats α)) (hlen : rs.length < 2 ^ 32) :
    (aggregate flowDuration rs).2.fairnessIndex
      = if 1 < (contributing rs).length then
          jainIndex ((contributing rs).map (throughputMbps flowDuration))
        else Dbl.fin 0 := by
  simp only [aggregate, networkKPI, fairnessIndex, aggregate_totalFlows flowDuration rs hlen]
  by_cases h : 1 < (contributing rs).length
  · rw [if_pos h, if_pos h, fairnessLoop_eq]
    simp [jainIndex, Dbl.sum]
  · rw [if_neg h, if_neg h]

/-- A left fold of `+` over finite doubles is the finite sum. -/
theorem Dbl.foldl_fin {α : Type} [LinearOrderedField α] (ys : List α) (a : α) :
    (ys.map Dbl.fin).foldl (fun s x => s + x) (Dbl.fin a) = Dbl.fin (a + ys.sum) := by
  induction ys generalizing a with
  | nil => simp
  | cons y ys ih =>
    simp only [List.map_cons, List.foldl_cons, Dbl.fin_add_fin, List.sum_cons]
    rw [ih, add_assoc]

/-- The sum of finite doubles is the finite sum. -/
theorem Dbl.sum_fin {α : Type} [LinearOrderedField α] (ys : List α) :
    Dbl.sum (ys.map Dbl.fin) = Dbl.fin ys.sum := by
  rw [Dbl.sum, Dbl.foldl_fin, zero_add]

/-- With a non-zero flow duration the per-flow throughput is finite. -/
theorem throughputMbps_fin {α : Type} [LinearOrderedField α] (flowDuration : α)
    (hd : flowDuration ≠ 0) (r : FlowStats α) :
    throughputMbps flowDuration r = Dbl.fin ((r.rxBytes : α) * 8 / flowDuration / 1000000) := by
  simp only [throughputMbps, Dbl.ofNat_eq, Dbl.fin_mul_fin, Dbl.fin_div_fin _ _ hd,
    Dbl.fin_div_thousand]
  congr 1
  rw [div_div]
  norm_num

/-- Jain's index of finite allocations whose squares do not sum to zero. -/
theorem jainIndex_fin {α : Type} [LinearOrderedField α] (ys : List α)
    (hn : ys.length ≠ 0) (hs : (ys.map (fun y => y * y)).sum ≠ 0) :
    jainIndex (ys.map Dbl.fin)
      = Dbl.fin (ys.sum ^ 2 / ((ys.length : α) * (ys.map (fun y => y * y)).sum)) := by
  have hsq : (ys.map Dbl.fin).map (fun x => x * x)
      = (ys.map (fun y => y * y)).map Dbl.fin := by
    simp [List.map_map, Function.comp_def]
  have hn0 : (ys.length : α) ≠ 0 := by exact_mod_cast hn
  rw [jainIndex, hsq, Dbl.sum_fin, Dbl.sum_fin, List.length_map, Dbl.ofNat_eq,
    Dbl.fin_mul_fin, Dbl.fin_mul_fin, Dbl.fin_div_fin _ _ (mul_ne_zero hn0 hs), pow_two]

/-- A sum of squares with a non-zero term is positive. -/
theorem sum_sq_pos {α : Type} [LinearOrderedField α] (ys : List α)
    (h : ∃ y ∈ ys, y ≠ 0) : 0 < (ys.map (fun y => y * y)).sum := by
  induction ys with
  | nil => simp at h
  | cons y ys ih =>
    simp only [List.map_cons, List.sum_cons]
    have hnn : 0 ≤ (ys.map (fun y => y * y)).sum :=
      List.sum_nonneg (by
        intro x hx
        obtain ⟨z, _, rfl⟩ := List.mem_map.mp hx
        exact mul_self_nonneg z)
    by_cases hy : y = 0
    · subst hy
      obtain ⟨z, hz, hz0⟩ := h
      rcases List.mem_cons.mp hz with rfl | hz1
      · exact absurd rfl hz0
      · simpa using ih ⟨z, hz1, hz0⟩
    · have : 0 < y * y := mul_self_pos.mpr hy
      linarith

/-! ### Claims on the flow statistics -/

/-- C2: a record with `rxPackets = 0`, whatever its other counters, is reported
with throughput 0, mean delay 0 and loss rate 100; it leaves every
accumulator unchanged, it is not among the contributing flows, and the
network-wide figures are those of the record set without it. -/
theorem no_rx_flow_report {α : Type} [LinearOrderedField α] (flowDuration : α)
    (r : FlowStats α) (h : r.rxPackets = 0) :
    (∀ t, flowStep flowDuration t r = (⟨Dbl.fin 0, Dbl.fin 0, Dbl.fin 100⟩, t)) ∧
    (∀ pre post,
      (aggregate flowDuration (pre ++ r :: post)).1
          = (aggregate flowDuration pre).1
              ++ ⟨Dbl.fin 0, Dbl.fin 0, Dbl.fin 100⟩ :: (aggregate flowDuration post).1 ∧
      (flowLoop flowDuration (pre ++ r :: post) Totals.init).2
          = (flowLoop flowDuration (pre ++ post) Totals.init).2 ∧
      contributing (pre ++ r :: post) = contributing (pre ++ post) ∧
      (aggregate flowDuration (pre ++ r :: post)).2
          = (aggregate flowDuration (pre ++ post)).2) := by
  refine ⟨fun t => flowStep_of_rx_zero flowDuration t r h, ?_⟩
  intro pre post
  have hc := contributing_remove pre post r h
  refine ⟨?_, ?_, hc, ?_⟩
  · simp only [aggregate, flowLoop_fst, List.map_append, List.map_cons]
    rw [flowStep_of_rx_zero flowDuration Totals.init r h]
  · rw [flowLoop_snd_contributing, hc, ← flowLoop_snd_contributing]
  · rw [aggregate_snd_contributing, hc, ← aggregate_snd_contributing]

/-- C2 on the single flow with `txPackets = 100` and `rxPackets = 0`, over a
flow duration of 59.9 s. -/
theorem no_rx_flow_report_witness :
    (⟨100, 51200, 0, 0, 0⟩ : FlowStats ℚ).rxPackets = 0 ∧
    ((∀ t, flowStep (599 / 10 : ℚ) t ⟨100, 51200, 0, 0, 0⟩
        = (⟨Dbl.fin 0, Dbl.fin 0, Dbl.fin 100⟩, t)) ∧
    (∀ pre post,
      (aggregate (599 / 10 : ℚ) (pre ++ ⟨100, 51200, 0, 0, 0⟩ :: post)).1
          = (aggregate (599 / 10 : ℚ) pre).1
              ++ ⟨Dbl.fin 0, Dbl.fin 0, Dbl.fin 100⟩ :: (aggregate (599 / 10 : ℚ) post).1 ∧
      (flowLoop (599 / 10 : ℚ) (pre ++ ⟨100, 51200, 0, 0, 0⟩ :: post) Totals.init).2
          = (flowLoop (599 / 10 : ℚ) (pre ++ post) Totals.init).2 ∧
      contributing (pre ++ (⟨100, 51200, 0, 0, 0⟩ : FlowStats ℚ) :: post)
          = contributing (pre ++ post) ∧
      (aggregate (599 / 10 : ℚ) (pre ++ ⟨100, 51200, 0, 0, 0⟩ :: post)).2
          = (aggregate (599 / 10 : ℚ) (pre ++ post)).2)) :=
  ⟨rfl, no_rx_flow_report (599 / 10 : ℚ) ⟨100, 51200, 0, 0, 0⟩ rfl⟩

/-- C3 as stated fails: with `txPackets = 1` and `rxPackets = 2` the unsigned
difference wraps, and the loss rate printed is `(2 ^ 32 - 1) * 100`, not
`(1 - 2) * 100 / 1`. -/
theorem loss_rate_wraps :
    0 < (⟨1, 512, 2, 1024, 1 / 100⟩ : FlowStats ℚ).rxPackets ∧
    0 < (⟨1, 512, 2, 1024, 1 / 100⟩ : FlowStats ℚ).txPackets ∧
    (0 : ℚ) < 599 / 10 ∧
    (flowStep (599 / 10 : ℚ) Totals.init ⟨1, 512, 2, 1024, 1 / 100⟩).1.lossRate
      = Dbl.fin 429496729500 ∧
    (flowStep (599 / 10 : ℚ) Totals.init ⟨1, 512, 2, 1024, 1 / 100⟩).1.lossRate
      ≠ Dbl.fin (((1 : ℚ) - 2) * 100 / 1) := by
  have h : (flowStep (599 / 10 : ℚ) Totals.init ⟨1, 512, 2, 1024, 1 / 100⟩).1.lossRate
      = Dbl.fin 429496729500 := by
    simp only [flowStep, subU32, Dbl.ofNat_eq, Dbl.fin_mul_fin]
    rw [if_pos (by decide)]
    show Dbl.fin _ / Dbl.fin _ = _
    rw [Dbl.fin_div_fin _ _ (by norm_num)]
    norm_num
  refine ⟨by decide, by decide, by norm_num, h, ?_⟩
  rw [h]
  intro hc
  have hv := Dbl.fin.inj hc
  norm_num at hv

/-- C3, amended: for a record with `rxPackets > 0`, `txPackets > 0` and a
positive flow duration, the throughput and the mean delay printed are the
finite values `rxBytes * 8 / flowDuration / 1e6` and
`1000 * delaySum / rxPackets`, whatever `txPackets` is; and when moreover
`rxPackets ≤ txPackets`, with the counters in the range of their types, the
loss rate printed is the finite value
`(txPackets - rxPackets) * 100 / txPackets`. -/
theorem flow_kpi_formulas {α : Type} [LinearOrderedField α] (flowDuration : α)
    (t : Totals α) (r : FlowStats α) (hrx : 0 < r.rxPackets) (htx : 0 < r.txPackets)
    (hd : 0 < flowDuration) :
    (flowStep flowDuration t r).1.throughput
      = Dbl.fin ((r.rxBytes : α) * 8 / flowDuration / 1000000) ∧
    (flowStep flowDuration t r).1.delay = Dbl.fin (1000 * r.delaySum / (r.rxPackets : α)) ∧
    (r.WellTyped → r.rxPackets ≤ r.txPackets →
      (flowStep flowDuration t r).1.lossRate
        = Dbl.fin (((r.txPackets : α) - (r.rxPackets : α)) * 100 / (r.txPackets : α))) := by
  have hrx0 : (r.rxPackets : α) ≠ 0 := by
    have : (0 : α) < (r.rxPackets : α) := by exact_mod_cast hrx
    exact ne_of_gt this
  have htx0 : (r.txPackets : α) ≠ 0 := by
    have : (0 : α) < (r.txPackets : α) := by exact_mod_cast htx
    exact ne_of_gt this
  have hd0 : flowDuration ≠ 0 := ne_of_gt hd
  refine ⟨?_, ?_, ?_⟩
  · simp only [flowStep, if_pos hrx, throughputMbps, Dbl.ofNat_eq, Dbl.fin_mul_fin,
      Dbl.fin_div_fin _ _ hd0, Dbl.fin_div_thousand]
    congr 1
    rw [div_div]
    norm_num
  · simp only [flowStep, if_pos hrx, Dbl.ofNat_eq, Dbl.fin_mul_fin, Dbl.fin_div_fin _ _ hrx0]
  · intro hw hle
    have hsub : subU32 r.txPackets r.rxPackets = r.txPackets - r.rxPackets :=
      subU32_of_le _ _ hw.1 hle
    simp only [flowStep, if_pos hrx, hsub, Dbl.ofNat_eq, Dbl.fin_mul_fin,
      Dbl.fin_div_fin _ _ htx0, Nat.cast_sub hle]

/-- C3, amended, on a flow that lost 10 of 100 packets, and on the flow with
`txPackets = 1` and `rxPackets = 2`, whose throughput and mean delay are the
values of the formulas all the same. -/
theorem flow_kpi_formulas_witness :
    (0 < (⟨100, 51200, 90, 46080, 9 / 10⟩ : FlowStats ℚ).rxPackets ∧
      0 < (⟨100, 51200, 90, 46080, 9 / 10⟩ : FlowStats ℚ).txPackets ∧
      (0 : ℚ) < 599 / 10 ∧
      (⟨100, 51200, 90, 46080, 9 / 10⟩ : FlowStats ℚ).WellTyped ∧
      (⟨100, 51200, 90, 46080, 9 / 10⟩ : FlowStats ℚ).rxPackets
        ≤ (⟨100, 51200, 90, 46080, 9 / 10⟩ : FlowStats ℚ).txPackets ∧
      (flowStep (599 / 10 : ℚ) Totals.init ⟨100, 51200, 90, 46080, 9 / 10⟩).1.throughput
        = Dbl.fin (((46080 : Nat) : ℚ) * 8 / (599 / 10) / 1000000) ∧
      (flowStep (599 / 10 : ℚ) Totals.init ⟨100, 51200, 90, 46080, 9 / 10⟩).1.delay
        = Dbl.fin (1000 * (9 / 10) / ((90 : Nat) : ℚ)) ∧
      (flowStep (599 / 10 : ℚ) Totals.init ⟨100, 51200, 90, 46080, 9 / 10⟩).1.lossRate
        = Dbl.fin ((((100 : Nat) : ℚ) - ((90 : Nat) : ℚ)) * 100 / ((100 : Nat) : ℚ))) ∧
    (0 < (⟨1, 512, 2, 1024, 1 / 100⟩ : FlowStats ℚ).rxPackets ∧
      0 < (⟨1, 512, 2, 1024, 1 / 100⟩ : FlowStats ℚ).txPackets ∧
      (flowStep (599 / 10 : ℚ) Totals.init ⟨1, 512, 2, 1024, 1 / 100⟩).1.throughput
        = Dbl.fin (((1024 : Nat) : ℚ) * 8 / (599 / 10) / 1000000) ∧
      (flowStep (599 / 10 : ℚ) Totals.init ⟨1, 512, 2, 1024, 1 / 100⟩).1.delay
        = Dbl.fin (1000 * (1 / 100) / ((2 : Nat) : ℚ))) :=
  have h1 := flow_kpi_formulas (599 / 10 : ℚ) Totals.init ⟨100, 51200, 90, 46080, 9 / 10⟩
    (by decide) (by decide) (by norm_num)
  have h2 := flow_kpi_formulas (599 / 10 : ℚ) Totals.init ⟨1, 512, 2, 1024, 1 / 100⟩
    (by decide) (by decide) (by norm_num)
  ⟨⟨by decide, by decide, by norm_num, by simp [FlowStats.WellTyped], by decide,
      h1.1, h1.2.1, h1.2.2 (by simp [FlowStats.WellTyped]) (by decide)⟩,
    ⟨by decide, by decide, h2.1, h2.2.1⟩⟩

/-- C4: with `F` the number of flows that received packets, the fairness index
printed is 0 when `F ≤ 1` and Jain's index of the per-flow throughputs of
exactly those `F` flows when `F > 1`.  For a positive flow duration and some
flow with received bytes this is the finite value
`(Σ t_i)^2 / (F * Σ t_i^2)` with `t_i = rxBytes_i * 8 / flowDuration / 1e6`,
and two contributing flows with throughputs `T` and `3T` give `4/5`. -/
theorem fairness_is_jain {α : Type} [LinearOrderedField α] (flowDuration : α)
    (stats : List (FlowStats α)) (hlen : stats.length < 2 ^ 32) :
    ((contributing stats).length ≤ 1 →
      (aggregate flowDuration stats).2.fairnessIndex = Dbl.fin 0) ∧
    (1 < (contributing stats).length →
      (aggregate flowDuration stats).2.fairnessIndex
        = jainIndex ((contributing stats).map (throughputMbps flowDuration))) ∧
    (1 < (contributing stats).length → 0 < flowDuration →
      (∃ r ∈ contributing stats, 0 < r.rxBytes) →
      (aggregate flowDuration stats).2.fairnessIndex
        = Dbl.fin
            (((contributing stats).map
                (fun r => (r.rxBytes : α) * 8 / flowDuration / 1000000)).sum ^ 2
              / (((contributing stats).length : α)
                  * ((contributing stats).map
                      (fun r => ((r.rxBytes : α) * 8 / flowDuration / 1000000)
                        * ((r.rxBytes : α) * 8 / flowDuration / 1000000))).sum))) ∧
    (∀ r1 r2 : FlowStats α, contributing stats = [r1, r2] → 0 < flowDuration →
      0 < r1.rxBytes → r2.rxBytes = 3 * r1.rxBytes →
      (aggregate flowDuration stats).2.fairnessIndex = Dbl.fin (4 / 5)) := by
  have hmain := fairnessIndex_eq_jain flowDuration stats hlen
  have hfin : 1 < (contributing stats).length → 0 < flowDuration →
      (∃ r ∈ contributing stats, 0 < r.rxBytes) →
      (aggregate flowDuration stats).2.fairnessIndex
        = Dbl.fin
            (((contributing stats).map
                (fun r => (r.rxBytes : α) * 8 / flowDuration / 1000000)).sum ^ 2
              / (((contributing stats).length : α)
                  * ((contributing stats).map
                      (fun r => ((r.rxBytes : α) * 8 / flowDuration / 1000000)
                        * ((r.rxBytes : α) * 8 / flowDuration / 1000000))).sum)) := by
    intro hF hd hex
    have hd0 : flowDuration ≠ 0 := ne_of_gt hd
    have hthr : (contributing stats).map (throughputMbps flowDuration)
        = ((contributing stats).map
            (fun r => (r.rxBytes : α) * 8 / flowDuration / 1000000)).map Dbl.fin := by
      rw [List.map_map]
      exact List.map_congr_left (fun r _ => throughputMbps_fin flowDuration hd0 r)
    have hpos : (0 : α) < ((((contributing stats).map
        (fun r => (r.rxBytes : α) * 8 / flowDuration / 1000000)).map
          (fun y => y * y)).sum) := by
      apply sum_sq_pos
      obtain ⟨r, hr, hb⟩ := hex
      refine ⟨(r.rxBytes : α) * 8 / flowDuration / 1000000, List.mem_map.mpr ⟨r, hr, rfl⟩, ?_⟩
      have hb1 : (0 : α) < (r.rxBytes : α) := by exact_mod_cast hb
      have : (0 : α) < (r.rxBytes : α) * 8 / flowDuration / 1000000 := by positivity
      exact ne_of_gt this
    rw [hmain, if_pos hF, hthr, jainIndex_fin _ (by rw [List.length_map]; omega) (ne_of_gt hpos)]
    simp [List.map_map, Function.comp_def]
  refine ⟨?_, ?_, hfin, ?_⟩
  · intro hF
    rw [hmain, if_neg (by omega)]
  · intro hF
    rw [hmain, if_pos hF]
  · intro r1 r2 hc hd hb h3
    have hF : 1 < (contributing stats).length := by rw [hc]; simp
    have hex : ∃ r ∈ contributing stats, 0 < r.rxBytes := ⟨r1, by rw [hc]; simp, hb⟩
    rw [hfin hF hd hex, hc]
    congr 1
    have hb1 : (0 : α) < (r1.rxBytes : α) := by exact_mod_cast hb
    have hb0 : (r1.rxBytes : α) ≠ 0 := ne_of_gt hb1
    have hd0 : flowDuration ≠ 0 := ne_of_gt hd
    simp only [List.map_cons, List.map_nil, List.sum_cons, List.sum_nil, List.length_cons,
      List.length_nil, h3]
    push_cast
    field_simp
    ring

/-- C4 on two flows that received 1000 and 3000 bytes: the index is `4/5`. -/
theorem fairness_is_jain_witness :
    ([⟨10, 5120, 10, 1000, 1 / 10⟩, ⟨10, 5120, 10, 3000, 1 / 10⟩] : List (FlowStats ℚ)).length
      < 2 ^ 32 ∧
    (aggregate (599 / 10 : ℚ)
      [⟨10, 5120, 10, 1000, 1 / 10⟩, ⟨10, 5120, 10, 3000, 1 / 10⟩]).2.fairnessIndex
      = Dbl.fin (4 / 5) :=
  ⟨by simp,
    (fairness_is_jain (599 / 10 : ℚ)
      [⟨10, 5120, 10, 1000, 1 / 10⟩, ⟨10, 5120, 10, 3000, 1 / 10⟩] (by simp)).2.2.2
      ⟨10, 5120, 10, 1000, 1 / 10⟩ ⟨10, 5120, 10, 3000, 1 / 10⟩
      (by simp [contributing]) (by norm_num) (by decide) (by decide)⟩

/-- C5 as stated fails: for the single flow with `txPackets = 100` and
`rxPackets = 0` the network loss rate is the `NaN` of `0 / 0`, not 100. -/
theorem no_rx_network_loss_not_100 :
    0 < (⟨100, 51200, 0, 0, 0⟩ : FlowStats ℚ).txPackets ∧
    contributing [(⟨100, 51200, 0, 0, 0⟩ : FlowStats ℚ)] = [] ∧
    (aggregate (599 / 10 : ℚ) [⟨100, 51200, 0, 0, 0⟩]).2.packetLossRate = Dbl.nan ∧
    (aggregate (599 / 10 : ℚ) [⟨100, 51200, 0, 0, 0⟩]).2.packetLossRate ≠ Dbl.fin 100 := by
  have h : (aggregate (599 / 10 : ℚ) [⟨100, 51200, 0, 0, 0⟩]).2.packetLossRate = Dbl.nan := by
    simp [aggregate, networkKPI, flowLoop, flowStep, Totals.init]
  refine ⟨by decide, by simp [contributing], h, ?_⟩
  rw [h]
  exact fun hc => Dbl.noConfusion hc

/-- C5, amended: when no flow received any packet (the empty record set
included) the three divisions are carried out on zero accumulators; mean
throughput, mean delay and loss rate are all the `NaN` of `0 / 0`, whether
or not some flow transmitted, and the fairness index is 0. -/
theorem no_contributing_flow_network {α : Type} [LinearOrderedField α] (flowDuration : α)
    (stats : List (FlowStats α)) (h : ∀ r ∈ stats, r.rxPackets = 0) :
    (aggregate flowDuration stats).2 = ⟨Dbl.nan, Dbl.nan, Dbl.nan, Dbl.fin 0⟩ := by
  have hc : contributing stats = [] := by
    apply List.filter_eq_nil_iff.mpr
    intro r hr
    simp [h r hr]
  rw [aggregate_snd_contributing, hc]
  simp [aggregate, networkKPI, flowLoop, Totals.init, fairnessIndex]

/-- C5, amended, on the single flow with `txPackets = 100`, `rxPackets = 0`. -/
theorem no_contributing_flow_network_witness :
    (∀ r ∈ [(⟨100, 51200, 0, 0, 0⟩ : FlowStats ℚ)], r.rxPackets = 0) ∧
    (aggregate (599 / 10 : ℚ) [⟨100, 51200, 0, 0, 0⟩]).2
      = ⟨Dbl.nan, Dbl.nan, Dbl.nan, Dbl.fin 0⟩ :=
  ⟨by simp, no_contributing_flow_network (599 / 10 : ℚ) [⟨100, 51200, 0, 0, 0⟩] (by simp)⟩

/-- C6 as stated fails: a record with `rxPackets = 1` and `txPackets = 0` gets
a finite throughput and an infinite loss rate from the division by zero, it
counts as a contributing flow, and it changes the network loss rate of the
flow listed next to it from 0 to `(2 ^ 32 - 1) * 100 / 10`. -/
theorem zero_tx_record_is_aggregated :
    (flowStep (599 / 10 : ℚ) Totals.init ⟨0, 0, 1, 512, 1 / 100⟩).1.throughput ≠ Dbl.nan ∧
    (flowStep (599 / 10 : ℚ) Totals.init ⟨0, 0, 1, 512, 1 / 100⟩).1.lossRate
      = Dbl.inf false ∧
    (aggregate (599 / 10 : ℚ) [⟨10, 5120, 10, 5120, 1 / 10⟩]).2.packetLossRate = Dbl.fin 0 ∧
    (aggregate (599 / 10 : ℚ)
      [⟨10, 5120, 10, 5120, 1 / 10⟩, ⟨0, 0, 1, 512, 1 / 100⟩]).2.packetLossRate
      = Dbl.fin 42949672950 ∧
    (aggregate (599 / 10 : ℚ)
      [⟨10, 5120, 10, 5120, 1 / 10⟩, ⟨0, 0, 1, 512, 1 / 100⟩]).2
      ≠ (aggregate (599 / 10 : ℚ) [⟨10, 5120, 10, 5120, 1 / 10⟩]).2 := by
  have h1 : (aggregate (599 / 10 : ℚ) [⟨10, 5120, 10, 5120, 1 / 10⟩]).2.packetLossRate
      = Dbl.fin 0 := by
    simp only [aggregate, networkKPI, flowLoop, flowStep, Totals.init, subU32, u32,
      Dbl.ofNat_eq, Dbl.fin_mul_fin, Dbl.fin_add_fin]
    rw [if_pos (by decide)]
    show Dbl.fin _ / Dbl.fin _ = _
    rw [Dbl.fin_div_fin _ _ (by norm_num)]
    norm_num
  have h2 : (aggregate (599 / 10 : ℚ)
      [⟨10, 5120, 10, 5120, 1 / 10⟩, ⟨0, 0, 1, 512, 1 / 100⟩]).2.packetLossRate
      = Dbl.fin 42949672950 := by
    simp only [aggregate, networkKPI, flowLoop, flowStep, Totals.init, subU32, u32,
      Dbl.ofNat_eq, Dbl.fin_mul_fin, Dbl.fin_add_fin]
    rw [if_pos (by decide), if_pos (by decide)]
    show Dbl.fin _ / Dbl.fin _ = _
    rw [Dbl.fin_div_fin _ _ (by norm_num)]
    norm_num
  refine ⟨?_, ?_, h1, h2, ?_⟩
  · rw [flowStep, if_pos (by decide)]
    show throughputMbps _ _ ≠ _
    rw [throughputMbps_fin _ (by norm_num)]
    exact fun hc => Dbl.noConfusion hc
  · simp only [flowStep, subU32, Dbl.ofNat_eq, Dbl.fin_mul_fin]
    rw [if_pos (by decide)]
    show Dbl.fin _ / Dbl.fin _ = _
    norm_num
    exact Dbl.pos_div_zero _ (by norm_num)
  · intro hc
    have h3 := congrArg NetworkKPI.packetLossRate hc
    rw [h1, h2] at h3
    have h4 := Dbl.fin.inj h3
    norm_num at h4

/-- C6, amended: for a well-typed record with `rxPackets > 0` and
`txPackets = 0` nothing is signalled and the division by zero is carried out:
the flow gets the usual finite throughput and mean delay and an infinite
loss rate, and it is accumulated as a contributing flow. -/
theorem zero_tx_record_step {α : Type} [LinearOrderedField α] (flowDuration : α)
    (t : Totals α) (r : FlowStats α) (hw : r.WellTyped) (hrx : 0 < r.rxPackets)
    (htx : r.txPackets = 0) (hd : 0 < flowDuration) :
    (flowStep flowDuration t r).1.throughput
      = Dbl.fin ((r.rxBytes : α) * 8 / flowDuration / 1000000) ∧
    (flowStep flowDuration t r).1.delay = Dbl.fin (1000 * r.delaySum / (r.rxPackets : α)) ∧
    (∃ sign, (flowStep flowDuration t r).1.lossRate = Dbl.inf sign) ∧
    contributing [r] = [r] ∧
    (flowStep flowDuration t r).2.totalFlows = u32 (t.totalFlows + 1) ∧
    (flowStep flowDuration t r).2.totalRxBytes = t.totalRxBytes + Dbl.ofNat r.rxBytes ∧
    (flowStep flowDuration t r).2.totalDelay = t.totalDelay + Dbl.fin r.delaySum ∧
    (flowStep flowDuration t r).2.totalRxPackets = u32 (t.totalRxPackets + r.rxPackets) := by
  have hrx0 : (r.rxPackets : α) ≠ 0 := by
    have : (0 : α) < (r.rxPackets : α) := by exact_mod_cast hrx
    exact ne_of_gt this
  have hsub : subU32 r.txPackets r.rxPackets = 2 ^ 32 - r.rxPackets := by
    rw [htx, subU32_of_lt 0 r.rxPackets hw.2.1 hrx, Nat.zero_add]
  have hlost : (0 : α) < ((2 ^ 32 - r.rxPackets : Nat) : α) * 100 := by
    have h1 : 0 < 2 ^ 32 - r.rxPackets := Nat.sub_pos_of_lt hw.2.1
    have h2 : (0 : α) < ((2 ^ 32 - r.rxPackets : Nat) : α) := by exact_mod_cast h1
    positivity
  refine ⟨?_, ?_, ⟨false, ?_⟩, ?_, ?_, ?_, ?_, ?_⟩
  · simp only [flowStep, if_pos hrx]
    exact throughputMbps_fin flowDuration (ne_of_gt hd) r
  · simp only [flowStep, if_pos hrx, Dbl.ofNat_eq, Dbl.fin_mul_fin, Dbl.fin_div_fin _ _ hrx0]
  · simp only [flowStep, if_pos hrx, hsub, Dbl.ofNat_eq, Dbl.fin_mul_fin]
    rw [htx, Nat.cast_zero]
    exact Dbl.pos_div_zero _ hlost
  · simp [contributing, hrx]
  · simp only [flowStep, if_pos hrx]
  · simp only [flowStep, if_pos hrx]
  · simp only [flowStep, if_pos hrx]
  · simp only [flowStep, if_pos hrx]

/-- C6, amended, on a record with one packet received and none sent. -/
theorem zero_tx_record_step_witness :
    (⟨0, 0, 1, 512, 1 / 100⟩ : FlowStats ℚ).WellTyped ∧
    0 < (⟨0, 0, 1, 512, 1 / 100⟩ : FlowStats ℚ).rxPackets ∧
    (⟨0, 0, 1, 512, 1 / 100⟩ : FlowStats ℚ).txPackets = 0 ∧
    (0 : ℚ) < 599 / 10 ∧
    (∃ sign, (flowStep (599 / 10 : ℚ) Totals.init ⟨0, 0, 1, 512, 1 / 100⟩).1.lossRate
      = Dbl.inf sign) ∧
    (flowStep (599 / 10 : ℚ) Totals.init ⟨0, 0, 1, 512, 1 / 100⟩).2.totalFlows
      = u32 ((Totals.init : Totals ℚ).totalFlows + 1) :=
  ⟨by simp [FlowStats.WellTyped], by decide, rfl, by norm_num,
    (zero_tx_record_step (599 / 10 : ℚ) Totals.init ⟨0, 0, 1, 512, 1 / 100⟩
      (by simp [FlowStats.WellTyped]) (by decide) rfl (by norm_num)).2.2.1,
    (zero_tx_record_step (599 / 10 : ℚ) Totals.init ⟨0, 0, 1, 512, 1 / 100⟩
      (by simp [FlowStats.WellTyped]) (by decide) rfl (by norm_num)).2.2.2.2.1⟩

/-- The loss rate printed for a well-typed record with packets sent and
received, in the two cases of the unsigned subtraction. -/
theorem lossRate_cases {α : Type} [LinearOrderedField α] (flowDuration : α)
    (t : Totals α) (r : FlowStats α) (hw : r.WellTyped) (hrx : 0 < r.rxPackets)
    (htx : 0 < r.txPackets) :
    (r.rxPackets ≤ r.txPackets →
      (flowStep flowDuration t r).1.lossRate
        = Dbl.fin (((r.txPackets : α) - (r.rxPackets : α)) * 100 / (r.txPackets : α))) ∧
    (r.txPackets < r.rxPackets →
      (flowStep flowDuration t r).1.lossRate
        = Dbl.fin (((2 : α) ^ 32 + (r.txPackets : α) - (r.rxPackets : α)) * 100
            / (r.txPackets : α))) := by
  have htx0 : (r.txPackets : α) ≠ 0 := by
    have : (0 : α) < (r.txPackets : α) := by exact_mod_cast htx
    exact ne_of_gt this
  constructor
  · intro hle
    simp only [flowStep, if_pos hrx, subU32_of_le _ _ hw.1 hle, Dbl.ofNat_eq, Dbl.fin_mul_fin,
      Dbl.fin_div_fin _ _ htx0, Nat.cast_sub hle]
  · intro hlt
    have hsub : ((r.txPackets + 2 ^ 32 - r.rxPackets : Nat) : α)
        = (2 : α) ^ 32 + (r.txPackets : α) - (r.rxPackets : α) := by
      have h0 : r.rxPackets < 2 ^ 32 := hw.2.1
      have h1 : r.rxPackets ≤ r.txPackets + 2 ^ 32 := by omega
      rw [Nat.cast_sub h1]
      push_cast
      ring
    simp only [flowStep, if_pos hrx, subU32_of_lt _ _ hw.2.1 hlt, Dbl.ofNat_eq,
      Dbl.fin_mul_fin, Dbl.fin_div_fin _ _ htx0, hsub]

/-- C21: for a record whose counters fit in 32 bits, with packets sent and
received, the loss rate printed is a value of `[0, 100)` exactly when
`rxPackets ≤ txPackets`, where it is `(txPackets - rxPackets) * 100 /
txPackets`.  When `rxPackets > txPackets` the unsigned difference wraps and the
loss rate printed is `(2 ^ 32 + txPackets - rxPackets) * 100 / txPackets`,
which is above 100 and not negative. -/
theorem loss_rate_range {α : Type} [LinearOrderedField α] (flowDuration : α)
    (t : Totals α) (r : FlowStats α) (hw : r.WellTyped) (hrx : 0 < r.rxPackets)
    (htx : 0 < r.txPackets) :
    ((∃ v, (flowStep flowDuration t r).1.lossRate = Dbl.fin v ∧ 0 ≤ v ∧ v < 100)
      ↔ r.rxPackets ≤ r.txPackets) ∧
    (r.rxPackets ≤ r.txPackets →
      (flowStep flowDuration t r).1.lossRate
        = Dbl.fin (((r.txPackets : α) - (r.rxPackets : α)) * 100 / (r.txPackets : α))) ∧
    (r.txPackets < r.rxPackets →
      (flowStep flowDuration t r).1.lossRate
          = Dbl.fin (((2 : α) ^ 32 + (r.txPackets : α) - (r.rxPackets : α)) * 100
              / (r.txPackets : α)) ∧
        100 < ((2 : α) ^ 32 + (r.txPackets : α) - (r.rxPackets : α)) * 100
              / (r.txPackets : α)) := by
  obtain ⟨hcase1, hcase2⟩ := lossRate_cases flowDuration t r hw hrx htx
  have htxp : (0 : α) < (r.txPackets : α) := by exact_mod_cast htx
  have hrxp : (0 : α) < (r.rxPackets : α) := by exact_mod_cast hrx
  have hbig : r.txPackets < r.rxPackets →
      100 < ((2 : α) ^ 32 + (r.txPackets : α) - (r.rxPackets : α)) * 100
        / (r.txPackets : α) := by
    intro _
    have hlt : (r.rxPackets : α) < (2 : α) ^ 32 := by
      have h1 : r.rxPackets < 2 ^ 32 := hw.2.1
      exact_mod_cast h1
    rw [lt_div_iff₀ htxp]
    nlinarith
  refine ⟨⟨?_, ?_⟩, hcase1, fun hlt => ⟨hcase2 hlt, hbig hlt⟩⟩
  · rintro ⟨v, hv, _, hv100⟩
    by_contra hnle
    have hlt : r.txPackets < r.rxPackets := by omega
    rw [hcase2 hlt] at hv
    have := Dbl.fin.inj hv
    have h100 := hbig hlt
    rw [this] at h100
    linarith
  · intro hle
    have hlec : (r.rxPackets : α) ≤ (r.txPackets : α) := by exact_mod_cast hle
    refine ⟨_, hcase1 hle, ?_, ?_⟩
    · apply div_nonneg _ htxp.le
      nlinarith
    · rw [div_lt_iff₀ htxp]
      nlinarith

/-- C21 on a record with one packet sent and two received: the loss rate is
`(2 ^ 32 + 1 - 2) * 100 / 1`, above 100. -/
theorem loss_rate_range_witness :
    (⟨1, 512, 2, 1024, 1 / 100⟩ : FlowStats ℚ).WellTyped ∧
    0 < (⟨1, 512, 2, 1024, 1 / 100⟩ : FlowStats ℚ).rxPackets ∧
    0 < (⟨1, 512, 2, 1024, 1 / 100⟩ : FlowStats ℚ).txPackets ∧
    (flowStep (599 / 10 : ℚ) Totals.init ⟨1, 512, 2, 1024, 1 / 100⟩).1.lossRate
      = Dbl.fin (((2 : ℚ) ^ 32 + ((1 : Nat) : ℚ) - ((2 : Nat) : ℚ)) * 100 / ((1 : Nat) : ℚ)) ∧
    100 < ((2 : ℚ) ^ 32 + ((1 : Nat) : ℚ) - ((2 : Nat) : ℚ)) * 100 / ((1 : Nat) : ℚ) :=
  ⟨by simp [FlowStats.WellTyped], by decide, by decide,
    (loss_rate_range (599 / 10 : ℚ) Totals.init ⟨1, 512, 2, 1024, 1 / 100⟩
      (by simp [FlowStats.WellTyped]) (by decide) (by decide)).2.2 (by decide)⟩

/-! ### The accumulators in closed form -/

theorem u32_add_left (a b : Nat) : u32 (u32 a + b) = u32 (a + b) := by
  unfold u32
  omega

/-- The accumulators after the flow loop, started from finite doubles and
reduced counters: each is its start value plus the sum over the flows with
received packets, the three counters modulo `2 ^ 32`. -/
theorem flowLoop_totals {α : Type} [LinearOrderedField α] (flowDuration : α)
    (rs : List (FlowStats α)) (a b c : α) (k l n : Nat) :
    (flowLoop flowDuration rs
        ⟨Dbl.fin a, Dbl.fin b, Dbl.fin c, u32 k, u32 l, u32 n⟩).2
      = ⟨Dbl.fin (a + ((contributing rs).map (fun r => (r.rxBytes : α))).sum),
         Dbl.fin (b + ((contributing rs).map (fun r => r.delaySum)).sum),
         Dbl.fin (c + ((contributing rs).map
            (fun r => ((subU32 r.txPackets r.rxPackets : Nat) : α))).sum),
         u32 (k + ((contributing rs).map (fun r => r.rxPackets)).sum),
         u32 (l + ((contributing rs).map (fun r => r.txPackets)).sum),
         u32 (n + (contributing rs).length)⟩ := by
  induction rs generalizing a b c k l n with
  | nil => simp [flowLoop, contributing]
  | cons r rs ih =>
    by_cases h : 0 < r.rxPackets
    · have hc : contributing (r :: rs) = r :: contributing rs := by
        simp [contributing, h]
      rw [hc]
      simp only [flowLoop, flowStep, if_pos h, Dbl.ofNat_eq, Dbl.fin_add_fin, u32_add_left,
        List.map_cons, List.sum_cons, List.length_cons]
      rw [ih]
      simp only [add_assoc, Nat.add_assoc, Nat.add_comm 1]
    · have hc : contributing (r :: rs) = contributing rs := by
        simp [contributing, h]
      have h0 : r.rxPackets = 0 := by omega
      rw [hc]
      simp only [flowLoop, flowStep_of_rx_zero flowDuration _ r h0]
      exact ih a b c k l n

/-- The accumulators after the flow loop of `aggregate`. -/
theorem aggregate_totals {α : Type} [LinearOrderedField α] (flowDuration : α)
    (rs : List (FlowStats α)) :
    (flowLoop flowDuration rs Totals.init).2
      = ⟨Dbl.fin (((contributing rs).map (fun r => (r.rxBytes : α))).sum),
         Dbl.fin (((contributing rs).map (fun r => r.delaySum)).sum),
         Dbl.fin (((contributing rs).map
            (fun r => ((subU32 r.txPackets r.rxPackets : Nat) : α))).sum),
         u32 (((contributing rs).map (fun r => r.rxPackets)).sum),
         u32 (((contributing rs).map (fun r => r.txPackets)).sum),
         u32 ((contributing rs).length)⟩ := by
  have h := flowLoop_totals flowDuration rs 0 0 0 0 0 0
  simp only [zero_add, Nat.zero_add] at h
  exact h

/-- With at least one contributing flow the received packets sum to a positive
number. -/
theorem rxPackets_sum_pos {α : Type} [LinearOrderedField α] (rs : List (FlowStats α))
    (hF : 0 < (contributing rs).length) :
    0 < ((contributing rs).map (fun r => r.rxPackets)).sum := by
  obtain ⟨r, hr⟩ := List.exists_mem_of_length_pos hF
  have hpos : 0 < r.rxPackets := by
    have := (List.mem_filter.mp hr).2
    simpa using this
  have hle : r.rxPackets ≤ ((contributing rs).map (fun r => r.rxPackets)).sum :=
    List.single_le_sum (by intro x _; exact Nat.zero_le x) _
      (List.mem_map.mpr ⟨r, hr, rfl⟩)
  omega

/-! ### Claims on the network figures -/

/-- C12: with at least one flow that received packets and a positive flow
duration, the mean throughput printed is the finite value
`(Σ rxBytes) * 8 / (flowDuration * F) / 1e6`, where the sum and the count `F`
run over the flows with `rxPackets > 0` only. -/
theorem mean_throughput_formula {α : Type} [LinearOrderedField α] (flowDuration : α)
    (stats : List (FlowStats α)) (hlen : stats.length < 2 ^ 32)
    (hF : 0 < (contributing stats).length) (hd : 0 < flowDuration) :
    (aggregate flowDuration stats).2.meanThroughput
      = Dbl.fin ((((contributing stats).map (fun r => (r.rxBytes : α))).sum) * 8
          / (flowDuration * ((contributing stats).length : α)) / 1000000) := by
  have hcnt : u32 (contributing stats).length = (contributing stats).length := by
    have h1 : (contributing stats).length ≤ stats.length := List.length_filter_le _ _
    exact Nat.mod_eq_of_lt (by omega)
  have hF0 : (0 : α) < ((contributing stats).length : α) := by exact_mod_cast hF
  have hden : flowDuration * ((contributing stats).length : α) ≠ 0 :=
    ne_of_gt (mul_pos hd hF0)
  simp only [aggregate, networkKPI, aggregate_totals, hcnt, Dbl.ofNat_eq, Dbl.fin_mul_fin,
    Dbl.fin_div_fin _ _ hden, Dbl.fin_div_thousand]
  congr 1
  rw [div_div]
  norm_num

/-- C12 on two flows with 1000 and 3000 bytes received and one flow that
received nothing. -/
theorem mean_throughput_formula_witness :
    ([⟨10, 5120, 10, 1000, 1 / 10⟩, ⟨10, 5120, 0, 0, 0⟩, ⟨10, 5120, 10, 3000, 1 / 10⟩] :
      List (FlowStats ℚ)).length < 2 ^ 32 ∧
    0 < (contributing ([⟨10, 5120, 10, 1000, 1 / 10⟩, ⟨10, 5120, 0, 0, 0⟩,
      ⟨10, 5120, 10, 3000, 1 / 10⟩] : List (FlowStats ℚ))).length ∧
    (0 : ℚ) < 599 / 10 ∧
    (aggregate (599 / 10 : ℚ) [⟨10, 5120, 10, 1000, 1 / 10⟩, ⟨10, 5120, 0, 0, 0⟩,
      ⟨10, 5120, 10, 3000, 1 / 10⟩]).2.meanThroughput
      = Dbl.fin ((((contributing ([⟨10, 5120, 10, 1000, 1 / 10⟩, ⟨10, 5120, 0, 0, 0⟩,
          ⟨10, 5120, 10, 3000, 1 / 10⟩] : List (FlowStats ℚ))).map
            (fun r => (r.rxBytes : ℚ))).sum) * 8
          / ((599 / 10 : ℚ) * ((contributing ([⟨10, 5120, 10, 1000, 1 / 10⟩,
              ⟨10, 5120, 0, 0, 0⟩, ⟨10, 5120, 10, 3000, 1 / 10⟩] :
                List (FlowStats ℚ))).length : ℚ)) / 1000000) :=
  ⟨by simp, by simp [contributing], by norm_num,
    mean_throughput_formula (599 / 10 : ℚ) _ (by simp) (by simp [contributing])
      (by norm_num)⟩

/-- C13 as stated fails: two flows that each received `2 ^ 31` packets make the
32-bit packet total wrap to 0, and the mean delay printed is `+inf`, not
`(1 + 1) / 2 ^ 32 * 1000`. -/
theorem mean_delay_total_wraps :
    0 < (contributing ([⟨2147483648, 0, 2147483648, 0, 1⟩,
      ⟨2147483648, 0, 2147483648, 0, 1⟩] : List (FlowStats ℚ))).length ∧
    (aggregate (599 / 10 : ℚ) [⟨2147483648, 0, 2147483648, 0, 1⟩,
      ⟨2147483648, 0, 2147483648, 0, 1⟩]).2.meanDelay = Dbl.inf false ∧
    (aggregate (599 / 10 : ℚ) [⟨2147483648, 0, 2147483648, 0, 1⟩,
      ⟨2147483648, 0, 2147483648, 0, 1⟩]).2.meanDelay
      ≠ Dbl.fin (((1 : ℚ) + 1) / ((2147483648 : ℚ) + 2147483648) * 1000) := by
  have h : (aggregate (599 / 10 : ℚ) [⟨2147483648, 0, 2147483648, 0, 1⟩,
      ⟨2147483648, 0, 2147483648, 0, 1⟩]).2.meanDelay = Dbl.inf false := by
    simp only [aggregate, networkKPI, flowLoop, flowStep, Totals.init, u32,
      Dbl.ofNat_eq, Dbl.fin_add_fin]
    rw [if_pos (by decide), if_pos (by decide)]
    show Dbl.fin _ / Dbl.fin _ * Dbl.fin _ = _
    norm_num
    rw [Dbl.pos_div_zero _ (by norm_num)]
    show Dbl.mul _ _ = _
    simp [Dbl.mul]
  refine ⟨by simp [contributing], h, ?_⟩
  rw [h]
  exact fun hc => Dbl.noConfusion hc

/-- C13, amended: with at least one flow that received packets, and the
received packets of those flows summing to less than `2 ^ 32`, the mean delay
printed is the finite value `(Σ delaySum) / (Σ rxPackets) * 1000`, both sums
over the flows with `rxPackets > 0`. -/
theorem mean_delay_formula {α : Type} [LinearOrderedField α] (flowDuration : α)
    (stats : List (FlowStats α)) (hF : 0 < (contributing stats).length)
    (hsum : ((contributing stats).map (fun r => r.rxPackets)).sum < 2 ^ 32) :
    (aggregate flowDuration stats).2.meanDelay
      = Dbl.fin (((contributing stats).map (fun r => r.delaySum)).sum
          / ((((contributing stats).map (fun r => r.rxPackets)).sum : Nat) : α) * 1000) := by
  have hwrap : u32 (((contributing stats).map (fun r => r.rxPackets)).sum)
      = ((contributing stats).map (fun r => r.rxPackets)).sum := Nat.mod_eq_of_lt hsum
  have hpos := rxPackets_sum_pos stats hF
  have hne : ((((contributing stats).map (fun r => r.rxPackets)).sum : Nat) : α) ≠ 0 := by
    have : (0 : α) < ((((contributing stats).map (fun r => r.rxPackets)).sum : Nat) : α) := by
      exact_mod_cast hpos
    exact ne_of_gt this
  simp only [aggregate, networkKPI, aggregate_totals, hwrap, Dbl.ofNat_eq,
    Dbl.fin_div_fin _ _ hne, Dbl.fin_mul_fin]

/-- C13, amended, on two flows with 10 and 30 packets received. -/
theorem mean_delay_formula_witness :
    0 < (contributing ([⟨10, 5120, 10, 1000, 1 / 10⟩, ⟨30, 5120, 30, 3000, 6 / 10⟩] :
      List (FlowStats ℚ))).length ∧
    ((contributing ([⟨10, 5120, 10, 1000, 1 / 10⟩, ⟨30, 5120, 30, 3000, 6 / 10⟩] :
      List (FlowStats ℚ))).map (fun r => r.rxPackets)).sum < 2 ^ 32 ∧
    (aggregate (599 / 10 : ℚ) [⟨10, 5120, 10, 1000, 1 / 10⟩,
      ⟨30, 5120, 30, 3000, 6 / 10⟩]).2.meanDelay
      = Dbl.fin (((contributing ([⟨10, 5120, 10, 1000, 1 / 10⟩,
          ⟨30, 5120, 30, 3000, 6 / 10⟩] : List (FlowStats ℚ))).map
            (fun r => r.delaySum)).sum
          / ((((contributing ([⟨10, 5120, 10, 1000, 1 / 10⟩,
              ⟨30, 5120, 30, 3000, 6 / 10⟩] : List (FlowStats ℚ))).map
                (fun r => r.rxPackets)).sum : Nat) : ℚ) * 1000) :=
  ⟨by simp [contributing], by simp [contributing],
    mean_delay_formula (599 / 10 : ℚ) _ (by simp [contributing]) (by simp [contributing])⟩

/-- C14 as stated fails in two ways.  Two flows with `2 ^ 31` packets sent and
received make the 32-bit total of sent packets wrap to 0, and the loss rate
printed is the `NaN` of `0 / 0`, not 0.  A flow with one packet sent and two
received has its unsigned difference wrap, and the loss rate printed is
`(2 ^ 32 - 1) * 100`, not `(1 - 2) * 100 / 1`. -/
theorem loss_rate_totals_wrap :
    0 < (contributing ([⟨2147483648, 0, 2147483648, 0, 1⟩,
      ⟨2147483648, 0, 2147483648, 0, 1⟩] : List (FlowStats ℚ))).length ∧
    (aggregate (599 / 10 : ℚ) [⟨2147483648, 0, 2147483648, 0, 1⟩,
      ⟨2147483648, 0, 2147483648, 0, 1⟩]).2.packetLossRate = Dbl.nan ∧
    (aggregate (599 / 10 : ℚ) [⟨2147483648, 0, 2147483648, 0, 1⟩,
      ⟨2147483648, 0, 2147483648, 0, 1⟩]).2.packetLossRate
      ≠ Dbl.fin ((((2147483648 : ℚ) - 2147483648) + ((2147483648 : ℚ) - 2147483648)) * 100
          / ((2147483648 : ℚ) + 2147483648)) ∧
    0 < (contributing ([⟨1, 512, 2, 1024, 1 / 100⟩] : List (FlowStats ℚ))).length ∧
    (aggregate (599 / 10 : ℚ) [⟨1, 512, 2, 1024, 1 / 100⟩]).2.packetLossRate
      = Dbl.fin 429496729500 ∧
    (aggregate (599 / 10 : ℚ) [⟨1, 512, 2, 1024, 1 / 100⟩]).2.packetLossRate
      ≠ Dbl.fin (((1 : ℚ) - 2) * 100 / 1) := by
  have h1 : (aggregate (599 / 10 : ℚ) [⟨2147483648, 0, 2147483648, 0, 1⟩,
      ⟨2147483648, 0, 2147483648, 0, 1⟩]).2.packetLossRate = Dbl.nan := by
    simp only [aggregate, networkKPI, flowLoop, flowStep, Totals.init, u32, subU32,
      Dbl.ofNat_eq, Dbl.fin_add_fin]
    rw [if_pos (by decide), if_pos (by decide)]
    show Dbl.fin _ * Dbl.fin _ / Dbl.fin _ = _
    norm_num
  have h2 : (aggregate (599 / 10 : ℚ) [⟨1, 512, 2, 1024, 1 / 100⟩]).2.packetLossRate
      = Dbl.fin 429496729500 := by
    simp only [aggregate, networkKPI, flowLoop, flowStep, Totals.init, u32, subU32,
      Dbl.ofNat_eq, Dbl.fin_add_fin]
    rw [if_pos (by decide)]
    show Dbl.fin _ * Dbl.fin _ / Dbl.fin _ = _
    rw [Dbl.fin_mul_fin, Dbl.fin_div_fin _ _ (by norm_num)]
    norm_num
  refine ⟨by simp [contributing], h1, ?_, by simp [contributing], h2, ?_⟩
  · rw [h1]
    exact fun hc => Dbl.noConfusion hc
  · rw [h2]
    intro hc
    have hv := Dbl.fin.inj hc
    norm_num at hv

/-- C14, amended: with at least one flow that received packets, every such flow
having `rxPackets ≤ txPackets`, and their sent packets summing to less than
`2 ^ 32`, the loss rate printed is the finite value
`(Σ (txPackets - rxPackets)) * 100 / (Σ txPackets)`, both sums over the flows
with `rxPackets > 0` only. -/
theorem loss_rate_formula {α : Type} [LinearOrderedField α] (flowDuration : α)
    (stats : List (FlowStats α)) (hF : 0 < (contributing stats).length)
    (hle : ∀ r ∈ contributing stats, r.rxPackets ≤ r.txPackets)
    (hsum : ((contributing stats).map (fun r => r.txPackets)).sum < 2 ^ 32) :
    (aggregate flowDuration stats).2.packetLossRate
      = Dbl.fin (((contributing stats).map
            (fun r => (r.txPackets : α) - (r.rxPackets : α))).sum * 100
          / ((((contributing stats).map (fun r => r.txPackets)).sum : Nat) : α)) := by
  have hwrap : u32 (((contributing stats).map (fun r => r.txPackets)).sum)
      = ((contributing stats).map (fun r => r.txPackets)).sum := Nat.mod_eq_of_lt hsum
  have htx : ∀ r ∈ contributing stats, r.txPackets < 2 ^ 32 := by
    intro r hr
    have h1 : r.txPackets ≤ ((contributing stats).map (fun r => r.txPackets)).sum :=
      List.single_le_sum (by intro x _; exact Nat.zero_le x) _
        (List.mem_map.mpr ⟨r, hr, rfl⟩)
    omega
  have hlost : (contributing stats).map
        (fun r => ((subU32 r.txPackets r.rxPackets : Nat) : α))
      = (contributing stats).map (fun r => (r.txPackets : α) - (r.rxPackets : α)) := by
    apply List.map_congr_left
    intro r hr
    rw [subU32_of_le _ _ (htx r hr) (hle r hr), Nat.cast_sub (hle r hr)]
  have hpos : 0 < ((contributing stats).map (fun r => r.txPackets)).sum := by
    obtain ⟨r, hr⟩ := List.exists_mem_of_length_pos hF
    have hrx : 0 < r.rxPackets := by
      have := (List.mem_filter.mp hr).2
      simpa using this
    have h1 : r.txPackets ≤ ((contributing stats).map (fun r => r.txPackets)).sum :=
      List.single_le_sum (by intro x _; exact Nat.zero_le x) _
        (List.mem_map.mpr ⟨r, hr, rfl⟩)
    have h2 := hle r hr
    omega
  have hne : ((((contributing stats).map (fun r => r.txPackets)).sum : Nat) : α) ≠ 0 := by
    have : (0 : α) < ((((contributing stats).map (fun r => r.txPackets)).sum : Nat) : α) := by
      exact_mod_cast hpos
    exact ne_of_gt this
  simp only [aggregate, networkKPI, aggregate_totals, hwrap, hlost, Dbl.ofNat_eq,
    Dbl.fin_mul_fin, Dbl.fin_div_fin _ _ hne]

/-- C14, amended, on a flow that lost 10 of 100 packets, a flow that lost none
of 50, and a flow that received nothing. -/
theorem loss_rate_formula_witness :
    0 < (contributing ([⟨100, 51200, 90, 46080, 9 / 10⟩, ⟨50, 25600, 50, 25600, 1 / 2⟩,
      ⟨70, 35840, 0, 0, 0⟩] : List (FlowStats ℚ))).length ∧
    (∀ r ∈ contributing ([⟨100, 51200, 90, 46080, 9 / 10⟩, ⟨50, 25600, 50, 25600, 1 / 2⟩,
      ⟨70, 35840, 0, 0, 0⟩] : List (FlowStats ℚ)), r.rxPackets ≤ r.txPackets) ∧
    ((contributing ([⟨100, 51200, 90, 46080, 9 / 10⟩, ⟨50, 25600, 50, 25600, 1 / 2⟩,
      ⟨70, 35840, 0, 0, 0⟩] : List (FlowStats ℚ))).map (fun r => r.txPackets)).sum
      < 2 ^ 32 ∧
    (aggregate (599 / 10 : ℚ) [⟨100, 51200, 90, 46080, 9 / 10⟩,
      ⟨50, 25600, 50, 25600, 1 / 2⟩, ⟨70, 35840, 0, 0, 0⟩]).2.packetLossRate
      = Dbl.fin (((contributing ([⟨100, 51200, 90, 46080, 9 / 10⟩,
          ⟨50, 25600, 50, 25600, 1 / 2⟩, ⟨70, 35840, 0, 0, 0⟩] :
            List (FlowStats ℚ))).map
              (fun r => (r.txPackets : ℚ) - (r.rxPackets : ℚ))).sum * 100
          / ((((contributing ([⟨100, 51200, 90, 46080, 9 / 10⟩,
              ⟨50, 25600, 50, 25600, 1 / 2⟩, ⟨70, 35840, 0, 0, 0⟩] :
                List (FlowStats ℚ))).map (fun r => r.txPackets)).sum : Nat) : ℚ)) :=
  ⟨by simp [contributing], by simp [contributing], by simp [contributing],
    loss_rate_formula (599 / 10 : ℚ) _ (by simp [contributing]) (by simp [contributing])
      (by simp [contributing])⟩

/-- The per-flow throughputs sum to the throughput of the summed bytes. -/
theorem sum_throughput_eq {α β : Type} [LinearOrderedField α] (l : List β) (f : β → α)
    (d : α) :
    (l.map (fun r => f r * 8 / d / 1000000)).sum = (l.map f).sum * 8 / d / 1000000 := by
  induction l with
  | nil => simp
  | cons r l ih =>
    simp only [List.map_cons, List.sum_cons, ih]
    ring

/-- C23: with at least one flow that received packets and a positive flow
duration, the mean throughput computed from the accumulated bytes is the
arithmetic mean `(1 / F) * Σ throughput_i` of the per-flow throughputs of
the flows with `rxPackets > 0`; the throughput printed for such a flow and the
one the fairness loop adds up are the same expression `throughputMbps`. -/
theorem mean_throughput_is_flow_mean {α : Type} [LinearOrderedField α] (flowDuration : α)
    (stats : List (FlowStats α)) (hlen : stats.length < 2 ^ 32)
    (hF : 0 < (contributing stats).length) (hd : 0 < flowDuration) :
    (aggregate flowDuration stats).2.meanThroughput
      = Dbl.sum ((contributing stats).map (throughputMbps flowDuration))
          / Dbl.ofNat (contributing stats).length ∧
    (aggregate flowDuration stats).2.meanThroughput
      = Dbl.fin (1 / ((contributing stats).length : α)
          * ((contributing stats).map
              (fun r => (r.rxBytes : α) * 8 / flowDuration / 1000000)).sum) ∧
    (∀ r ∈ contributing stats, ∀ t : Totals α,
      (flowStep flowDuration t r).1.throughput = throughputMbps flowDuration r) ∧
    (fairnessLoop flowDuration stats (Dbl.fin 0, Dbl.fin 0)).1
      = Dbl.sum ((contributing stats).map (throughputMbps flowDuration)) := by
  have hd0 : flowDuration ≠ 0 := ne_of_gt hd
  have hcnt : u32 (contributing stats).length = (contributing stats).length := by
    have h1 : (contributing stats).length ≤ stats.length := List.length_filter_le _ _
    exact Nat.mod_eq_of_lt (by omega)
  have hF0 : (0 : α) < ((contributing stats).length : α) := by exact_mod_cast hF
  have hFne : ((contributing stats).length : α) ≠ 0 := ne_of_gt hF0
  have hden : flowDuration * ((contributing stats).length : α) ≠ 0 :=
    ne_of_gt (mul_pos hd hF0)
  have hthr : (contributing stats).map (throughputMbps flowDuration)
      = ((contributing stats).map
          (fun r => (r.rxBytes : α) * 8 / flowDuration / 1000000)).map Dbl.fin := by
    rw [List.map_map]
    exact List.map_congr_left (fun r _ => throughputMbps_fin flowDuration hd0 r)
  have hmean : (aggregate flowDuration stats).2.meanThroughput
      = Dbl.fin (1 / ((contributing stats).length : α)
          * ((contributing stats).map
              (fun r => (r.rxBytes : α) * 8 / flowDuration / 1000000)).sum) := by
    simp only [aggregate, networkKPI, aggregate_totals, hcnt, Dbl.ofNat_eq, Dbl.fin_mul_fin,
      Dbl.fin_div_fin _ _ hden, Dbl.fin_div_thousand]
    congr 1
    rw [sum_throughput_eq]
    field_simp
    left
    ring
  refine ⟨?_, hmean, ?_, ?_⟩
  · rw [hmean, hthr, Dbl.sum_fin, Dbl.ofNat_eq, Dbl.fin_div_fin _ _ hFne]
    congr 1
    field_simp
  · intro r hr t
    have hrx : 0 < r.rxPackets := by
      have := (List.mem_filter.mp hr).2
      simpa using this
    simp only [flowStep, if_pos hrx]
  · rw [fairnessLoop_eq]
    rfl

/-- C23 on two flows with 1000 and 3000 bytes received and one flow that
received nothing. -/
theorem mean_throughput_is_flow_mean_witness :
    ([⟨10, 5120, 10, 1000, 1 / 10⟩, ⟨10, 5120, 0, 0, 0⟩, ⟨10, 5120, 10, 3000, 1 / 10⟩] :
      List (FlowStats ℚ)).length < 2 ^ 32 ∧
    0 < (contributing ([⟨10, 5120, 10, 1000, 1 / 10⟩, ⟨10, 5120, 0, 0, 0⟩,
      ⟨10, 5120, 10, 3000, 1 / 10⟩] : List (FlowStats ℚ))).length ∧
    (0 : ℚ) < 599 / 10 ∧
    (aggregate (599 / 10 : ℚ) [⟨10, 5120, 10, 1000, 1 / 10⟩, ⟨10, 5120, 0, 0, 0⟩,
      ⟨10, 5120, 10, 3000, 1 / 10⟩]).2.meanThroughput
      = Dbl.sum ((contributing ([⟨10, 5120, 10, 1000, 1 / 10⟩, ⟨10, 5120, 0, 0, 0⟩,
          ⟨10, 5120, 10, 3000, 1 / 10⟩] : List (FlowStats ℚ))).map
            (throughputMbps (599 / 10 : ℚ)))
          / Dbl.ofNat (contributing ([⟨10, 5120, 10, 1000, 1 / 10⟩, ⟨10, 5120, 0, 0, 0⟩,
              ⟨10, 5120, 10, 3000, 1 / 10⟩] : List (FlowStats ℚ))).length :=
  ⟨by simp, by simp [contributing], by norm_num,
    (mean_throughput_is_flow_mean (599 / 10 : ℚ) _ (by simp) (by simp [contributing])
      (by norm_num)).1⟩

/-! ### Rounding to binary64 -/

namespace Binary64

/-- Zero has no binary digit. -/
theorem bitLength_zero (fuel : Nat) : bitLength fuel 0 = 0 := by
  cases fuel <;> simp [bitLength]

/-- With enough fuel, a number between `2 ^ k` and `2 ^ (k + 1)` has `k + 1`
binary digits. -/
theorem bitLength_eq (k : Nat) :
    ∀ (fuel m : Nat), m ≤ fuel → 2 ^ k ≤ m → m < 2 ^ (k + 1) → bitLength fuel m = k + 1 := by
  induction k with
  | zero =>
    intro fuel m hf h1 h2
    have hm : m = 1 := by
      simp only [pow_zero, zero_add, pow_one] at h1 h2
      omega
    subst hm
    cases fuel with
    | zero => omega
    | succ f => simp [bitLength, bitLength_zero]
  | succ k ih =>
    intro fuel m hf h1 h2
    have hp : 0 < 2 ^ k := Nat.two_pow_pos _
    have e1 : 2 ^ (k + 1) = 2 * 2 ^ k := by ring
    have e2 : 2 ^ (k + 1 + 1) = 2 * (2 * 2 ^ k) := by ring
    rw [e1] at h1
    rw [e2] at h2
    cases fuel with
    | zero => omega
    | succ f =>
      have hm0 : m ≠ 0 := by omega
      rw [bitLength, if_neg hm0, ih f (m / 2) (by omega) (by omega) (by rw [e1]; omega)]

/-- A positive number lies between two consecutive powers of two. -/
theorem exists_pow_le (m : Nat) (hm : 0 < m) : ∃ k, 2 ^ k ≤ m ∧ m < 2 ^ (k + 1) :=
  ⟨Nat.log 2 m, Nat.pow_log_le_self 2 (by omega), Nat.lt_pow_succ_log_self (by norm_num) m⟩

/-- Rounding a number of at most 53 bits only scales it. -/
theorem roundEven_of_le {m k : Nat} (e : Int) (h1 : 2 ^ k ≤ m) (h2 : m < 2 ^ (k + 1))
    (hk : k ≤ 52) :
    roundEven m e = ⟨m * 2 ^ (52 - k), e - ((52 - k : Nat) : Int)⟩ := by
  have hp : 0 < 2 ^ k := Nat.two_pow_pos _
  have hm : m ≠ 0 := by omega
  unfold roundEven
  rw [if_neg hm]
  simp only [bitLength_eq k m m le_rfl h1 h2, Nat.add_sub_cancel, if_pos hk]

/-- Rounding a number of more than 53 bits: the quotient by `2 ^ (k - 52)`,
plus one where the remainder is above the half, or at the half with an odd
quotient. -/
theorem roundEven_of_gt {m k : Nat} (e : Int) (h1 : 2 ^ k ≤ m) (h2 : m < 2 ^ (k + 1))
    (hk : 52 < k) :
    roundEven m e
      = if (if 2 ^ (k - 52 - 1) < m % 2 ^ (k - 52)
              ∨ (m % 2 ^ (k - 52) = 2 ^ (k - 52 - 1) ∧ m / 2 ^ (k - 52) % 2 = 1)
            then m / 2 ^ (k - 52) + 1 else m / 2 ^ (k - 52)) = 2 ^ 53
        then ⟨2 ^ 52, e + ((k - 52 : Nat) : Int) + 1⟩
        else ⟨(if 2 ^ (k - 52 - 1) < m % 2 ^ (k - 52)
                ∨ (m % 2 ^ (k - 52) = 2 ^ (k - 52 - 1) ∧ m / 2 ^ (k - 52) % 2 = 1)
              then m / 2 ^ (k - 52) + 1 else m / 2 ^ (k - 52)),
              e + ((k - 52 : Nat) : Int)⟩ := by
  have hp : 0 < 2 ^ k := Nat.two_pow_pos _
  have hm : m ≠ 0 := by omega
  unfold roundEven
  rw [if_neg hm]
  simp only [bitLength_eq k m m le_rfl h1 h2, Nat.add_sub_cancel, if_neg (not_le.mpr hk)]

/-- The result of rounding a positive number has a normal mantissa, and its
exponent is the one of the leading bit, or one more after a carry. -/
theorem roundEven_spec {m k : Nat} (e : Int) (h1 : 2 ^ k ≤ m) (h2 : m < 2 ^ (k + 1)) :
    (roundEven m e).Normal ∧ e + k - 52 ≤ (roundEven m e).e ∧ (roundEven m e).e ≤ e + k - 51 := by
  by_cases hk : k ≤ 52
  · rw [roundEven_of_le e h1 h2 hk]
    have e1 : 2 ^ 52 = 2 ^ k * 2 ^ (52 - k) := by
      rw [← pow_add]
      congr 1
      omega
    have e2 : 2 ^ 53 = 2 ^ (k + 1) * 2 ^ (52 - k) := by
      rw [← pow_add]
      congr 1
      omega
    have hp : 0 < 2 ^ (52 - k) := Nat.two_pow_pos _
    refine ⟨⟨?_, ?_⟩, ?_, ?_⟩
    · show 2 ^ 52 ≤ m * 2 ^ (52 - k)
      rw [e1]
      exact Nat.mul_le_mul_right _ h1
    · show m * 2 ^ (52 - k) < 2 ^ 53
      rw [e2]
      exact Nat.mul_lt_mul_of_pos_right h2 hp
    · show e + k - 52 ≤ e - ((52 - k : Nat) : Int)
      omega
    · show e - ((52 - k : Nat) : Int) ≤ e + k - 51
      omega
  · have hk2 : 52 < k := by omega
    rw [roundEven_of_gt e h1 h2 hk2]
    have hs : 0 < 2 ^ (k - 52) := Nat.two_pow_pos _
    have e1 : 2 ^ k = 2 ^ 52 * 2 ^ (k - 52) := by
      rw [← pow_add]
      congr 1
      omega
    have e2 : 2 ^ (k + 1) = 2 ^ 53 * 2 ^ (k - 52) := by
      rw [← pow_add]
      congr 1
      omega
    have hq1 : 2 ^ 52 ≤ m / 2 ^ (k - 52) := by
      rw [Nat.le_div_iff_mul_le hs, ← e1]
      exact h1
    have hq2 : m / 2 ^ (k - 52) < 2 ^ 53 := by
      rw [Nat.div_lt_iff_lt_mul hs, ← e2]
      exact h2
    generalize hq : (if 2 ^ (k - 52 - 1) < m % 2 ^ (k - 52)
        ∨ (m % 2 ^ (k - 52) = 2 ^ (k - 52 - 1) ∧ m / 2 ^ (k - 52) % 2 = 1)
      then m / 2 ^ (k - 52) + 1 else m / 2 ^ (k - 52)) = q1
    have hb : 2 ^ 52 ≤ q1 ∧ q1 ≤ 2 ^ 53 := by
      rw [← hq]
      split <;> omega
    by_cases hc : q1 = 2 ^ 53
    · rw [if_pos hc]
      refine ⟨⟨le_rfl, by norm_num⟩, ?_, ?_⟩
      · show e + k - 52 ≤ e + ((k - 52 : Nat) : Int) + 1
        omega
      · show e + ((k - 52 : Nat) : Int) + 1 ≤ e + k - 51
        omega
    · rw [if_neg hc]
      refine ⟨⟨hb.1, ?_⟩, ?_, ?_⟩
      · show q1 < 2 ^ 53
        omega
      · show e + k - 52 ≤ e + ((k - 52 : Nat) : Int)
        omega
      · show e + ((k - 52 : Nat) : Int) ≤ e + k - 51
        omega

/-- A normal mantissa times a power of two is rounded to itself. -/
theorem roundEven_exact {q : Nat} (j : Nat) (e : Int) (hq : 2 ^ 52 ≤ q) (hq2 : q < 2 ^ 53) :
    roundEven (q * 2 ^ j) e = ⟨q, e + j⟩ := by
  have hj : 0 < 2 ^ j := Nat.two_pow_pos _
  have h1 : 2 ^ (52 + j) ≤ q * 2 ^ j := by
    rw [pow_add]
    exact Nat.mul_le_mul_right _ hq
  have h2 : q * 2 ^ j < 2 ^ (52 + j + 1) := by
    have e2 : 2 ^ (52 + j + 1) = 2 ^ 53 * 2 ^ j := by
      rw [← pow_add]
      congr 1
      omega
    rw [e2]
    exact Nat.mul_lt_mul_of_pos_right hq2 hj
  by_cases h0 : j = 0
  · subst h0
    rw [roundEven_of_le e h1 h2 (by omega)]
    simp
  · rw [roundEven_of_gt e h1 h2 (by omega)]
    have hs : 52 + j - 52 = j := by omega
    have hh : 0 < 2 ^ (j - 1) := Nat.two_pow_pos _
    simp only [hs, Nat.mul_mod_left, Nat.mul_div_cancel _ hj]
    have hc : ¬ (2 ^ (j - 1) < 0 ∨ (0 = 2 ^ (j - 1) ∧ q % 2 = 1)) := by
      rintro (h | ⟨h, _⟩) <;> omega
    rw [if_neg hc, if_neg (by omega)]

/-- Moving the exponent of the argument moves the exponent of the result. -/
theorem roundEven_shift {m : Nat} (hm : m ≠ 0) (e d : Int) :
    roundEven m (e + d) = ⟨(roundEven m e).m, (roundEven m e).e + d⟩ := by
  obtain ⟨k, h1, h2⟩ := exists_pow_le m (by omega)
  by_cases hk : k ≤ 52
  · rw [roundEven_of_le _ h1 h2 hk, roundEven_of_le _ h1 h2 hk]
    show Binary64.mk _ _ = Binary64.mk _ _
    congr 1
    dsimp only
    omega
  · rw [roundEven_of_gt _ h1 h2 (by omega), roundEven_of_gt _ h1 h2 (by omega)]
    generalize (if 2 ^ (k - 52 - 1) < m % 2 ^ (k - 52)
        ∨ (m % 2 ^ (k - 52) = 2 ^ (k - 52 - 1) ∧ m / 2 ^ (k - 52) % 2 = 1)
      then m / 2 ^ (k - 52) + 1 else m / 2 ^ (k - 52)) = q1
    by_cases hc : q1 = 2 ^ 53
    · rw [if_pos hc, if_pos hc]
      show Binary64.mk _ _ = Binary64.mk _ _
      congr 1
      dsimp only
      omega
    · rw [if_neg hc, if_neg hc]
      show Binary64.mk _ _ = Binary64.mk _ _
      congr 1
      dsimp only
      omega

end Binary64

namespace Binary64

/-- A value with its exponent in the range of the normal values passes the
range check. -/
theorem checked_of_range {x : Binary64} (h1 : -1074 ≤ x.e) (h2 : x.e ≤ 971) :
    checked x = some x := by
  unfold checked
  rw [if_pos (Or.inr ⟨h1, h2⟩)]

/-- What passed the range check is the value checked. -/
theorem checked_eq_some {x y : Binary64} (h : checked x = some y) : x = y := by
  unfold checked at h
  split at h
  · exact Option.some.inj h
  · exact Option.noConfusion h

/-- The product of two normal doubles, where the exponents leave room: a normal
double whose exponent is the sum of the two, plus 52 to 54. -/
theorem mul_normal {a b : Binary64} (ha : a.Normal) (hb : b.Normal)
    (hlo : -1074 ≤ a.e + b.e + 52) (hhi : a.e + b.e + 54 ≤ 971) :
    ∃ c, mul a b = some c ∧ c.Normal ∧ a.e + b.e + 52 ≤ c.e ∧ c.e ≤ a.e + b.e + 54 := by
  have hP1 : 2 ^ 104 ≤ a.m * b.m := by
    calc 2 ^ 104 = 2 ^ 52 * 2 ^ 52 := by norm_num
      _ ≤ a.m * b.m := Nat.mul_le_mul ha.1 hb.1
  have hP2 : a.m * b.m < 2 ^ 106 := by
    calc a.m * b.m < 2 ^ 53 * 2 ^ 53 := Nat.mul_lt_mul'' ha.2 hb.2
      _ = 2 ^ 106 := by norm_num
  unfold mul
  by_cases h : a.m * b.m < 2 ^ 105
  · obtain ⟨hn, h1, h2⟩ := roundEven_spec (k := 104) (a.e + b.e) hP1 h
    simp only [Nat.cast_ofNat] at h1 h2
    exact ⟨_, checked_of_range (by omega) (by omega), hn, by omega, by omega⟩
  · obtain ⟨hn, h1, h2⟩ := roundEven_spec (k := 105) (a.e + b.e) (not_lt.mp h) hP2
    simp only [Nat.cast_ofNat] at h1 h2
    exact ⟨_, checked_of_range (by omega) (by omega), hn, by omega, by omega⟩

/-- The quotient of two normal doubles, where the exponents leave room: a
normal double whose exponent is the difference of the two, minus 53 to 51. -/
theorem div_normal {a b : Binary64} (ha : a.Normal) (hb : b.Normal)
    (hlo : -1074 ≤ a.e - b.e - 53) (hhi : a.e - b.e - 51 ≤ 971) :
    ∃ c, div a b = some c ∧ c.Normal ∧ a.e - b.e - 53 ≤ c.e ∧ c.e ≤ a.e - b.e - 51 := by
  have hb0 : b.m ≠ 0 := by
    have := hb.1
    omega
  have ha0 : a.m ≠ 0 := by
    have := ha.1
    omega
  have hbpos : 0 < b.m := by omega
  have hq1 : 2 ^ 63 ≤ a.m * 2 ^ 64 / b.m := by
    rw [Nat.le_div_iff_mul_le hbpos]
    have h1 := ha.1
    have h2 := hb.2
    omega
  have hq2 : a.m * 2 ^ 64 / b.m < 2 ^ 65 := by
    rw [Nat.div_lt_iff_lt_mul hbpos]
    have h1 := ha.2
    have h2 := hb.1
    omega
  have hs : (if a.m * 2 ^ 64 % b.m = 0 then 0 else 1) ≤ 1 := by
    split <;> omega
  unfold div
  rw [if_neg hb0, if_neg ha0]
  simp only []
  generalize (if a.m * 2 ^ 64 % b.m = 0 then 0 else 1) = st at hs ⊢
  by_cases h : 2 * (a.m * 2 ^ 64 / b.m) + st < 2 ^ 65
  · obtain ⟨hn, h1, h2⟩ := roundEven_spec (k := 64) (a.e - b.e - 65) (by omega) h
    simp only [Nat.cast_ofNat] at h1 h2
    exact ⟨_, checked_of_range (by omega) (by omega), hn, by omega, by omega⟩
  · obtain ⟨hn, h1, h2⟩ :=
      roundEven_spec (k := 65) (a.e - b.e - 65) (not_lt.mp h) (by omega)
    simp only [Nat.cast_ofNat] at h1 h2
    exact ⟨_, checked_of_range (by omega) (by omega), hn, by omega, by omega⟩

/-- A positive 64-bit integer converts to a normal double. -/
theorem ofNat_normal {n : Nat} (h0 : 0 < n) (h : n < 2 ^ 64) :
    (ofNat n).Normal ∧ -52 ≤ (ofNat n).e ∧ (ofNat n).e ≤ 12 := by
  obtain ⟨k, h1, h2⟩ := exists_pow_le n h0
  have hk : k < 64 := by
    by_contra hc
    have : 2 ^ 64 ≤ 2 ^ k := Nat.pow_le_pow_right (by norm_num) (by omega)
    omega
  obtain ⟨hn, h3, h4⟩ := roundEven_spec 0 h1 h2
  exact ⟨hn, by unfold ofNat; omega, by unfold ofNat; omega⟩

/-- Adding to zero gives the other summand. -/
theorem add_zero_left (t : Binary64) : add ⟨0, 0⟩ t = some t := by
  unfold add
  rw [if_pos rfl]

/-- A normal double added to itself: the same mantissa, the exponent one up. -/
theorem add_same {t : Binary64} (ht : t.Normal) (h1 : -1075 ≤ t.e) (h2 : t.e ≤ 970) :
    add t t = some ⟨t.m, t.e + 1⟩ := by
  have hm : t.m ≠ 0 := by
    have := ht.1
    omega
  unfold add
  rw [if_neg hm, if_neg hm]
  simp only [min_self, sub_self, Int.toNat_zero, pow_zero, mul_one]
  have e1 : t.m + t.m = t.m * 2 ^ 1 := by ring
  rw [e1, roundEven_exact 1 t.e ht.1 ht.2]
  exact checked_of_range (by push_cast; omega) (by push_cast; omega)

/-- Twice a normal double: the same mantissa, the exponent one up. -/
theorem mul_two_left {t : Binary64} (ht : t.Normal) (h1 : -1075 ≤ t.e) (h2 : t.e ≤ 970) :
    mul (ofNat 2) t = some ⟨t.m, t.e + 1⟩ := by
  have h2e : ofNat 2 = ⟨2 ^ 52, -51⟩ := by decide
  unfold mul
  rw [h2e]
  simp only []
  rw [Nat.mul_comm, roundEven_exact 52 (-51 + t.e) ht.1 ht.2]
  have e1 : -51 + t.e + ((52 : Nat) : Int) = t.e + 1 := by push_cast; omega
  rw [e1]
  exact checked_of_range (by show -1074 ≤ t.e + 1; omega) (by show t.e + 1 ≤ 971; omega)

/-- A normal double divided by itself is 1.0. -/
theorem div_same {t : Binary64} (ht : t.Normal) : div t t = some ⟨2 ^ 52, -52⟩ := by
  have hm : t.m ≠ 0 := by
    have := ht.1
    omega
  have hpos : 0 < t.m := by omega
  unfold div
  rw [if_neg hm, if_neg hm]
  simp only [Nat.mul_div_cancel_left _ hpos, Nat.mul_mod_right, if_true, add_zero, sub_self]
  have e1 : 2 * 2 ^ 64 = 2 ^ 52 * 2 ^ 13 := by norm_num
  rw [e1, roundEven_exact 13 (0 - 65) (le_refl _) (by norm_num)]
  decide

/-- The square of the double of a normal double: the mantissa of the square,
the exponent two up. -/
theorem mul_double {t tt : Binary64} (ht : t.Normal) (h : mul t t = some tt)
    (h2 : tt.e ≤ 969) :
    mul ⟨t.m, t.e + 1⟩ ⟨t.m, t.e + 1⟩ = some ⟨tt.m, tt.e + 2⟩ := by
  have hm : t.m * t.m ≠ 0 := by
    have := ht.1
    exact Nat.mul_ne_zero (by omega) (by omega)
  unfold mul at h ⊢
  have hr := checked_eq_some h
  have hpos : 0 < t.m * t.m := Nat.pos_of_ne_zero hm
  have hc : -1074 ≤ tt.e := by
    unfold checked at h
    split at h
    · rename_i hcond
      rw [hr] at hcond
      rcases hcond with h0 | h0
      · exfalso
        obtain ⟨k, hk1, hk2⟩ := exists_pow_le _ hpos
        have hn := (roundEven_spec (t.e + t.e) hk1 hk2).1
        rw [hr] at hn
        have := hn.1
        omega
      · exact h0.1
    · exact Option.noConfusion h
  simp only []
  have e1 : t.e + 1 + (t.e + 1) = t.e + t.e + 2 := by ring
  rw [e1, roundEven_shift hm, hr]
  exact checked_of_range (by show -1074 ≤ tt.e + 2; omega) (by show tt.e + 2 ≤ 971; omega)

end Binary64

/-! ### The fairness index of two equal flows on binary64 -/

/-- The throughput of a flow that received bytes, for a flow duration between
`2 ^ (-348)` and `2 ^ 453` seconds: the four operations stay in the normal range
and give a normal double. -/
theorem throughputMbps64_normal {dur : Binary64} (hd : dur.Normal) (hlo : -400 ≤ dur.e)
    (hhi : dur.e ≤ 400) {b : Nat} (hb0 : 0 < b) (hb : b < 2 ^ 64) :
    ∃ t, throughputMbps64 dur b = some t ∧ t.Normal ∧ -522 ≤ t.e ∧ t.e ≤ 350 := by
  obtain ⟨hn, h1, h2⟩ := Binary64.ofNat_normal hb0 hb
  have h8 : Binary64.ofNat 8 = ⟨2 ^ 52, -49⟩ := by decide
  have h1000 : Binary64.ofNat 1000 = ⟨8796093022208000, -43⟩ := by decide
  have n8 : (Binary64.ofNat 8).Normal := by
    rw [h8]
    decide
  have e8 : (Binary64.ofNat 8).e = -49 := by rw [h8]
  have n1000 : (Binary64.ofNat 1000).Normal := by
    rw [h1000]
    decide
  have e1000 : (Binary64.ofNat 1000).e = -43 := by rw [h1000]
  obtain ⟨a, ha, han, ha1, ha2⟩ := Binary64.mul_normal hn n8 (by omega) (by omega)
  obtain ⟨c, hc, hcn, hc1, hc2⟩ := Binary64.div_normal han hd (by omega) (by omega)
  obtain ⟨f, hf, hfn, hf1, hf2⟩ := Binary64.div_normal hcn n1000 (by omega) (by omega)
  obtain ⟨g, hg, hgn, hg1, hg2⟩ := Binary64.div_normal hfn n1000 (by omega) (by omega)
  refine ⟨g, ?_, hgn, by omega, by omega⟩
  unfold throughputMbps64
  simp only [ha, hc, hf, hg, Option.bind_eq_bind, Option.some_bind]

/-- The fairness loop on binary64 reads the flows that received packets only. -/
theorem fairnessLoop64_filter {β : Type} (dur : Binary64) (rs : List (FlowStats β)) :
    ∀ sums, fairnessLoop64 dur rs sums
      = fairnessLoop64 dur (rs.filter (fun r => decide (0 < r.rxPackets))) sums := by
  induction rs with
  | nil =>
    intro sums
    rfl
  | cons r rs ih =>
    intro sums
    by_cases h : 0 < r.rxPackets
    · rw [List.filter_cons_of_pos (by simpa using h)]
      simp only [fairnessLoop64, if_pos h, ih]
    · rw [List.filter_cons_of_neg (by simpa using h)]
      simp only [fairnessLoop64, if_neg h, ih]

/-- The flow counter counts the flows that received packets only. -/
theorem countFlows_filter {β : Type} (rs : List (FlowStats β)) :
    ∀ n, countFlows rs n = countFlows (rs.filter (fun r => decide (0 < r.rxPackets))) n := by
  induction rs with
  | nil =>
    intro n
    rfl
  | cons r rs ih =>
    intro n
    by_cases h : 0 < r.rxPackets
    · rw [List.filter_cons_of_pos (by simpa using h)]
      simp only [countFlows, if_pos h, ih]
    · rw [List.filter_cons_of_neg (by simpa using h)]
      simp only [countFlows, if_neg h, ih]

/-- Two flows with the same normal throughput `t`, whose square and four times
the square are normal doubles: the fairness index on binary64 is exactly
1.0. -/
theorem fairnessIndex64_two_eq {β : Type} (dur : Binary64) (stats : List (FlowStats β))
    (r1 r2 : FlowStats β)
    (hc : stats.filter (fun r => decide (0 < r.rxPackets)) = [r1, r2])
    (hb : r1.rxBytes = r2.rxBytes) (t tt : Binary64)
    (ht : throughputMbps64 dur r1.rxBytes = some t) (hn : t.Normal)
    (he1 : -1075 ≤ t.e) (he2 : t.e ≤ 970)
    (htt : Binary64.mul t t = some tt) (he3 : tt.e ≤ 969) :
    fairnessIndex64 dur stats = some ⟨2 ^ 52, -52⟩ := by
  have hr1 : 0 < r1.rxPackets := by
    have hm : r1 ∈ stats.filter (fun r => decide (0 < r.rxPackets)) := by
      rw [hc]
      exact List.mem_cons_self _ _
    simpa using (List.mem_filter.mp hm).2
  have hr2 : 0 < r2.rxPackets := by
    have hm : r2 ∈ stats.filter (fun r => decide (0 < r.rxPackets)) := by
      rw [hc]
      exact List.mem_cons_of_mem _ (List.mem_cons_self _ _)
    simpa using (List.mem_filter.mp hm).2
  have ht2 : throughputMbps64 dur r2.rxBytes = some t := by
    rw [← hb]
    exact ht
  have httn : tt.Normal := by
    have hr := Binary64.checked_eq_some htt
    have hpos : 0 < t.m * t.m := by
      have := hn.1
      exact Nat.mul_pos (by omega) (by omega)
    obtain ⟨k, hk1, hk2⟩ := Binary64.exists_pow_le _ hpos
    have hs := (Binary64.roundEven_spec (t.e + t.e) hk1 hk2).1
    rw [hr] at hs
    exact hs
  have htte : -1074 ≤ tt.e := by
    unfold Binary64.mul Binary64.checked at htt
    split at htt
    · rename_i hcond
      rw [Option.some.inj htt] at hcond
      rcases hcond with h0 | h0
      · have := httn.1
        omega
      · exact h0.1
    · exact Option.noConfusion htt
  have hcount : countFlows stats 0 = 2 := by
    rw [countFlows_filter, hc]
    simp [countFlows, hr1, hr2, u32]
  have hloop : fairnessLoop64 dur stats (⟨0, 0⟩, ⟨0, 0⟩)
      = some (⟨t.m, t.e + 1⟩, ⟨tt.m, tt.e + 1⟩) := by
    rw [fairnessLoop64_filter, hc]
    simp only [fairnessLoop64, if_pos hr1, if_pos hr2, ht, ht2, htt, Binary64.add_zero_left,
      Binary64.add_same hn he1 he2, Binary64.add_same httn (by omega) (by omega),
      Option.bind_eq_bind, Option.some_bind]
  have hden : Binary64.mul (Binary64.ofNat 2) ⟨tt.m, tt.e + 1⟩ = some ⟨tt.m, tt.e + 2⟩ := by
    have h := Binary64.mul_two_left (t := ⟨tt.m, tt.e + 1⟩) httn (by show -1075 ≤ tt.e + 1; omega)
      (by show tt.e + 1 ≤ 970; omega)
    rw [h]
    show some (Binary64.mk _ _) = some (Binary64.mk _ _)
    congr 2
    dsimp only
    omega
  have hq : (⟨tt.m, tt.e + 2⟩ : Binary64).Normal := httn
  unfold fairnessIndex64
  simp only [hcount, hloop, Binary64.mul_double hn htt he3, hden, Binary64.div_same hq,
    Option.bind_eq_bind, Option.some_bind]
  rfl

/-- The flow counter is the number of flows that received packets, modulo
`2 ^ 32`. -/
theorem countFlows_eq {β : Type} (rs : List (FlowStats β)) :
    ∀ n, countFlows rs n
      = u32 (n + (rs.filter (fun r => decide (0 < r.rxPackets))).length) ∨
      (rs.filter (fun r => decide (0 < r.rxPackets))).length = 0 ∧ countFlows rs n = n := by
  induction rs with
  | nil =>
    intro n
    right
    exact ⟨rfl, rfl⟩
  | cons r rs ih =>
    intro n
    by_cases h : 0 < r.rxPackets
    · left
      rw [List.filter_cons_of_pos (by simpa using h)]
      simp only [countFlows, if_pos h, List.length_cons]
      rcases ih (u32 (n + 1)) with h1 | ⟨h1, h2⟩
      · rw [h1]
        unfold u32
        omega
      · rw [h2, h1]
    · rw [List.filter_cons_of_neg (by simpa using h)]
      simp only [countFlows, if_neg h]
      exact ih n

/-- With at most one flow that received packets the fairness index on binary64
is the initial 0.0. -/
theorem fairnessIndex64_of_le_one {β : Type} (dur : Binary64) (stats : List (FlowStats β))
    (h : (stats.filter (fun r => decide (0 < r.rxPackets))).length ≤ 1) :
    fairnessIndex64 dur stats = some ⟨0, 0⟩ := by
  have hc : ¬ 1 < countFlows stats 0 := by
    rcases countFlows_eq stats 0 with h1 | ⟨_, h2⟩
    · rw [h1]
      unfold u32
      omega
    · rw [h2]
      omega
  unfold fairnessIndex64
  simp only [if_neg hc]

section Evaluation

set_option maxRecDepth 100000

/-- The flow duration of the scripts, 60.0 s minus 0.1 s, is the double nearest
to 59.9.  Three flows with 64800 bytes received each: the fairness index on
binary64 is the double next above 1.0. -/
theorem fairnessIndex64_three_equal :
    fairnessIndex64 ⟨8430175552484147, -47⟩
        ([⟨108, 64800, 108, 64800, 1 / 10⟩, ⟨108, 64800, 108, 64800, 1 / 10⟩,
          ⟨108, 64800, 108, 64800, 1 / 10⟩] : List (FlowStats ℚ))
      = some ⟨4503599627370497, -52⟩ := by
  decide

/-- Five flows that received packets, one of which received bytes: the fairness
index on binary64 is the double next below 0.2. -/
theorem fairnessIndex64_one_of_five :
    fairnessIndex64 ⟨8430175552484147, -47⟩
        ([⟨108, 64800, 108, 64800, 1 / 10⟩, ⟨1, 0, 1, 0, 0⟩, ⟨1, 0, 1, 0, 0⟩, ⟨1, 0, 1, 0, 0⟩,
          ⟨1, 0, 1, 0, 0⟩] : List (FlowStats ℚ))
      = some ⟨7205759403792793, -55⟩ := by
  decide

end Evaluation

/-! ### Bounds on Jain's index -/

/-- The sum of the squared distances to `a`, expanded, is not negative. -/
theorem sum_sq_dist_nonneg {α : Type} [LinearOrderedField α] (a : α) (ys : List α) :
    0 ≤ (ys.length : α) * (a * a) - 2 * a * ys.sum + (ys.map (fun y => y * y)).sum := by
  induction ys with
  | nil => simp
  | cons y ys ih =>
    simp only [List.length_cons, List.sum_cons, List.map_cons, Nat.cast_add, Nat.cast_one]
    nlinarith [ih, sq_nonneg (a - y)]

/-- The square of a sum of `n` values is at most `n` times the sum of the
squares. -/
theorem sq_sum_le_length_mul {α : Type} [LinearOrderedField α] (ys : List α) :
    ys.sum ^ 2 ≤ (ys.length : α) * (ys.map (fun y => y * y)).sum := by
  induction ys with
  | nil => simp
  | cons y ys ih =>
    simp only [List.length_cons, List.sum_cons, List.map_cons, Nat.cast_add, Nat.cast_one]
    nlinarith [ih, sum_sq_dist_nonneg y ys]

/-- For values that are not negative, the sum of the squares is at most the
square of the sum. -/
theorem sum_sq_le_sq_sum {α : Type} [LinearOrderedField α] (ys : List α)
    (h : ∀ y ∈ ys, 0 ≤ y) : (ys.map (fun y => y * y)).sum ≤ ys.sum ^ 2 := by
  induction ys with
  | nil => simp
  | cons y ys ih =>
    have hy : 0 ≤ y := h y (List.mem_cons_self _ _)
    have hrest : ∀ z ∈ ys, 0 ≤ z := fun z hz => h z (List.mem_cons_of_mem _ hz)
    have hS : 0 ≤ ys.sum := List.sum_nonneg hrest
    have ih1 := ih hrest
    simp only [List.sum_cons, List.map_cons]
    nlinarith [mul_nonneg hy hS, ih1]

/-- The fairness index as a finite value: more than one contributing flow, a
positive flow duration and some contributing flow with received bytes. -/
theorem fairnessIndex_fin {α : Type} [LinearOrderedField α] (flowDuration : α)
    (stats : List (FlowStats α)) (hlen : stats.length < 2 ^ 32)
    (hF : 1 < (contributing stats).length) (hd : 0 < flowDuration)
    (hex : ∃ r ∈ contributing stats, 0 < r.rxBytes) :
    (aggregate flowDuration stats).2.fairnessIndex
      = Dbl.fin
          (((contributing stats).map
              (fun r => (r.rxBytes : α) * 8 / flowDuration / 1000000)).sum ^ 2
            / (((contributing stats).length : α)
                * (((contributing stats).map
                    (fun r => (r.rxBytes : α) * 8 / flowDuration / 1000000)).map
                      (fun y => y * y)).sum)) ∧
    0 < ((((contributing stats).map
        (fun r => (r.rxBytes : α) * 8 / flowDuration / 1000000)).map
          (fun y => y * y)).sum) := by
  have hd0 : flowDuration ≠ 0 := ne_of_gt hd
  have hthr : (contributing stats).map (throughputMbps flowDuration)
      = ((contributing stats).map
          (fun r => (r.rxBytes : α) * 8 / flowDuration / 1000000)).map Dbl.fin := by
    rw [List.map_map]
    exact List.map_congr_left (fun r _ => throughputMbps_fin flowDuration hd0 r)
  have hpos : (0 : α) < ((((contributing stats).map
      (fun r => (r.rxBytes : α) * 8 / flowDuration / 1000000)).map
        (fun y => y * y)).sum) := by
    apply sum_sq_pos
    obtain ⟨r, hr, hb⟩ := hex
    refine ⟨(r.rxBytes : α) * 8 / flowDuration / 1000000, List.mem_map.mpr ⟨r, hr, rfl⟩, ?_⟩
    have hb1 : (0 : α) < (r.rxBytes : α) := by exact_mod_cast hb
    have : (0 : α) < (r.rxBytes : α) * 8 / flowDuration / 1000000 := by positivity
    exact ne_of_gt this
  refine ⟨?_, hpos⟩
  rw [fairnessIndex_eq_jain flowDuration stats hlen, if_pos hF, hthr,
    jainIndex_fin _ (by rw [List.length_map]; omega) (ne_of_gt hpos), List.length_map]

/-- A list whose members all map to the same value sums to that value times
the length. -/
theorem sum_map_const {α β : Type} [LinearOrderedField α] (l : List β) (f : β → α) (c : α)
    (h : ∀ r ∈ l, f r = c) : (l.map f).sum = (l.length : α) * c := by
  induction l with
  | nil => simp
  | cons r l ih =>
    have h1 : f r = c := h r (List.mem_cons_self _ _)
    have h2 := ih (fun z hz => h z (List.mem_cons_of_mem _ hz))
    simp only [List.map_cons, List.sum_cons, List.length_cons, Nat.cast_add, Nat.cast_one,
      h1, h2]
    ring

/-- In exact arithmetic the fairness index of at least two flows with the same
positive number of received bytes is 1. -/
theorem fairnessIndex_equal_flows {α : Type} [LinearOrderedField α] (flowDuration : α)
    (stats : List (FlowStats α)) (hlen : stats.length < 2 ^ 32)
    (hF : 2 ≤ (contributing stats).length) (hd : 0 < flowDuration)
    (b : Nat) (hb : 0 < b) (heq : ∀ r ∈ contributing stats, r.rxBytes = b) :
    (aggregate flowDuration stats).2.fairnessIndex = Dbl.fin 1 := by
  obtain ⟨r0, hr0⟩ :=
    List.exists_mem_of_length_pos (show 0 < (contributing stats).length by omega)
  have hex : ∃ r ∈ contributing stats, 0 < r.rxBytes := ⟨r0, hr0, by rw [heq r0 hr0]; exact hb⟩
  have hsum : ((contributing stats).map
      (fun r => (r.rxBytes : α) * 8 / flowDuration / 1000000)).sum
      = ((contributing stats).length : α) * ((b : α) * 8 / flowDuration / 1000000) :=
    sum_map_const _ _ _ (fun r hr => by rw [heq r hr])
  have hsq : (((contributing stats).map
      (fun r => (r.rxBytes : α) * 8 / flowDuration / 1000000)).map (fun y => y * y)).sum
      = ((contributing stats).length : α)
          * (((b : α) * 8 / flowDuration / 1000000)
              * ((b : α) * 8 / flowDuration / 1000000)) := by
    rw [List.map_map]
    exact sum_map_const _ _ _ (fun r hr => by simp only [Function.comp, heq r hr])
  rw [(fairnessIndex_fin flowDuration stats hlen (by omega) hd hex).1, hsum, hsq]
  congr 1
  have hF0 : ((contributing stats).length : α) ≠ 0 := by
    have : (0 : α) < ((contributing stats).length : α) := by
      exact_mod_cast (show 0 < (contributing stats).length by omega)
    exact ne_of_gt this
  have hb0 : (b : α) ≠ 0 := by
    have : (0 : α) < (b : α) := by exact_mod_cast hb
    exact ne_of_gt this
  have hd0 : flowDuration ≠ 0 := ne_of_gt hd
  field_simp
  ring

/-! ### Rounding errors of the fairness index on binary64 -/

namespace Binary64

/-- The value of a double given by mantissa and exponent. -/
theorem toRat_mk (m : Nat) (e : Int) : toRat ⟨m, e⟩ = (m : ℚ) * (2 : ℚ) ^ e := rfl

/-- Rounding moves a positive number by at most half a unit in the last place:
the rounded value is `N * 2 ^ e` for an integer `N` within `2 ^ (-53)` of `m`,
relatively; and when `m` is odd and has more than 54 bits, `N` is within
`2 ^ (-53)` of every number strictly between `m - 1` and `m + 1`. -/
theorem roundEven_toRat {m : Nat} (e : Int) (hm : 0 < m) :
    ∃ N : ℕ, (roundEven m e).toRat = (N : ℚ) * (2 : ℚ) ^ e ∧
      (2 ^ 53 - 1) * m ≤ 2 ^ 53 * N ∧ 2 ^ 53 * N ≤ (2 ^ 53 + 1) * m ∧
      (m % 2 = 1 → 2 ^ 54 ≤ m →
        (2 ^ 53 - 1) * (m + 1) ≤ 2 ^ 53 * N ∧ 2 ^ 53 * N ≤ (2 ^ 53 + 1) * (m - 1)) := by
  obtain ⟨k, h1, h2⟩ := exists_pow_le m hm
  by_cases hk : k ≤ 52
  · refine ⟨m, ?_, by omega, by omega, ?_⟩
    · rw [roundEven_of_le e h1 h2 hk, toRat_mk]
      have hz : (2 : ℚ) ^ (e - ((52 - k : ℕ) : ℤ)) = (2 : ℚ) ^ e / (2 : ℚ) ^ (52 - k) := by
        rw [zpow_sub₀ (by norm_num), zpow_natCast]
      rw [hz]
      push_cast
      field_simp
      ring
    · intro _ h54
      exfalso
      have : 2 ^ (k + 1) ≤ 2 ^ 54 := Nat.pow_le_pow_right (by norm_num) (by omega)
      omega
  · have hk2 : 52 < k := by omega
    have hP : 0 < 2 ^ (k - 52) := Nat.two_pow_pos _
    have hPh : 2 ^ (k - 52) = 2 * 2 ^ (k - 52 - 1) := by
      rw [← pow_succ']
      congr 1
      omega
    have hkP : 2 ^ k = 2 ^ 52 * 2 ^ (k - 52) := by
      rw [← pow_add]
      congr 1
      omega
    have hdm := Nat.div_add_mod m (2 ^ (k - 52))
    have hr := Nat.mod_lt m hP
    rw [roundEven_of_gt e h1 h2 hk2]
    have hval : ∀ q1 : ℕ, (if q1 = 2 ^ 53 then (⟨2 ^ 52, e + ((k - 52 : ℕ) : ℤ) + 1⟩ : Binary64)
        else ⟨q1, e + ((k - 52 : ℕ) : ℤ)⟩).toRat
        = ((q1 * 2 ^ (k - 52) : ℕ) : ℚ) * (2 : ℚ) ^ e := by
      intro q1
      by_cases hc : q1 = 2 ^ 53
      · rw [if_pos hc, toRat_mk, hc, zpow_add₀ (by norm_num), zpow_add₀ (by norm_num),
          zpow_natCast]
        push_cast
        ring
      · rw [if_neg hc, toRat_mk, zpow_add₀ (by norm_num), zpow_natCast]
        push_cast
        ring
    generalize hA : 2 ^ (k - 52) * (m / 2 ^ (k - 52)) = A at hdm
    generalize hrr : m % 2 ^ (k - 52) = r at hdm hr ⊢
    generalize hh : 2 ^ (k - 52 - 1) = h at hPh ⊢
    by_cases hup : h < r ∨ (r = h ∧ m / 2 ^ (k - 52) % 2 = 1)
    · rw [if_pos hup]
      refine ⟨(m / 2 ^ (k - 52) + 1) * 2 ^ (k - 52), hval _, ?_, ?_, ?_⟩
      · have e1 : (m / 2 ^ (k - 52) + 1) * 2 ^ (k - 52) = A + 2 ^ (k - 52) := by
          rw [← hA]
          ring
        rw [e1]
        omega
      · have e1 : (m / 2 ^ (k - 52) + 1) * 2 ^ (k - 52) = A + 2 ^ (k - 52) := by
          rw [← hA]
          ring
        rw [e1]
        have : h ≤ r := by
          rcases hup with h3 | ⟨h3, _⟩ <;> omega
        omega
      · intro hodd h54
        have e1 : (m / 2 ^ (k - 52) + 1) * 2 ^ (k - 52) = A + 2 ^ (k - 52) := by
          rw [← hA]
          ring
        rw [e1]
        have hk54 : 54 ≤ k := by
          by_contra hc
          have : 2 ^ (k + 1) ≤ 2 ^ 54 := Nat.pow_le_pow_right (by norm_num) (by omega)
          omega
        have hheven : h % 2 = 0 := by
          rw [← hh]
          have : k - 52 - 1 = (k - 54) + 1 := by omega
          rw [this, pow_succ]
          omega
        have hrodd : r % 2 = 1 := by
          rw [← hrr, Nat.mod_mod_of_dvd m (dvd_pow_self 2 (by omega))]
          exact hodd
        have : h < r := by
          rcases hup with h3 | ⟨h3, _⟩ <;> omega
        omega
    · rw [if_neg hup]
      refine ⟨m / 2 ^ (k - 52) * 2 ^ (k - 52), hval _, ?_, ?_, ?_⟩
      · have e1 : m / 2 ^ (k - 52) * 2 ^ (k - 52) = A := by
          rw [← hA]
          ring
        rw [e1]
        have : r ≤ h := by
          by_contra hc
          exact hup (Or.inl (by omega))
        omega
      · have e1 : m / 2 ^ (k - 52) * 2 ^ (k - 52) = A := by
          rw [← hA]
          ring
        rw [e1]
        omega
      · intro hodd h54
        have e1 : m / 2 ^ (k - 52) * 2 ^ (k - 52) = A := by
          rw [← hA]
          ring
        rw [e1]
        have hk54 : 54 ≤ k := by
          by_contra hc
          have : 2 ^ (k + 1) ≤ 2 ^ 54 := Nat.pow_le_pow_right (by norm_num) (by omega)
          omega
        have hheven : h % 2 = 0 := by
          rw [← hh]
          have : k - 52 - 1 = (k - 54) + 1 := by omega
          rw [this, pow_succ]
          omega
        have hrodd : r % 2 = 1 := by
          rw [← hrr, Nat.mod_mod_of_dvd m (dvd_pow_self 2 (by omega))]
          exact hodd
        have : r ≤ h := by
          by_contra hc
          exact hup (Or.inl (by omega))
        omega

/-- The value of a double is not negative. -/
theorem toRat_nonneg (x : Binary64) : 0 ≤ x.toRat := by
  unfold toRat
  positivity

/-- A double with mantissa 0 has the value 0. -/
theorem toRat_of_m_eq_zero {x : Binary64} (h : x.m = 0) : x.toRat = 0 := by
  unfold toRat
  rw [h]
  simp

/-- A double with a positive mantissa has a positive value. -/
theorem toRat_pos {x : Binary64} (h : x.m ≠ 0) : 0 < x.toRat := by
  unfold toRat
  have : (0 : ℚ) < (x.m : ℚ) := by exact_mod_cast Nat.pos_of_ne_zero h
  positivity

/-- A normal double has a positive mantissa. -/
theorem Normal.m_ne_zero {x : Binary64} (h : x.Normal) : x.m ≠ 0 := by
  have := h.1
  omega

/-- The result of a rounding is zero or normal. -/
theorem roundEven_valid (m : Nat) (e : Int) : (roundEven m e).Valid := by
  by_cases hm : m = 0
  · left
    subst hm
    rfl
  · right
    obtain ⟨k, h1, h2⟩ := exists_pow_le m (Nat.pos_of_ne_zero hm)
    exact (roundEven_spec e h1 h2).1

/-- The relative error of a rounding is at most the unit roundoff. -/
theorem roundEven_err {m : Nat} (e : Int) (hm : 0 < m) :
    (1 - unitRoundoff) * ((m : ℚ) * (2 : ℚ) ^ e) ≤ (roundEven m e).toRat ∧
    (roundEven m e).toRat ≤ (1 + unitRoundoff) * ((m : ℚ) * (2 : ℚ) ^ e) := by
  obtain ⟨N, hN, hlo, hhi, _⟩ := roundEven_toRat e hm
  have hlo2 : 2 ^ 53 * m ≤ 2 ^ 53 * N + m := by omega
  have hhi2 : 2 ^ 53 * N ≤ 2 ^ 53 * m + m := by omega
  have hlo3 : (2 : ℚ) ^ 53 * m ≤ 2 ^ 53 * N + m := by exact_mod_cast hlo2
  have hhi3 : (2 : ℚ) ^ 53 * N ≤ 2 ^ 53 * m + m := by exact_mod_cast hhi2
  have hp : (0 : ℚ) < (2 : ℚ) ^ e := by positivity
  have h1 : (1 - unitRoundoff) * (m : ℚ) ≤ N := by
    unfold unitRoundoff
    have e1 : (1 - 1 / 2 ^ 53 : ℚ) * m = (2 ^ 53 * m - m) / 2 ^ 53 := by ring
    rw [e1, div_le_iff₀ (by positivity)]
    linarith
  have h2 : (N : ℚ) ≤ (1 + unitRoundoff) * m := by
    unfold unitRoundoff
    have e1 : (1 + 1 / 2 ^ 53 : ℚ) * m = (2 ^ 53 * m + m) / 2 ^ 53 := by ring
    rw [e1, le_div_iff₀ (by positivity)]
    linarith
  rw [hN]
  constructor
  · calc (1 - unitRoundoff) * ((m : ℚ) * (2 : ℚ) ^ e)
        = ((1 - unitRoundoff) * m) * (2 : ℚ) ^ e := by ring
      _ ≤ N * (2 : ℚ) ^ e := mul_le_mul_of_nonneg_right h1 hp.le
  · calc (N : ℚ) * (2 : ℚ) ^ e ≤ ((1 + unitRoundoff) * m) * (2 : ℚ) ^ e :=
        mul_le_mul_of_nonneg_right h2 hp.le
      _ = (1 + unitRoundoff) * ((m : ℚ) * (2 : ℚ) ^ e) := by ring

/-- The unit roundoff lies strictly between 0 and 1. -/
theorem unitRoundoff_pos : 0 < unitRoundoff ∧ unitRoundoff < 1 := by
  unfold unitRoundoff
  constructor <;> norm_num

/-- What passed the range check is valid, when it came from a rounding. -/
theorem mul_valid {a b c : Binary64} (h : mul a b = some c) : c.Valid := by
  unfold mul at h
  rw [← checked_eq_some h]
  exact roundEven_valid _ _

/-- The relative error of a product is at most the unit roundoff. -/
theorem mul_err {a b c : Binary64} (h : mul a b = some c) :
    (1 - unitRoundoff) * (a.toRat * b.toRat) ≤ c.toRat ∧
    c.toRat ≤ (1 + unitRoundoff) * (a.toRat * b.toRat) := by
  unfold mul at h
  have hc := checked_eq_some h
  have hprod : a.toRat * b.toRat = ((a.m * b.m : ℕ) : ℚ) * (2 : ℚ) ^ (a.e + b.e) := by
    unfold toRat
    rw [zpow_add₀ (by norm_num)]
    push_cast
    ring
  by_cases hm : a.m * b.m = 0
  · rw [hm] at hc hprod
    have hz : c.toRat = 0 := by
      rw [← hc]
      unfold roundEven
      rw [if_pos rfl]
      exact toRat_of_m_eq_zero rfl
    rw [hz, hprod]
    simp
  · rw [← hc, hprod]
    exact roundEven_err _ (Nat.pos_of_ne_zero hm)

/-- A sum of valid doubles is valid. -/
theorem add_valid {a b c : Binary64} (ha : a.Valid) (hb : b.Valid) (h : add a b = some c) :
    c.Valid := by
  unfold add at h
  split at h
  · rw [← Option.some.inj h]
    exact hb
  · split at h
    · rw [← Option.some.inj h]
      exact ha
    · rw [← checked_eq_some h]
      exact roundEven_valid _ _

/-- The relative error of a sum is at most the unit roundoff. -/
theorem add_err {a b c : Binary64} (h : add a b = some c) :
    (1 - unitRoundoff) * (a.toRat + b.toRat) ≤ c.toRat ∧
    c.toRat ≤ (1 + unitRoundoff) * (a.toRat + b.toRat) := by
  have hu := unitRoundoff_pos
  unfold add at h
  split at h
  · rename_i h0
    have hc := Option.some.inj h
    rw [← hc, toRat_of_m_eq_zero h0, zero_add]
    have := toRat_nonneg b
    constructor <;> nlinarith
  · split at h
    · rename_i h0 h1
      have hc := Option.some.inj h
      rw [← hc, toRat_of_m_eq_zero h1, add_zero]
      have := toRat_nonneg a
      constructor <;> nlinarith
    · rename_i h0 h1
      have hc := checked_eq_some h
      have ha : (a.e - min a.e b.e).toNat = a.e - min a.e b.e :=
        Int.toNat_of_nonneg (by have := min_le_left a.e b.e; omega)
      have hb : (b.e - min a.e b.e).toNat = b.e - min a.e b.e :=
        Int.toNat_of_nonneg (by have := min_le_right a.e b.e; omega)
      have hsum : a.toRat + b.toRat
          = ((a.m * 2 ^ (a.e - min a.e b.e).toNat + b.m * 2 ^ (b.e - min a.e b.e).toNat : ℕ) : ℚ)
              * (2 : ℚ) ^ (min a.e b.e) := by
        unfold toRat
        push_cast
        have e1 : (2 : ℚ) ^ a.e
            = (2 : ℚ) ^ ((a.e - min a.e b.e).toNat) * (2 : ℚ) ^ (min a.e b.e) := by
          rw [← zpow_natCast, ha, ← zpow_add₀ (by norm_num)]
          congr 1
          omega
        have e2 : (2 : ℚ) ^ b.e
            = (2 : ℚ) ^ ((b.e - min a.e b.e).toNat) * (2 : ℚ) ^ (min a.e b.e) := by
          rw [← zpow_natCast, hb, ← zpow_add₀ (by norm_num)]
          congr 1
          omega
        rw [e1, e2]
        ring
      have hpos : 0 < a.m * 2 ^ (a.e - min a.e b.e).toNat
          + b.m * 2 ^ (b.e - min a.e b.e).toNat := by
        have : 0 < a.m * 2 ^ (a.e - min a.e b.e).toNat :=
          Nat.mul_pos (Nat.pos_of_ne_zero h0) (Nat.two_pow_pos _)
        omega
      rw [← hc, hsum]
      exact roundEven_err _ hpos

/-- The quotient of two normal doubles is normal. -/
theorem div_valid {a b c : Binary64} (ha : a.Normal) (hb : b.Normal) (h : div a b = some c) :
    c.Normal := by
  have hb0 := hb.m_ne_zero
  have ha0 := ha.m_ne_zero
  unfold div at h
  rw [if_neg hb0, if_neg ha0] at h
  rw [← checked_eq_some h]
  have hq1 : 2 ^ 63 ≤ a.m * 2 ^ 64 / b.m := by
    rw [Nat.le_div_iff_mul_le (Nat.pos_of_ne_zero hb0)]
    have h1 := ha.1
    have h2 := hb.2
    omega
  obtain ⟨k, h1, h2⟩ := exists_pow_le
    (2 * (a.m * 2 ^ 64 / b.m) + (if a.m * 2 ^ 64 % b.m = 0 then 0 else 1)) (by omega)
  exact (roundEven_spec _ h1 h2).1

/-- The relative error of a quotient of normal doubles is at most the unit
roundoff. -/
theorem div_err {a b c : Binary64} (ha : a.Normal) (hb : b.Normal) (h : div a b = some c) :
    (1 - unitRoundoff) * (a.toRat / b.toRat) ≤ c.toRat ∧
    c.toRat ≤ (1 + unitRoundoff) * (a.toRat / b.toRat) := by
  have hu := unitRoundoff_pos
  have hb0 := hb.m_ne_zero
  have ha0 := ha.m_ne_zero
  have hbpos : 0 < b.m := Nat.pos_of_ne_zero hb0
  have hbq : (0 : ℚ) < (b.m : ℚ) := by exact_mod_cast hbpos
  unfold div at h
  rw [if_neg hb0, if_neg ha0] at h
  have hc := checked_eq_some h
  have hq1 : 2 ^ 63 ≤ a.m * 2 ^ 64 / b.m := by
    rw [Nat.le_div_iff_mul_le hbpos]
    have h1 := ha.1
    have h2 := hb.2
    omega
  have hdm := Nat.div_add_mod (a.m * 2 ^ 64) b.m
  have hrlt := Nat.mod_lt (a.m * 2 ^ 64) hbpos
  have hquot : a.toRat / b.toRat
      = ((a.m : ℚ) * 2 ^ 65 / b.m) * (2 : ℚ) ^ (a.e - b.e - 65) := by
    unfold toRat
    have e1 : (2 : ℚ) ^ (a.e - b.e - 65) = (2 : ℚ) ^ a.e / (2 : ℚ) ^ b.e / 2 ^ 65 := by
      rw [zpow_sub₀ (by norm_num), zpow_sub₀ (by norm_num)]
      norm_num
    rw [e1]
    have hp : (2 : ℚ) ^ b.e ≠ 0 := by positivity
    field_simp
    ring
  have hp : (0 : ℚ) < (2 : ℚ) ^ (a.e - b.e - 65) := by positivity
  generalize hq : a.m * 2 ^ 64 / b.m = q at hc hq1 hdm
  generalize hr : a.m * 2 ^ 64 % b.m = ρ at hc hdm hrlt
  -- the exact quotient of the mantissas, scaled like the rounded integer
  have hX : ((a.m : ℚ) * 2 ^ 65 / b.m) = 2 * q + 2 * (ρ : ℚ) / b.m := by
    have hcast : ((b.m * q + ρ : ℕ) : ℚ) = ((a.m * 2 ^ 64 : ℕ) : ℚ) := by rw [hdm]
    push_cast at hcast
    field_simp
    linarith
  rw [hquot, ← hc]
  by_cases hρ : ρ = 0
  · rw [if_pos hρ]
    obtain ⟨h1, h2⟩ := roundEven_err (a.e - b.e - 65) (show 0 < 2 * q + 0 by omega)
    have hXq : ((a.m : ℚ) * 2 ^ 65 / b.m) = ((2 * q + 0 : ℕ) : ℚ) := by
      rw [hX, hρ]
      push_cast
      ring
    rw [hXq]
    exact ⟨h1, h2⟩
  · rw [if_neg hρ]
    obtain ⟨N, hN, _, _, hs⟩ := roundEven_toRat (a.e - b.e - 65) (show 0 < 2 * q + 1 by omega)
    obtain ⟨hs1, hs2⟩ := hs (by omega) (by omega)
    have hs1' : 2 ^ 53 * (2 * q + 1 + 1) ≤ 2 ^ 53 * N + (2 * q + 1 + 1) := by omega
    have hs2' : 2 ^ 53 * N ≤ 2 ^ 53 * (2 * q) + 2 * q := by omega
    have hs1q : (2 : ℚ) ^ 53 * (2 * q + 1 + 1) ≤ 2 ^ 53 * N + (2 * q + 1 + 1) := by
      exact_mod_cast hs1'
    have hs2q : (2 : ℚ) ^ 53 * N ≤ 2 ^ 53 * (2 * q) + 2 * q := by exact_mod_cast hs2'
    have hρpos : (0 : ℚ) < (ρ : ℚ) := by exact_mod_cast Nat.pos_of_ne_zero hρ
    have hρlt : (ρ : ℚ) < (b.m : ℚ) := by exact_mod_cast hrlt
    have hfrac1 : 0 < 2 * (ρ : ℚ) / b.m := by positivity
    have hfrac2 : 2 * (ρ : ℚ) / b.m < 2 := by
      rw [div_lt_iff₀ hbq]
      linarith
    rw [hN, hX]
    generalize 2 * (ρ : ℚ) / b.m = f at hfrac1 hfrac2 ⊢
    have hlo : (1 - unitRoundoff) * (2 * q + f) ≤ N := by
      unfold unitRoundoff
      have e1 : (1 - 1 / 2 ^ 53 : ℚ) * (2 * q + f)
          = (2 ^ 53 * (2 * q + f) - (2 * q + f)) / 2 ^ 53 := by
        ring
      rw [e1, div_le_iff₀ (by positivity)]
      linarith
    have hhi : (N : ℚ) ≤ (1 + unitRoundoff) * (2 * q + f) := by
      unfold unitRoundoff
      have e1 : (1 + 1 / 2 ^ 53 : ℚ) * (2 * q + f)
          = (2 ^ 53 * (2 * q + f) + (2 * q + f)) / 2 ^ 53 := by
        ring
      rw [e1, le_div_iff₀ (by positivity)]
      linarith
    constructor
    · calc (1 - unitRoundoff) * ((2 * q + f) * (2 : ℚ) ^ (a.e - b.e - 65))
          = ((1 - unitRoundoff) * (2 * q + f)) * (2 : ℚ) ^ (a.e - b.e - 65) := by ring
        _ ≤ N * (2 : ℚ) ^ (a.e - b.e - 65) := mul_le_mul_of_nonneg_right hlo hp.le
    · calc (N : ℚ) * (2 : ℚ) ^ (a.e - b.e - 65)
          ≤ ((1 + unitRoundoff) * (2 * q + f)) * (2 : ℚ) ^ (a.e - b.e - 65) :=
            mul_le_mul_of_nonneg_right hhi hp.le
        _ = (1 + unitRoundoff) * ((2 * q + f) * (2 : ℚ) ^ (a.e - b.e - 65)) := by ring

/-- The value of a normal double from below. -/
theorem Normal.le_toRat {x : Binary64} (hn : x.Normal) : (2 : ℚ) ^ (x.e + 52) ≤ x.toRat := by
  unfold toRat
  rw [zpow_add₀ (by norm_num), mul_comm]
  have h52 : ((2 : ℚ) ^ (52 : ℤ)) = ((2 ^ 52 : ℕ) : ℚ) := by norm_num
  rw [h52]
  have : ((2 ^ 52 : ℕ) : ℚ) ≤ (x.m : ℚ) := by exact_mod_cast hn.1
  exact mul_le_mul_of_nonneg_right this (by positivity)

/-- The value of a normal double from above. -/
theorem Normal.toRat_lt {x : Binary64} (hn : x.Normal) : x.toRat < (2 : ℚ) ^ (x.e + 53) := by
  unfold toRat
  rw [zpow_add₀ (by norm_num), mul_comm ((2 : ℚ) ^ x.e)]
  have h53 : ((2 : ℚ) ^ (53 : ℤ)) = ((2 ^ 53 : ℕ) : ℚ) := by norm_num
  rw [h53]
  have : (x.m : ℚ) < ((2 ^ 53 : ℕ) : ℚ) := by exact_mod_cast hn.2
  exact mul_lt_mul_of_pos_right this (by positivity)

/-- A normal double whose value is between `2 ^ (-1022)` and `2 ^ 1024` passes the
range check. -/
theorem checked_of_value {x : Binary64} (hn : x.Normal) (hlo : (2 : ℚ) ^ (-1022 : ℤ) ≤ x.toRat)
    (hhi : x.toRat < (2 : ℚ) ^ (1024 : ℤ)) : checked x = some x := by
  apply checked_of_range
  · by_contra hc
    have h1 : x.e + 53 ≤ -1022 := by omega
    have h2 := zpow_le_zpow_right₀ (show (1 : ℚ) ≤ 2 by norm_num) h1
    have h3 := hn.toRat_lt
    linarith
  · by_contra hc
    have h1 : (1024 : ℤ) ≤ x.e + 52 := by omega
    have h2 := zpow_le_zpow_right₀ (show (1 : ℚ) ≤ 2 by norm_num) h1
    have h3 := hn.le_toRat
    linarith

/-- A rounding whose exact value is between `2 ^ (-1021)` and `2 ^ 1023` passes
the range check. -/
theorem checked_roundEven {m : Nat} (e : Int) (hm : 0 < m)
    (hlo : (2 : ℚ) ^ (-1021 : ℤ) ≤ (m : ℚ) * (2 : ℚ) ^ e)
    (hhi : (m : ℚ) * (2 : ℚ) ^ e ≤ (2 : ℚ) ^ (1023 : ℤ)) :
    checked (roundEven m e) = some (roundEven m e) := by
  have hu := unitRoundoff_pos
  obtain ⟨k, h1, h2⟩ := exists_pow_le m hm
  have hn := (roundEven_spec e h1 h2).1
  obtain ⟨e1, e2⟩ := roundEven_err e hm
  have hhalf : (1 : ℚ) / 2 ≤ 1 - unitRoundoff := by
    unfold unitRoundoff
    norm_num
  have hup : 1 + unitRoundoff < 2 := by linarith [hu.2]
  have z1 : (2 : ℚ) ^ (-1022 : ℤ) = 1 / 2 * (2 : ℚ) ^ (-1021 : ℤ) := by
    rw [show (-1021 : ℤ) = -1022 + 1 by norm_num, zpow_add₀ (by norm_num)]
    norm_num
  have z2 : (2 : ℚ) ^ (1024 : ℤ) = 2 * (2 : ℚ) ^ (1023 : ℤ) := by
    rw [show (1024 : ℤ) = 1023 + 1 by norm_num, zpow_add₀ (by norm_num)]
    norm_num
  have hp : (0 : ℚ) < (2 : ℚ) ^ (-1021 : ℤ) := by positivity
  have hp2 : (0 : ℚ) < (2 : ℚ) ^ (1023 : ℤ) := by positivity
  have hx0 : (0 : ℚ) < (m : ℚ) * (2 : ℚ) ^ e := lt_of_lt_of_le hp hlo
  apply checked_of_value hn
  · rw [z1]
    calc 1 / 2 * (2 : ℚ) ^ (-1021 : ℤ) ≤ (1 - unitRoundoff) * ((m : ℚ) * (2 : ℚ) ^ e) :=
        mul_le_mul hhalf hlo hp.le (by linarith)
      _ ≤ (roundEven m e).toRat := e1
  · rw [z2]
    calc (roundEven m e).toRat ≤ (1 + unitRoundoff) * ((m : ℚ) * (2 : ℚ) ^ e) := e2
      _ < 2 * ((m : ℚ) * (2 : ℚ) ^ e) := mul_lt_mul_of_pos_right hup hx0
      _ ≤ 2 * (2 : ℚ) ^ (1023 : ℤ) := mul_le_mul_of_nonneg_left hhi (by norm_num)

/-- A product of doubles is computed when it is zero, or when its exact value is
between `2 ^ (-1021)` and `2 ^ 1023`. -/
theorem mul_some {a b : Binary64}
    (h : a.m * b.m = 0 ∨ ((2 : ℚ) ^ (-1021 : ℤ) ≤ a.toRat * b.toRat
      ∧ a.toRat * b.toRat ≤ (2 : ℚ) ^ (1023 : ℤ))) :
    ∃ c, mul a b = some c := by
  unfold mul
  by_cases hm : a.m * b.m = 0
  · rw [hm]
    refine ⟨⟨0, 0⟩, ?_⟩
    unfold roundEven
    rw [if_pos rfl]
    rfl
  · rcases h with h | ⟨hlo, hhi⟩
    · exact absurd h hm
    · have hprod : a.toRat * b.toRat = ((a.m * b.m : ℕ) : ℚ) * (2 : ℚ) ^ (a.e + b.e) := by
        unfold toRat
        rw [zpow_add₀ (by norm_num)]
        push_cast
        ring
      rw [hprod] at hlo hhi
      exact ⟨_, checked_roundEven _ (Nat.pos_of_ne_zero hm) hlo hhi⟩

/-- A sum of doubles is computed when a summand is zero, or when its exact value
is between `2 ^ (-1021)` and `2 ^ 1023`. -/
theorem add_some {a b : Binary64}
    (h : a.m = 0 ∨ b.m = 0 ∨ ((2 : ℚ) ^ (-1021 : ℤ) ≤ a.toRat + b.toRat
      ∧ a.toRat + b.toRat ≤ (2 : ℚ) ^ (1023 : ℤ))) :
    ∃ c, add a b = some c := by
  unfold add
  by_cases h0 : a.m = 0
  · rw [if_pos h0]
    exact ⟨b, rfl⟩
  · by_cases h1 : b.m = 0
    · rw [if_neg h0, if_pos h1]
      exact ⟨a, rfl⟩
    · rw [if_neg h0, if_neg h1]
      rcases h with h | h | ⟨hlo, hhi⟩
      · exact absurd h h0
      · exact absurd h h1
      · have ha : (a.e - min a.e b.e).toNat = a.e - min a.e b.e :=
          Int.toNat_of_nonneg (by have := min_le_left a.e b.e; omega)
        have hb : (b.e - min a.e b.e).toNat = b.e - min a.e b.e :=
          Int.toNat_of_nonneg (by have := min_le_right a.e b.e; omega)
        have hsum : a.toRat + b.toRat
            = ((a.m * 2 ^ (a.e - min a.e b.e).toNat
                + b.m * 2 ^ (b.e - min a.e b.e).toNat : ℕ) : ℚ)
                * (2 : ℚ) ^ (min a.e b.e) := by
          unfold toRat
          push_cast
          have e1 : (2 : ℚ) ^ a.e
              = (2 : ℚ) ^ ((a.e - min a.e b.e).toNat) * (2 : ℚ) ^ (min a.e b.e) := by
            rw [← zpow_natCast, ha, ← zpow_add₀ (by norm_num)]
            congr 1
            omega
          have e2 : (2 : ℚ) ^ b.e
              = (2 : ℚ) ^ ((b.e - min a.e b.e).toNat) * (2 : ℚ) ^ (min a.e b.e) := by
            rw [← zpow_natCast, hb, ← zpow_add₀ (by norm_num)]
            congr 1
            omega
          rw [e1, e2]
          ring
        have hpos : 0 < a.m * 2 ^ (a.e - min a.e b.e).toNat
            + b.m * 2 ^ (b.e - min a.e b.e).toNat := by
          have : 0 < a.m * 2 ^ (a.e - min a.e b.e).toNat :=
            Nat.mul_pos (Nat.pos_of_ne_zero h0) (Nat.two_pow_pos _)
          omega
        rw [hsum] at hlo hhi
        exact ⟨_, checked_roundEven _ hpos hlo hhi⟩

/-- A quotient of normal doubles is computed when its exact value is between
`2 ^ (-1020)` and `2 ^ 1022`. -/
theorem div_some {a b : Binary64} (ha : a.Normal) (hb : b.Normal)
    (hlo : (2 : ℚ) ^ (-1020 : ℤ) ≤ a.toRat / b.toRat)
    (hhi : a.toRat / b.toRat ≤ (2 : ℚ) ^ (1022 : ℤ)) :
    ∃ c, div a b = some c := by
  have hb0 := hb.m_ne_zero
  have ha0 := ha.m_ne_zero
  have hbpos : 0 < b.m := Nat.pos_of_ne_zero hb0
  have hbq : (0 : ℚ) < (b.m : ℚ) := by exact_mod_cast hbpos
  unfold div
  rw [if_neg hb0, if_neg ha0]
  simp only []
  have hq1 : 2 ^ 63 ≤ a.m * 2 ^ 64 / b.m := by
    rw [Nat.le_div_iff_mul_le hbpos]
    have h1 := ha.1
    have h2 := hb.2
    omega
  have hdm := Nat.div_add_mod (a.m * 2 ^ 64) b.m
  have hrlt := Nat.mod_lt (a.m * 2 ^ 64) hbpos
  have hquot : a.toRat / b.toRat
      = ((a.m : ℚ) * 2 ^ 65 / b.m) * (2 : ℚ) ^ (a.e - b.e - 65) := by
    unfold toRat
    have e1 : (2 : ℚ) ^ (a.e - b.e - 65) = (2 : ℚ) ^ a.e / (2 : ℚ) ^ b.e / 2 ^ 65 := by
      rw [zpow_sub₀ (by norm_num), zpow_sub₀ (by norm_num)]
      norm_num
    rw [e1]
    have hp : (2 : ℚ) ^ b.e ≠ 0 := by positivity
    field_simp
    ring
  have hp : (0 : ℚ) < (2 : ℚ) ^ (a.e - b.e - 65) := by positivity
  generalize hq : a.m * 2 ^ 64 / b.m = q at hq1 hdm ⊢
  generalize hr : a.m * 2 ^ 64 % b.m = ρ at hdm hrlt ⊢
  have hX : ((a.m : ℚ) * 2 ^ 65 / b.m) = 2 * q + 2 * (ρ : ℚ) / b.m := by
    have hcast : ((b.m * q + ρ : ℕ) : ℚ) = ((a.m * 2 ^ 64 : ℕ) : ℚ) := by rw [hdm]
    push_cast at hcast
    field_simp
    linarith
  have hρ0 : (0 : ℚ) ≤ (ρ : ℚ) := by positivity
  have hρlt : (ρ : ℚ) < (b.m : ℚ) := by exact_mod_cast hrlt
  have hfrac1 : 0 ≤ 2 * (ρ : ℚ) / b.m := by positivity
  have hfrac2 : 2 * (ρ : ℚ) / b.m < 2 := by
    rw [div_lt_iff₀ hbq]
    linarith
  have hst : (if ρ = 0 then 0 else 1) ≤ 1 := by
    split <;> omega
  generalize (if ρ = 0 then 0 else 1) = st at hst ⊢
  rw [hquot, hX] at hlo hhi
  generalize 2 * (ρ : ℚ) / b.m = f at hfrac1 hfrac2 hlo hhi
  have hq1q : (2 : ℚ) ^ 63 ≤ (q : ℚ) := by exact_mod_cast hq1
  have hstq : ((st : ℕ) : ℚ) ≤ 1 := by exact_mod_cast hst
  have hst0 : (0 : ℚ) ≤ ((st : ℕ) : ℚ) := by positivity
  have z1 : (2 : ℚ) ^ (-1021 : ℤ) = 1 / 2 * (2 : ℚ) ^ (-1020 : ℤ) := by
    rw [show (-1020 : ℤ) = -1021 + 1 by norm_num, zpow_add₀ (by norm_num)]
    norm_num
  have z2 : (2 : ℚ) ^ (1023 : ℤ) = 2 * (2 : ℚ) ^ (1022 : ℤ) := by
    rw [show (1023 : ℤ) = 1022 + 1 by norm_num, zpow_add₀ (by norm_num)]
    norm_num
  refine ⟨_, checked_roundEven _ (show 0 < 2 * q + st by omega) ?_ ?_⟩
  · rw [z1]
    push_cast
    calc 1 / 2 * (2 : ℚ) ^ (-1020 : ℤ)
        ≤ 1 / 2 * ((2 * (q : ℚ) + f) * (2 : ℚ) ^ (a.e - b.e - 65)) :=
          mul_le_mul_of_nonneg_left hlo (by norm_num)
      _ = (1 / 2 * (2 * (q : ℚ) + f)) * (2 : ℚ) ^ (a.e - b.e - 65) := by ring
      _ ≤ (2 * (q : ℚ) + (st : ℚ)) * (2 : ℚ) ^ (a.e - b.e - 65) := by
          apply mul_le_mul_of_nonneg_right _ hp.le
          have : (2 : ℚ) ^ 63 = 9223372036854775808 := by norm_num
          linarith
  · rw [z2]
    push_cast
    calc (2 * (q : ℚ) + (st : ℚ)) * (2 : ℚ) ^ (a.e - b.e - 65)
        ≤ (2 * (2 * (q : ℚ) + f)) * (2 : ℚ) ^ (a.e - b.e - 65) := by
          apply mul_le_mul_of_nonneg_right _ hp.le
          have : (2 : ℚ) ^ 63 = 9223372036854775808 := by norm_num
          linarith
      _ = 2 * ((2 * (q : ℚ) + f) * (2 : ℚ) ^ (a.e - b.e - 65)) := by ring
      _ ≤ 2 * (2 : ℚ) ^ (1022 : ℤ) := mul_le_mul_of_nonneg_left hhi (by norm_num)

/-- Whatever a division returns is zero or normal. -/
theorem div_result_valid {a b c : Binary64} (h : div a b = some c) : c.Valid := by
  unfold div at h
  split at h
  · exact Option.noConfusion h
  · split at h
    · rw [← Option.some.inj h]
      left
      rfl
    · rw [← checked_eq_some h]
      exact roundEven_valid _ _

/-- A division that returns has a divisor other than zero. -/
theorem div_divisor_ne_zero {a b c : Binary64} (h : div a b = some c) : b.m ≠ 0 := by
  intro hb
  unfold div at h
  rw [if_pos hb] at h
  exact Option.noConfusion h

/-- A valid double is zero exactly when its value is zero. -/
theorem Valid.normal_of_pos {x : Binary64} (hx : x.Valid) (h : 0 < x.toRat) : x.Normal := by
  rcases hx with h0 | hn
  · rw [toRat_of_m_eq_zero h0] at h
    exact absurd h (lt_irrefl _)
  · exact hn

/-- An integer below `2 ^ 53` converts to a double of the same value. -/
theorem ofNat_toRat {n : Nat} (h : n < 2 ^ 53) : (ofNat n).toRat = n := by
  unfold ofNat
  by_cases h0 : n = 0
  · subst h0
    unfold roundEven
    rw [if_pos rfl]
    simp [toRat]
  · obtain ⟨k, h1, h2⟩ := exists_pow_le n (Nat.pos_of_ne_zero h0)
    have hk : k ≤ 52 := by
      by_contra hc
      have : 2 ^ 53 ≤ 2 ^ k := Nat.pow_le_pow_right (by norm_num) (by omega)
      omega
    rw [roundEven_of_le 0 h1 h2 hk, toRat_mk]
    have hz : (2 : ℚ) ^ ((0 : ℤ) - ((52 - k : ℕ) : ℤ)) = 1 / (2 : ℚ) ^ (52 - k) := by
      rw [zero_sub, zpow_neg, zpow_natCast, one_div]
    rw [hz]
    push_cast
    field_simp

end Binary64

/-- The throughput on binary64, when it is computed, is zero or normal. -/
theorem throughputMbps64_valid {dur : Binary64} {b : Nat} {t : Binary64}
    (h : throughputMbps64 dur b = some t) : t.Valid := by
  simp only [throughputMbps64, Option.bind_eq_bind, Option.bind_eq_some] at h
  obtain ⟨_, _, _, _, _, _, h4⟩ := h
  exact Binary64.div_result_valid h4

/-- The two sums of the fairness loop on binary64 against the exact sums of the
throughputs the loop computed: after `n` flows the sum is within the factors
`(1 ± u) ^ n`, and the sum of squares within `(1 ± u) ^ n` of the sum of the
squares taken with one rounding each. -/
theorem fairnessLoop64_err {β : Type} (dur : Binary64) :
    ∀ (rs : List (FlowStats β)) (s1 s2 r1 r2 : Binary64),
      fairnessLoop64 dur rs (s1, s2) = some (r1, r2) → s1.Valid → s2.Valid →
      ∃ ts : List ℚ,
        ts.length = (rs.filter (fun r => decide (0 < r.rxPackets))).length ∧
        (∀ t ∈ ts, 0 ≤ t) ∧ r1.Valid ∧ r2.Valid ∧
        (1 - Binary64.unitRoundoff) ^ ts.length * (s1.toRat + ts.sum) ≤ r1.toRat ∧
        r1.toRat ≤ (1 + Binary64.unitRoundoff) ^ ts.length * (s1.toRat + ts.sum) ∧
        (1 - Binary64.unitRoundoff) ^ ts.length
            * (s2.toRat + (1 - Binary64.unitRoundoff) * (ts.map (fun t => t * t)).sum)
          ≤ r2.toRat ∧
        r2.toRat ≤ (1 + Binary64.unitRoundoff) ^ ts.length
            * (s2.toRat + (1 + Binary64.unitRoundoff) * (ts.map (fun t => t * t)).sum) ∧
        (∀ t ∈ ts, ∃ r ∈ rs, 0 < r.rxPackets ∧
          ∃ x, throughputMbps64 dur r.rxBytes = some x ∧ x.toRat = t) := by
  have hu := Binary64.unitRoundoff_pos
  intro rs
  induction rs with
  | nil =>
    intro s1 s2 r1 r2 h hv1 hv2
    simp only [fairnessLoop64, Option.some.injEq, Prod.mk.injEq] at h
    obtain ⟨rfl, rfl⟩ := h
    exact ⟨[], rfl, by simp, hv1, hv2, by simp, by simp, by simp, by simp, by simp⟩
  | cons r rs ih =>
    intro s1 s2 r1 r2 h hv1 hv2
    by_cases hr : 0 < r.rxPackets
    · simp only [fairnessLoop64, if_pos hr, Option.bind_eq_bind, Option.bind_eq_some] at h
      obtain ⟨t, ht, sum, hsum, sq, hsq, sumSq, hsumSq, hrest⟩ := h
      have htv := throughputMbps64_valid ht
      have hsumv := Binary64.add_valid hv1 htv hsum
      have hsqv := Binary64.mul_valid hsq
      have hsumSqv := Binary64.add_valid hv2 hsqv hsumSq
      obtain ⟨ts, hlen, hnn, hr1, hr2, b1, b2, b3, b4, b5⟩ :=
        ih sum sumSq r1 r2 hrest hsumv hsumSqv
      obtain ⟨a1, a2⟩ := Binary64.add_err hsum
      obtain ⟨m1, m2⟩ := Binary64.mul_err hsq
      obtain ⟨q1, q2⟩ := Binary64.add_err hsumSq
      have ht0 := Binary64.toRat_nonneg t
      have hs10 := Binary64.toRat_nonneg s1
      have hs20 := Binary64.toRat_nonneg s2
      have hS : 0 ≤ ts.sum := List.sum_nonneg hnn
      have hQ : 0 ≤ (ts.map (fun t => t * t)).sum := by
        apply List.sum_nonneg
        intro y hy
        obtain ⟨z, _, rfl⟩ := List.mem_map.mp hy
        exact mul_self_nonneg z
      have hpl : 0 ≤ (1 - Binary64.unitRoundoff) ^ ts.length :=
        pow_nonneg (by linarith [hu.2]) _
      have hph : 0 ≤ (1 + Binary64.unitRoundoff) ^ ts.length :=
        pow_nonneg (by linarith [hu.1]) _
      refine ⟨t.toRat :: ts, ?_, ?_, hr1, hr2, ?_, ?_, ?_, ?_, ?_⟩
      · rw [List.filter_cons_of_pos (by simpa using hr)]
        simp [hlen]
      · intro y hy
        rcases List.mem_cons.mp hy with rfl | hy
        · exact ht0
        · exact hnn y hy
      · simp only [List.length_cons, List.sum_cons, pow_succ]
        calc (1 - Binary64.unitRoundoff) ^ ts.length * (1 - Binary64.unitRoundoff)
              * (s1.toRat + (t.toRat + ts.sum))
            ≤ (1 - Binary64.unitRoundoff) ^ ts.length * (sum.toRat + ts.sum) := by
              rw [mul_assoc]
              apply mul_le_mul_of_nonneg_left _ hpl
              nlinarith
          _ ≤ r1.toRat := b1
      · simp only [List.length_cons, List.sum_cons, pow_succ]
        calc r1.toRat ≤ (1 + Binary64.unitRoundoff) ^ ts.length * (sum.toRat + ts.sum) := b2
          _ ≤ (1 + Binary64.unitRoundoff) ^ ts.length * (1 + Binary64.unitRoundoff)
              * (s1.toRat + (t.toRat + ts.sum)) := by
              rw [mul_assoc]
              apply mul_le_mul_of_nonneg_left _ hph
              nlinarith
      · simp only [List.length_cons, List.map_cons, List.sum_cons, pow_succ]
        calc (1 - Binary64.unitRoundoff) ^ ts.length * (1 - Binary64.unitRoundoff)
              * (s2.toRat + (1 - Binary64.unitRoundoff)
                  * (t.toRat * t.toRat + (ts.map (fun t => t * t)).sum))
            ≤ (1 - Binary64.unitRoundoff) ^ ts.length
                * (sumSq.toRat
                    + (1 - Binary64.unitRoundoff) * (ts.map (fun t => t * t)).sum) := by
              rw [mul_assoc]
              apply mul_le_mul_of_nonneg_left _ hpl
              nlinarith [mul_nonneg hu.1.le hQ, mul_nonneg hu.1.le (mul_nonneg hu.1.le hQ)]
          _ ≤ r2.toRat := b3
      · simp only [List.length_cons, List.map_cons, List.sum_cons, pow_succ]
        calc r2.toRat ≤ (1 + Binary64.unitRoundoff) ^ ts.length
                * (sumSq.toRat
                    + (1 + Binary64.unitRoundoff) * (ts.map (fun t => t * t)).sum) := b4
          _ ≤ (1 + Binary64.unitRoundoff) ^ ts.length * (1 + Binary64.unitRoundoff)
              * (s2.toRat + (1 + Binary64.unitRoundoff)
                  * (t.toRat * t.toRat + (ts.map (fun t => t * t)).sum)) := by
              rw [mul_assoc]
              apply mul_le_mul_of_nonneg_left _ hph
              nlinarith [mul_nonneg hu.1.le hQ, mul_nonneg hu.1.le (mul_nonneg hu.1.le hQ)]
      · intro y hy
        rcases List.mem_cons.mp hy with rfl | hy
        · exact ⟨r, List.mem_cons_self r rs, hr, t, ht, rfl⟩
        · obtain ⟨z, hz, hz1, hz2⟩ := b5 y hy
          exact ⟨z, List.mem_cons_of_mem r hz, hz1, hz2⟩
    · simp only [fairnessLoop64, if_neg hr] at h
      obtain ⟨ts, hlen, hnn, hr1, hr2, b1, b2, b3, b4, b5⟩ := ih s1 s2 r1 r2 h hv1 hv2
      refine ⟨ts, ?_, hnn, hr1, hr2, b1, b2, b3, b4, ?_⟩
      · rw [List.filter_cons_of_neg (by simpa using hr)]
        exact hlen
      · intro y hy
        obtain ⟨z, hz, hz1, hz2⟩ := b5 y hy
        exact ⟨z, List.mem_cons_of_mem r hz, hz1, hz2⟩

/-- The flow counter is the number of flows that received packets, when these
are fewer than `2 ^ 32`. -/
theorem countFlows_of_lt {β : Type} (stats : List (FlowStats β)) (F : ℕ)
    (hFdef : (stats.filter (fun r => decide (0 < r.rxPackets))).length = F) (hF2 : F < 2 ^ 32) :
    countFlows stats 0 = F := by
  rcases countFlows_eq stats 0 with h1 | ⟨h1, h2⟩
  · rw [h1, hFdef]
    unfold u32
    omega
  · rw [h2, ← hFdef, h1]

/-- A quotient of powers of `1 - u` and `1 + u` from below. -/
theorem pow_ratio_lower (u : ℚ) (h0 : 0 < u) (h1 : u < 1) (p q : ℕ) :
    1 - ((p + q : ℕ) : ℚ) * u ≤ (1 - u) ^ p / (1 + u) ^ q := by
  have ha : 0 < 1 + u := by linarith
  have hb : 0 < 1 - u := by linarith
  have hbern : 1 + ((p + q : ℕ) : ℚ) * (-u) ≤ (1 + (-u)) ^ (p + q) :=
    one_add_mul_le_pow (by linarith) (p + q)
  have hprod : (1 - u) ^ q * (1 + u) ^ q ≤ 1 := by
    rw [← mul_pow]
    apply pow_le_one₀
    · nlinarith
    · nlinarith
  rw [le_div_iff₀ (pow_pos ha q)]
  by_cases hneg : 1 - ((p + q : ℕ) : ℚ) * u ≤ 0
  · calc (1 - ((p + q : ℕ) : ℚ) * u) * (1 + u) ^ q ≤ 0 :=
        mul_nonpos_of_nonpos_of_nonneg hneg (pow_pos ha q).le
      _ ≤ (1 - u) ^ p := (pow_pos hb p).le
  · calc (1 - ((p + q : ℕ) : ℚ) * u) * (1 + u) ^ q
        ≤ (1 - u) ^ (p + q) * (1 + u) ^ q := by
          apply mul_le_mul_of_nonneg_right _ (pow_pos ha q).le
          have e : (1 + -u) = 1 - u := by ring
          rw [e] at hbern
          linarith
      _ = (1 - u) ^ p * ((1 - u) ^ q * (1 + u) ^ q) := by
          rw [pow_add]
          ring
      _ ≤ (1 - u) ^ p * 1 := mul_le_mul_of_nonneg_left hprod (pow_pos hb p).le
      _ = (1 - u) ^ p := mul_one _

/-- A quotient of powers of `1 + u` and `1 - u` from above. -/
theorem pow_ratio_upper (u : ℚ) (h0 : 0 < u) (h1 : u < 1) (p q : ℕ)
    (hx : ((p + q : ℕ) : ℚ) * u ≤ 1 / 2) :
    (1 + u) ^ p / (1 - u) ^ q ≤ 1 + 2 * (((p + q : ℕ) : ℚ) * u) := by
  have ha : 0 < 1 + u := by linarith
  have hb : 0 < 1 - u := by linarith
  have hbern : 1 + ((p + q : ℕ) : ℚ) * (-u) ≤ (1 + (-u)) ^ (p + q) :=
    one_add_mul_le_pow (by linarith) (p + q)
  have e : (1 + -u) = 1 - u := by ring
  rw [e, pow_add] at hbern
  have hprod : (1 + u) ^ p * (1 - u) ^ p ≤ 1 := by
    rw [← mul_pow]
    apply pow_le_one₀
    · nlinarith
    · nlinarith
  have hx0 : 0 ≤ ((p + q : ℕ) : ℚ) * u := by positivity
  have hbern2 : 1 - ((p + q : ℕ) : ℚ) * u ≤ (1 - u) ^ p * (1 - u) ^ q := by linarith
  generalize ((p + q : ℕ) : ℚ) * u = x at hx hbern2 hx0 ⊢
  rw [div_le_iff₀ (pow_pos hb q)]
  have hpp := pow_pos hb p
  have hqq := pow_pos hb q
  apply le_of_mul_le_mul_right _ hpp
  have h2 : 1 ≤ (1 + 2 * x) * (1 - x) := by nlinarith
  calc (1 + u) ^ p * (1 - u) ^ p ≤ 1 := hprod
    _ ≤ (1 + 2 * x) * (1 - x) := h2
    _ ≤ (1 + 2 * x) * ((1 - u) ^ p * (1 - u) ^ q) := by
        apply mul_le_mul_of_nonneg_left _ (by linarith)
        linarith
    _ = (1 + 2 * x) * (1 - u) ^ q * (1 - u) ^ p := by ring

/-- Jain's bounds on a list of `F` rationals that are not negative, in the form
the rounding analysis takes them. -/
theorem jain_bounds_rat (F : ℕ) (hF : 0 < F) (ts : List ℚ) (hlen : ts.length = F)
    (hnn : ∀ t ∈ ts, 0 ≤ t) :
    1 / (F : ℚ) * ((F : ℚ) * (ts.map (fun t => t * t)).sum) ≤ ts.sum ^ 2 ∧
    ts.sum ^ 2 ≤ 1 * ((F : ℚ) * (ts.map (fun t => t * t)).sum) := by
  have hFq : (F : ℚ) ≠ 0 := by exact_mod_cast (show F ≠ 0 by omega)
  constructor
  · rw [one_div, ← mul_assoc, inv_mul_cancel₀ hFq, one_mul]
    exact sum_sq_le_sq_sum ts hnn
  · rw [one_mul, ← hlen]
    exact sq_sum_le_length_mul ts

/-- The quotient the fairness index rounds last, against the exact index
`S ^ 2 / (F * Q)` of the throughputs the loop computed, `S` their sum and `Q`
the sum of their squares: when the exact index lies between `c1 > 0` and `c2`,
then, with the square of the first sum and `F` times the second computed and
the latter not zero, both are normal doubles and their exact quotient lies
between `c1 * ((1 - u) ^ (2 F + 1) / (1 + u) ^ (F + 2))` and
`c2 * ((1 + u) ^ (2 F + 1) / (1 - u) ^ (F + 2))`. -/
theorem fairness_ratio_bounds {β : Type} (dur : Binary64) (stats : List (FlowStats β)) (F : ℕ)
    (hFdef : (stats.filter (fun r => decide (0 < r.rxPackets))).length = F)
    (hF1 : 1 < F) (hF2 : F < 2 ^ 32) (r1 r2 num den : Binary64)
    (hloop : fairnessLoop64 dur stats (⟨0, 0⟩, ⟨0, 0⟩) = some (r1, r2))
    (hnum : Binary64.mul r1 r1 = some num)
    (hden : Binary64.mul (Binary64.ofNat F) r2 = some den) (hden0 : den.m ≠ 0)
    (c1 c2 : ℚ) (hc1 : 0 < c1)
    (hc : ∀ ts : List ℚ, ts.length = F → (∀ t ∈ ts, 0 ≤ t) →
      (∀ t ∈ ts, ∃ r ∈ stats, 0 < r.rxPackets ∧
        ∃ x, throughputMbps64 dur r.rxBytes = some x ∧ x.toRat = t) →
      c1 * ((F : ℚ) * (ts.map (fun t => t * t)).sum) ≤ ts.sum ^ 2 ∧
      ts.sum ^ 2 ≤ c2 * ((F : ℚ) * (ts.map (fun t => t * t)).sum)) :
    num.Normal ∧ den.Normal ∧
    c1 * ((1 - Binary64.unitRoundoff) ^ (2 * F + 1) / (1 + Binary64.unitRoundoff) ^ (F + 2))
      ≤ num.toRat / den.toRat ∧
    num.toRat / den.toRat
      ≤ c2 * ((1 + Binary64.unitRoundoff) ^ (2 * F + 1)
          / (1 - Binary64.unitRoundoff) ^ (F + 2)) := by
  have hu := Binary64.unitRoundoff_pos
  have hz : (⟨0, 0⟩ : Binary64).Valid := Or.inl rfl
  obtain ⟨ts, hlen, hnn, hr1, hr2, b1, b2, b3, b4, b5⟩ :=
    fairnessLoop64_err dur stats ⟨0, 0⟩ ⟨0, 0⟩ r1 r2 hloop hz hz
  rw [hFdef] at hlen
  obtain ⟨hcs1, hcs2⟩ := hc ts hlen hnn b5
  have hz0 : (⟨0, 0⟩ : Binary64).toRat = 0 := Binary64.toRat_of_m_eq_zero rfl
  rw [hz0, zero_add, hlen] at b1 b2 b3 b4
  have ha : 0 < 1 + Binary64.unitRoundoff := by linarith [hu.1]
  have hb : 0 < 1 - Binary64.unitRoundoff := by linarith [hu.2]
  have hS0 : 0 ≤ ts.sum := List.sum_nonneg hnn
  generalize ts.sum = S at b1 b2 hcs1 hcs2 hS0
  generalize (ts.map (fun t => t * t)).sum = Q at b3 b4 hcs1 hcs2
  have hFq : (0 : ℚ) < (F : ℚ) := by exact_mod_cast (show 0 < F by omega)
  have hA : 0 < (1 + Binary64.unitRoundoff) ^ F := pow_pos ha _
  have hB : 0 < (1 - Binary64.unitRoundoff) ^ F := pow_pos hb _
  have e1 : (1 - Binary64.unitRoundoff) ^ (2 * F + 1)
      = ((1 - Binary64.unitRoundoff) ^ F) ^ 2 * (1 - Binary64.unitRoundoff) := by ring
  have e2 : (1 + Binary64.unitRoundoff) ^ (F + 2)
      = (1 + Binary64.unitRoundoff) ^ F * (1 + Binary64.unitRoundoff) ^ 2 := by ring
  have e3 : (1 + Binary64.unitRoundoff) ^ (2 * F + 1)
      = ((1 + Binary64.unitRoundoff) ^ F) ^ 2 * (1 + Binary64.unitRoundoff) := by ring
  have e4 : (1 - Binary64.unitRoundoff) ^ (F + 2)
      = (1 - Binary64.unitRoundoff) ^ F * (1 - Binary64.unitRoundoff) ^ 2 := by ring
  generalize (1 + Binary64.unitRoundoff) ^ F = A at hA b2 b4 e2 e3
  generalize (1 - Binary64.unitRoundoff) ^ F = B at hB b1 b3 e1 e4
  have hdenpos := Binary64.toRat_pos hden0
  obtain ⟨d1, d2⟩ := Binary64.mul_err hden
  rw [Binary64.ofNat_toRat (show F < 2 ^ 53 by omega)] at d1 d2
  have hr2pos : 0 < r2.toRat := by
    by_contra hc0
    have h0 : r2.toRat = 0 := le_antisymm (not_lt.mp hc0) (Binary64.toRat_nonneg r2)
    rw [h0] at d2
    simp at d2
    linarith
  have hQpos : 0 < Q := by
    by_contra hc0
    have hQ0 : Q ≤ 0 := not_lt.mp hc0
    have : A * ((1 + Binary64.unitRoundoff) * Q) ≤ 0 :=
      mul_nonpos_of_nonneg_of_nonpos hA.le (mul_nonpos_of_nonneg_of_nonpos ha.le hQ0)
    linarith
  have hFQ : 0 < (F : ℚ) * Q := mul_pos hFq hQpos
  have hc1FQ : 0 < c1 * ((F : ℚ) * Q) := mul_pos hc1 hFQ
  have hc2 : 0 < c2 := by
    by_contra hc0
    have : c2 * ((F : ℚ) * Q) ≤ 0 := by
      rw [mul_comm]
      exact mul_nonpos_of_nonneg_of_nonpos hFQ.le (not_lt.mp hc0)
    linarith
  have hSpos : 0 < S := by
    rcases eq_or_lt_of_le hS0 with h0 | h0
    · have hS2 : S ^ 2 = 0 := by
        rw [← h0]
        ring
      linarith
    · exact h0
  have hr1pos : 0 < r1.toRat := lt_of_lt_of_le (mul_pos hB hSpos) b1
  obtain ⟨n1, n2⟩ := Binary64.mul_err hnum
  have hnumpos : 0 < num.toRat :=
    lt_of_lt_of_le (mul_pos hb (mul_pos hr1pos hr1pos)) n1
  have hnumn := (Binary64.mul_valid hnum).normal_of_pos hnumpos
  have hdenn := (Binary64.mul_valid hden).normal_of_pos hdenpos
  have hr10 := Binary64.toRat_nonneg r1
  have hBS : 0 ≤ B * S := mul_nonneg hB.le hS0
  -- the numerator and the denominator between multiples of `F * Q`
  have num_lo : B ^ 2 * (1 - Binary64.unitRoundoff) * (c1 * ((F : ℚ) * Q)) ≤ num.toRat := by
    calc B ^ 2 * (1 - Binary64.unitRoundoff) * (c1 * ((F : ℚ) * Q))
        ≤ B ^ 2 * (1 - Binary64.unitRoundoff) * S ^ 2 :=
          mul_le_mul_of_nonneg_left hcs1 (by positivity)
      _ = (1 - Binary64.unitRoundoff) * ((B * S) * (B * S)) := by ring
      _ ≤ (1 - Binary64.unitRoundoff) * (r1.toRat * r1.toRat) := by gcongr
      _ ≤ num.toRat := n1
  have num_hi : num.toRat ≤ A ^ 2 * (1 + Binary64.unitRoundoff) * (c2 * ((F : ℚ) * Q)) := by
    calc num.toRat ≤ (1 + Binary64.unitRoundoff) * (r1.toRat * r1.toRat) := n2
      _ ≤ (1 + Binary64.unitRoundoff) * ((A * S) * (A * S)) := by gcongr
      _ = A ^ 2 * (1 + Binary64.unitRoundoff) * S ^ 2 := by ring
      _ ≤ A ^ 2 * (1 + Binary64.unitRoundoff) * (c2 * ((F : ℚ) * Q)) :=
          mul_le_mul_of_nonneg_left hcs2 (by positivity)
  have den_lo : B * (1 - Binary64.unitRoundoff) ^ 2 * ((F : ℚ) * Q) ≤ den.toRat := by
    calc B * (1 - Binary64.unitRoundoff) ^ 2 * ((F : ℚ) * Q)
        = (1 - Binary64.unitRoundoff) * ((F : ℚ) * (B * ((1 - Binary64.unitRoundoff) * Q))) := by
          ring
      _ ≤ (1 - Binary64.unitRoundoff) * ((F : ℚ) * r2.toRat) := by gcongr
      _ ≤ den.toRat := d1
  have den_hi : den.toRat ≤ A * (1 + Binary64.unitRoundoff) ^ 2 * ((F : ℚ) * Q) := by
    calc den.toRat ≤ (1 + Binary64.unitRoundoff) * ((F : ℚ) * r2.toRat) := d2
      _ ≤ (1 + Binary64.unitRoundoff)
            * ((F : ℚ) * (A * ((1 + Binary64.unitRoundoff) * Q))) := by gcongr
      _ = A * (1 + Binary64.unitRoundoff) ^ 2 * ((F : ℚ) * Q) := by ring
  have hFQne : (F : ℚ) * Q ≠ 0 := ne_of_gt hFQ
  have hAne : A ≠ 0 := ne_of_gt hA
  have hBne : B ≠ 0 := ne_of_gt hB
  have hane : 1 + Binary64.unitRoundoff ≠ 0 := ne_of_gt ha
  have hbne : 1 - Binary64.unitRoundoff ≠ 0 := ne_of_gt hb
  refine ⟨hnumn, hdenn, ?_, ?_⟩
  · rw [e1, e2]
    have hpos : 0 < A * (1 + Binary64.unitRoundoff) ^ 2 * ((F : ℚ) * Q) := by positivity
    calc c1 * (B ^ 2 * (1 - Binary64.unitRoundoff) / (A * (1 + Binary64.unitRoundoff) ^ 2))
        = (B ^ 2 * (1 - Binary64.unitRoundoff) * (c1 * ((F : ℚ) * Q)))
            / (A * (1 + Binary64.unitRoundoff) ^ 2 * ((F : ℚ) * Q)) := by
          field_simp
          ring
      _ ≤ num.toRat / den.toRat :=
          div_le_div₀ hnumpos.le num_lo hdenpos den_hi
  · rw [e3, e4]
    have hpos : 0 < B * (1 - Binary64.unitRoundoff) ^ 2 * ((F : ℚ) * Q) := by positivity
    calc num.toRat / den.toRat
        ≤ (A ^ 2 * (1 + Binary64.unitRoundoff) * (c2 * ((F : ℚ) * Q)))
            / (B * (1 - Binary64.unitRoundoff) ^ 2 * ((F : ℚ) * Q)) :=
          div_le_div₀ (by positivity) num_hi hpos den_lo
      _ = c2 * (A ^ 2 * (1 + Binary64.unitRoundoff) / (B * (1 - Binary64.unitRoundoff) ^ 2)) := by
          field_simp
          ring

/-- The fairness index on binary64 against the exact index of the throughputs
the loop computed: with `F` flows that received packets, `1 < F < 2 ^ 32`, every
operation within the normal range, and the exact index between `c1 > 0` and
`c2`, the value is at least `c1 * (1 - (3 F + 4) / 2 ^ 53)` and at most
`c2 * (1 + (3 F + 4) / 2 ^ 52)`. -/
theorem fairnessIndex64_within {β : Type} (dur : Binary64) (stats : List (FlowStats β))
    (v : Binary64)
    (hF1 : 1 < (stats.filter (fun r => decide (0 < r.rxPackets))).length)
    (hF2 : (stats.filter (fun r => decide (0 < r.rxPackets))).length < 2 ^ 32)
    (h : fairnessIndex64 dur stats = some v) (c1 c2 : ℚ) (hc1 : 0 < c1)
    (hc : ∀ ts : List ℚ,
      ts.length = (stats.filter (fun r => decide (0 < r.rxPackets))).length →
      (∀ t ∈ ts, 0 ≤ t) →
      (∀ t ∈ ts, ∃ r ∈ stats, 0 < r.rxPackets ∧
        ∃ x, throughputMbps64 dur r.rxBytes = some x ∧ x.toRat = t) →
      c1 * (((stats.filter (fun r => decide (0 < r.rxPackets))).length : ℚ)
          * (ts.map (fun t => t * t)).sum) ≤ ts.sum ^ 2 ∧
      ts.sum ^ 2 ≤ c2 * (((stats.filter (fun r => decide (0 < r.rxPackets))).length : ℚ)
          * (ts.map (fun t => t * t)).sum)) :
    c1 * (1 - (3 * ((stats.filter (fun r => decide (0 < r.rxPackets))).length : ℚ) + 4)
        / 2 ^ 53) ≤ v.toRat ∧
    v.toRat ≤ c2 * (1 + (3 * ((stats.filter (fun r => decide (0 < r.rxPackets))).length : ℚ)
        + 4) / 2 ^ 52) := by
  have hu := Binary64.unitRoundoff_pos
  generalize hFdef : (stats.filter (fun r => decide (0 < r.rxPackets))).length = F
    at hF1 hF2 hc ⊢
  have hcount := countFlows_of_lt stats F hFdef hF2
  unfold fairnessIndex64 at h
  simp only [hcount, if_pos hF1, Option.bind_eq_bind, Option.bind_eq_some] at h
  obtain ⟨⟨r1, r2⟩, hloop, num, hnum, den, hden, hdiv⟩ := h
  obtain ⟨hnumn, hdenn, q1, q2⟩ := fairness_ratio_bounds dur stats F hFdef hF1 hF2 r1 r2 num den
    hloop hnum hden (Binary64.div_divisor_ne_zero hdiv) c1 c2 hc1 hc
  obtain ⟨v1, v2⟩ := Binary64.div_err hnumn hdenn hdiv
  have ha : 0 < 1 + Binary64.unitRoundoff := by linarith [hu.1]
  have hb : 0 < 1 - Binary64.unitRoundoff := by linarith [hu.2]
  have hFle : (F : ℚ) ≤ 2 ^ 32 := by exact_mod_cast hF2.le
  have hX : 0 < (1 - Binary64.unitRoundoff) ^ (2 * F + 1)
      / (1 + Binary64.unitRoundoff) ^ (F + 2) := div_pos (pow_pos hb _) (pow_pos ha _)
  have hY : 0 < (1 + Binary64.unitRoundoff) ^ (2 * F + 1)
      / (1 - Binary64.unitRoundoff) ^ (F + 2) := div_pos (pow_pos ha _) (pow_pos hb _)
  have hc2 : 0 < c2 := by
    by_contra hc0
    have h1 : c2 * ((1 + Binary64.unitRoundoff) ^ (2 * F + 1)
        / (1 - Binary64.unitRoundoff) ^ (F + 2)) ≤ 0 := by
      rw [mul_comm]
      exact mul_nonpos_of_nonneg_of_nonpos hY.le (not_lt.mp hc0)
    have h2 := mul_pos hc1 hX
    linarith
  have hcast : (((2 * F + 2) + (F + 2) : ℕ) : ℚ) = 3 * (F : ℚ) + 4 := by
    push_cast
    ring
  have hlo := pow_ratio_lower Binary64.unitRoundoff hu.1 hu.2 (2 * F + 2) (F + 2)
  have hhi := pow_ratio_upper Binary64.unitRoundoff hu.1 hu.2 (2 * F + 2) (F + 2) (by
    rw [hcast]
    unfold Binary64.unitRoundoff
    have : (3 * (F : ℚ) + 4) * (1 / 2 ^ 53) ≤ (3 * 2 ^ 32 + 4) * (1 / 2 ^ 53) := by
      apply mul_le_mul_of_nonneg_right _ (by positivity)
      linarith
    calc (3 * (F : ℚ) + 4) * (1 / 2 ^ 53) ≤ (3 * 2 ^ 32 + 4) * (1 / 2 ^ 53) := this
      _ ≤ 1 / 2 := by norm_num)
  rw [hcast] at hlo hhi
  constructor
  · calc c1 * (1 - (3 * (F : ℚ) + 4) / 2 ^ 53)
        = c1 * (1 - (3 * (F : ℚ) + 4) * Binary64.unitRoundoff) := by
          unfold Binary64.unitRoundoff
          ring
      _ ≤ c1 * ((1 - Binary64.unitRoundoff) ^ (2 * F + 2)
            / (1 + Binary64.unitRoundoff) ^ (F + 2)) :=
          mul_le_mul_of_nonneg_left hlo hc1.le
      _ = (1 - Binary64.unitRoundoff)
            * (c1 * ((1 - Binary64.unitRoundoff) ^ (2 * F + 1)
                / (1 + Binary64.unitRoundoff) ^ (F + 2))) := by
          rw [pow_succ (1 - Binary64.unitRoundoff) (2 * F + 1)]
          ring
      _ ≤ (1 - Binary64.unitRoundoff) * (num.toRat / den.toRat) :=
          mul_le_mul_of_nonneg_left q1 hb.le
      _ ≤ v.toRat := v1
  · calc v.toRat ≤ (1 + Binary64.unitRoundoff) * (num.toRat / den.toRat) := v2
      _ ≤ (1 + Binary64.unitRoundoff)
            * (c2 * ((1 + Binary64.unitRoundoff) ^ (2 * F + 1)
                / (1 - Binary64.unitRoundoff) ^ (F + 2))) :=
          mul_le_mul_of_nonneg_left q2 ha.le
      _ = c2 * ((1 + Binary64.unitRoundoff) ^ (2 * F + 2)
            / (1 - Binary64.unitRoundoff) ^ (F + 2)) := by
          rw [pow_succ (1 + Binary64.unitRoundoff) (2 * F + 1)]
          ring
      _ ≤ c2 * (1 + 2 * ((3 * (F : ℚ) + 4) * Binary64.unitRoundoff)) :=
          mul_le_mul_of_nonneg_left hhi hc2.le
      _ = c2 * (1 + (3 * (F : ℚ) + 4) / 2 ^ 52) := by
          unfold Binary64.unitRoundoff
          ring

/-- The fairness index on binary64 against Jain's bounds, in plain figures:
with `F` flows that received packets, `1 < F < 2 ^ 32`, and every operation
within the normal range, the value is at least `(1 - (3 F + 4) / 2 ^ 53) / F`
and at most `1 + (3 F + 4) / 2 ^ 52`. -/
theorem fairnessIndex64_bounds {β : Type} (dur : Binary64) (stats : List (FlowStats β))
    (v : Binary64)
    (hF1 : 1 < (stats.filter (fun r => decide (0 < r.rxPackets))).length)
    (hF2 : (stats.filter (fun r => decide (0 < r.rxPackets))).length < 2 ^ 32)
    (h : fairnessIndex64 dur stats = some v) :
    (1 - (3 * ((stats.filter (fun r => decide (0 < r.rxPackets))).length : ℚ) + 4) / 2 ^ 53)
        / ((stats.filter (fun r => decide (0 < r.rxPackets))).length : ℚ)
      ≤ v.toRat ∧
    v.toRat
      ≤ 1 + (3 * ((stats.filter (fun r => decide (0 < r.rxPackets))).length : ℚ) + 4) / 2 ^ 52 := by
  have hFq : (0 : ℚ) < ((stats.filter (fun r => decide (0 < r.rxPackets))).length : ℚ) := by
    exact_mod_cast (show 0 < (stats.filter (fun r => decide (0 < r.rxPackets))).length by omega)
  obtain ⟨h1, h2⟩ := fairnessIndex64_within dur stats v hF1 hF2 h
    (1 / ((stats.filter (fun r => decide (0 < r.rxPackets))).length : ℚ)) 1
    (one_div_pos.mpr hFq)
    (fun ts hlen hnn _ => jain_bounds_rat _ (by omega) ts hlen hnn)
  rw [one_mul] at h2
  refine ⟨le_trans (le_of_eq ?_) h1, h2⟩
  ring

/-- The fairness index of flows with equal byte counts on binary64: with `F`
flows that received packets, `1 < F < 2 ^ 32`, all with the same number of
received bytes, and every operation within the normal range, the value is at
least `1 - (3 F + 4) / 2 ^ 53` and at most `1 + (3 F + 4) / 2 ^ 52`. -/
theorem fairnessIndex64_equal_bounds {β : Type} (dur : Binary64) (stats : List (FlowStats β))
    (v : Binary64)
    (hF1 : 1 < (stats.filter (fun r => decide (0 < r.rxPackets))).length)
    (hF2 : (stats.filter (fun r => decide (0 < r.rxPackets))).length < 2 ^ 32)
    (h : fairnessIndex64 dur stats = some v) (b : Nat)
    (heq : ∀ r ∈ stats, 0 < r.rxPackets → r.rxBytes = b) :
    1 - (3 * ((stats.filter (fun r => decide (0 < r.rxPackets))).length : ℚ) + 4) / 2 ^ 53
      ≤ v.toRat ∧
    v.toRat
      ≤ 1 + (3 * ((stats.filter (fun r => decide (0 < r.rxPackets))).length : ℚ) + 4) / 2 ^ 52 := by
  obtain ⟨h1, h2⟩ := fairnessIndex64_within dur stats v hF1 hF2 h 1 1 one_pos (by
    intro ts hlen hnn horig
    obtain ⟨t0, ht0⟩ := List.exists_mem_of_length_pos (show 0 < ts.length by omega)
    obtain ⟨r0, hr0, hp0, x0, hx0, _⟩ := horig t0 ht0
    rw [heq r0 hr0 hp0] at hx0
    have hall : ∀ t ∈ ts, t = x0.toRat := by
      intro t ht
      obtain ⟨r, hr, hp, x, hx, hxt⟩ := horig t ht
      rw [heq r hr hp, hx0] at hx
      rw [← hxt, ← Option.some.inj hx]
    have hS : ts.sum = (ts.length : ℚ) * x0.toRat := by
      have := sum_map_const ts id x0.toRat hall
      rwa [List.map_id] at this
    have hQ : (ts.map (fun t => t * t)).sum = (ts.length : ℚ) * (x0.toRat * x0.toRat) :=
      sum_map_const ts (fun t => t * t) (x0.toRat * x0.toRat) (by
        intro t ht
        show t * t = _
        rw [hall t ht])
    rw [hS, hQ, ← hlen]
    exact ⟨le_of_eq (by ring), le_of_eq (by ring)⟩)
  rw [one_mul] at h1 h2
  exact ⟨h1, h2⟩

/-- Up to `2 ^ 32` factors `1 + u` stay below 2. -/
theorem pow_one_add_le_two (k : ℕ) (hk : k ≤ 2 ^ 32) : (1 + Binary64.unitRoundoff) ^ k ≤ 2 := by
  have hu := Binary64.unitRoundoff_pos
  have hkq : (k : ℚ) ≤ 2 ^ 32 := by exact_mod_cast hk
  have hx : ((k + 0 : ℕ) : ℚ) * Binary64.unitRoundoff ≤ 1 / 2 := by
    unfold Binary64.unitRoundoff
    rw [Nat.add_zero]
    calc (k : ℚ) * (1 / 2 ^ 53) ≤ 2 ^ 32 * (1 / 2 ^ 53) :=
        mul_le_mul_of_nonneg_right hkq (by positivity)
      _ ≤ 1 / 2 := by norm_num
  have h := pow_ratio_upper Binary64.unitRoundoff hu.1 hu.2 k 0 hx
  rw [pow_zero, div_one] at h
  linarith

/-- Up to `2 ^ 32` factors `1 - u` stay above one half. -/
theorem half_le_pow_one_sub (k : ℕ) (hk : k ≤ 2 ^ 32) :
    1 / 2 ≤ (1 - Binary64.unitRoundoff) ^ k := by
  have hu := Binary64.unitRoundoff_pos
  have hkq : (k : ℚ) ≤ 2 ^ 32 := by exact_mod_cast hk
  have h := pow_ratio_lower Binary64.unitRoundoff hu.1 hu.2 k 0
  rw [pow_zero, div_one, Nat.add_zero] at h
  have hx : (k : ℚ) * Binary64.unitRoundoff ≤ 1 / 2 := by
    unfold Binary64.unitRoundoff
    calc (k : ℚ) * (1 / 2 ^ 53) ≤ 2 ^ 32 * (1 / 2 ^ 53) :=
        mul_le_mul_of_nonneg_right hkq (by positivity)
      _ ≤ 1 / 2 := by norm_num
  linarith

/-- The throughput on binary64 is computed for every byte count below `2 ^ 64`
and every flow duration between `2 ^ (-348)` and `2 ^ 453` seconds: it is zero for
no bytes, and otherwise a normal double between `2 ^ (-470)` and `2 ^ 403`. -/
theorem throughputMbps64_range {dur : Binary64} (hd : dur.Normal) (hlo : -400 ≤ dur.e)
    (hhi : dur.e ≤ 400) {b : Nat} (hb : b < 2 ^ 64) :
    ∃ t, throughputMbps64 dur b = some t ∧ t.Valid ∧ (0 < b → t.m ≠ 0) ∧
      (t.m ≠ 0 → t.Normal ∧ -522 ≤ t.e ∧ t.e ≤ 350) ∧
      t.toRat ≤ (2 : ℚ) ^ (403 : ℤ) ∧ (t.m ≠ 0 → (2 : ℚ) ^ (-470 : ℤ) ≤ t.toRat) := by
  by_cases hb0 : b = 0
  · subst hb0
    refine ⟨⟨0, 0⟩, ?_, Or.inl rfl, fun h => absurd h (lt_irrefl 0), fun h => absurd rfl h,
      ?_, fun h => absurd rfl h⟩
    · have hdm := hd.m_ne_zero
      have h1000 : (Binary64.ofNat 1000).m ≠ 0 := by decide
      have h0 : Binary64.ofNat 0 = ⟨0, 0⟩ := by decide
      have hmul : Binary64.mul ⟨0, 0⟩ (Binary64.ofNat 8) = some ⟨0, 0⟩ := by decide
      have hdiv : ∀ x : Binary64, x.m ≠ 0 → Binary64.div ⟨0, 0⟩ x = some ⟨0, 0⟩ := by
        intro x hx
        unfold Binary64.div
        rw [if_neg hx, if_pos rfl]
      unfold throughputMbps64
      simp only [h0, hmul, hdiv dur hdm, hdiv _ h1000, Option.bind_eq_bind, Option.some_bind]
    · rw [Binary64.toRat_of_m_eq_zero rfl]
      positivity
  · obtain ⟨t, ht, htn, h1, h2⟩ :=
      throughputMbps64_normal hd hlo hhi (Nat.pos_of_ne_zero hb0) hb
    refine ⟨t, ht, Or.inr htn, fun _ => htn.m_ne_zero, fun _ => ⟨htn, h1, h2⟩, ?_, fun _ => ?_⟩
    · calc t.toRat ≤ (2 : ℚ) ^ (t.e + 53) := htn.toRat_lt.le
        _ ≤ (2 : ℚ) ^ (403 : ℤ) := zpow_le_zpow_right₀ (by norm_num) (by omega)
    · calc (2 : ℚ) ^ (-470 : ℤ) ≤ (2 : ℚ) ^ (t.e + 52) :=
          zpow_le_zpow_right₀ (by norm_num) (by omega)
        _ ≤ t.toRat := htn.le_toRat

/-- The square of a throughput in that range is computed: zero for zero, and
otherwise between `2 ^ (-941)` and `2 ^ 807`. -/
theorem square64_range {t : Binary64}
    (hr : t.m ≠ 0 → t.Normal ∧ -522 ≤ t.e ∧ t.e ≤ 350)
    (hhi : t.toRat ≤ (2 : ℚ) ^ (403 : ℤ)) (hlo : t.m ≠ 0 → (2 : ℚ) ^ (-470 : ℤ) ≤ t.toRat) :
    ∃ sq, Binary64.mul t t = some sq ∧ sq.Valid ∧ (t.m ≠ 0 → sq.m ≠ 0) ∧
      sq.toRat ≤ (2 : ℚ) ^ (807 : ℤ) ∧ (sq.m ≠ 0 → (2 : ℚ) ^ (-941 : ℤ) ≤ sq.toRat) := by
  have hu := Binary64.unitRoundoff_pos
  have ht0 := Binary64.toRat_nonneg t
  have hex : ∃ sq, Binary64.mul t t = some sq ∧ (t.m ≠ 0 → sq.m ≠ 0) := by
    by_cases h0 : t.m = 0
    · obtain ⟨sq, hsq⟩ := Binary64.mul_some (a := t) (b := t) (Or.inl (by rw [h0]))
      exact ⟨sq, hsq, fun h => absurd h0 h⟩
    · obtain ⟨hn, h1, h2⟩ := hr h0
      obtain ⟨sq, hsq, hsqn, _, _⟩ := Binary64.mul_normal hn hn (by omega) (by omega)
      exact ⟨sq, hsq, fun _ => hsqn.m_ne_zero⟩
  obtain ⟨sq, hsq, hne⟩ := hex
  obtain ⟨m1, m2⟩ := Binary64.mul_err hsq
  have z1 : (2 : ℚ) ^ (807 : ℤ) = 2 * ((2 : ℚ) ^ (403 : ℤ) * (2 : ℚ) ^ (403 : ℤ)) := by
    rw [← zpow_add₀ (by norm_num), show (807 : ℤ) = 1 + (403 + 403) by norm_num,
      zpow_add₀ (by norm_num)]
    norm_num
  have z2 : (2 : ℚ) ^ (-941 : ℤ)
      = 1 / 2 * ((2 : ℚ) ^ (-470 : ℤ) * (2 : ℚ) ^ (-470 : ℤ)) := by
    rw [← zpow_add₀ (by norm_num), show (-941 : ℤ) = -1 + (-470 + -470) by norm_num,
      zpow_add₀ (by norm_num)]
    norm_num
  refine ⟨sq, hsq, Binary64.mul_valid hsq, hne, ?_, ?_⟩
  · rw [z1]
    calc sq.toRat ≤ (1 + Binary64.unitRoundoff) * (t.toRat * t.toRat) := m2
      _ ≤ 2 * ((2 : ℚ) ^ (403 : ℤ) * (2 : ℚ) ^ (403 : ℤ)) := by
          apply mul_le_mul (by linarith [hu.2]) (mul_le_mul hhi hhi ht0 (by positivity))
            (mul_nonneg ht0 ht0) (by norm_num)
  · intro hsq0
    have ht : t.m ≠ 0 := by
      intro h0
      apply hsq0
      have hz : sq.toRat ≤ 0 := by
        rw [Binary64.toRat_of_m_eq_zero h0] at m2
        simpa using m2
      by_contra hc
      exact absurd (Binary64.toRat_pos hc) (not_lt.mpr hz)
    have hl := hlo ht
    have hp : (0 : ℚ) < (2 : ℚ) ^ (-470 : ℤ) := by positivity
    rw [z2]
    calc 1 / 2 * ((2 : ℚ) ^ (-470 : ℤ) * (2 : ℚ) ^ (-470 : ℤ))
        ≤ (1 - Binary64.unitRoundoff) * (t.toRat * t.toRat) := by
          apply mul_le_mul _ (mul_le_mul hl hl hp.le ht0) (by positivity) (by linarith [hu.2])
          unfold Binary64.unitRoundoff
          norm_num
      _ ≤ sq.toRat := m1

/-- One addition to an accumulator of the fairness loop on binary64 is
computed, and keeps the accumulator in its range: with `j` terms added so far,
each zero or between `c` and `T`, the accumulator is at most
`(1 + u) ^ j * (j * T)` and, unless zero, at least `(1 - u) ^ j * c`. -/
theorem accumulate64 (j : ℕ) (hj : j + 1 ≤ 2 ^ 32) (s x : Binary64) (T c : ℚ) (hc : 0 < c)
    (hcT : c ≤ T) (hclo : (2 : ℚ) ^ (-1021 : ℤ) ≤ c)
    (hThi : (2 * 2 ^ 32 + 1) * T ≤ (2 : ℚ) ^ (1023 : ℤ))
    (hs_hi : s.toRat ≤ (1 + Binary64.unitRoundoff) ^ j * ((j : ℚ) * T))
    (hs_lo : s.m ≠ 0 → (1 - Binary64.unitRoundoff) ^ j * c ≤ s.toRat)
    (hx_hi : x.toRat ≤ T) (hx_lo : x.m ≠ 0 → c ≤ x.toRat) :
    ∃ y, Binary64.add s x = some y ∧
      y.toRat ≤ (1 + Binary64.unitRoundoff) ^ (j + 1) * (((j + 1 : ℕ) : ℚ) * T) ∧
      (y.m ≠ 0 → (1 - Binary64.unitRoundoff) ^ (j + 1) * c ≤ y.toRat) ∧
      ((s.m ≠ 0 ∨ x.m ≠ 0) → y.m ≠ 0) := by
  have hu := Binary64.unitRoundoff_pos
  have ha : 0 < 1 + Binary64.unitRoundoff := by linarith [hu.1]
  have hb : 0 < 1 - Binary64.unitRoundoff := by linarith [hu.2]
  have hT : 0 < T := lt_of_lt_of_le hc hcT
  have hP2 : (1 + Binary64.unitRoundoff) ^ j ≤ 2 := pow_one_add_le_two j (by omega)
  have hP1 : 1 ≤ (1 + Binary64.unitRoundoff) ^ j := one_le_pow₀ (by linarith [hu.1])
  have hB0 : 0 < (1 - Binary64.unitRoundoff) ^ j := pow_pos hb j
  have hB1 : (1 - Binary64.unitRoundoff) ^ j ≤ 1 := pow_le_one₀ hb.le (by linarith [hu.1])
  have hjq : (j : ℚ) ≤ 2 ^ 32 := by exact_mod_cast (show j ≤ 2 ^ 32 by omega)
  have hj0 : (0 : ℚ) ≤ (j : ℚ) := by positivity
  have hs0 := Binary64.toRat_nonneg s
  have hx0 := Binary64.toRat_nonneg x
  have hs_hi2 : s.toRat ≤ 2 * (2 ^ 32 * T) :=
    le_trans hs_hi (mul_le_mul hP2 (mul_le_mul_of_nonneg_right hjq hT.le)
      (mul_nonneg hj0 hT.le) (by norm_num))
  have hsome : ∃ y, Binary64.add s x = some y := by
    apply Binary64.add_some
    by_cases h0 : s.m = 0
    · exact Or.inl h0
    · by_cases h1 : x.m = 0
      · exact Or.inr (Or.inl h1)
      · refine Or.inr (Or.inr ⟨?_, ?_⟩)
        · have := hx_lo h1
          linarith
        · calc s.toRat + x.toRat ≤ (2 * 2 ^ 32 + 1) * T := by linarith
            _ ≤ (2 : ℚ) ^ (1023 : ℤ) := hThi
  obtain ⟨y, hy⟩ := hsome
  obtain ⟨e1, e2⟩ := Binary64.add_err hy
  have hsum_lo : (s.m ≠ 0 ∨ x.m ≠ 0) →
      (1 - Binary64.unitRoundoff) ^ j * c ≤ s.toRat + x.toRat := by
    rintro (h | h)
    · have := hs_lo h
      linarith
    · have h1 := hx_lo h
      have h2 : (1 - Binary64.unitRoundoff) ^ j * c ≤ 1 * c :=
        mul_le_mul_of_nonneg_right hB1 hc.le
      linarith
  have hnz : y.m ≠ 0 → (s.m ≠ 0 ∨ x.m ≠ 0) := by
    intro hy0
    by_contra hcon
    rw [not_or, not_not, not_not] at hcon
    rw [Binary64.toRat_of_m_eq_zero hcon.1, Binary64.toRat_of_m_eq_zero hcon.2] at e2
    have hpos := Binary64.toRat_pos hy0
    simp at e2
    linarith
  refine ⟨y, hy, ?_, ?_, ?_⟩
  · calc y.toRat ≤ (1 + Binary64.unitRoundoff) * (s.toRat + x.toRat) := e2
      _ ≤ (1 + Binary64.unitRoundoff)
            * ((1 + Binary64.unitRoundoff) ^ j * ((j : ℚ) * T)
                + (1 + Binary64.unitRoundoff) ^ j * T) := by
          apply mul_le_mul_of_nonneg_left _ ha.le
          have : T ≤ (1 + Binary64.unitRoundoff) ^ j * T := by
            calc T = 1 * T := (one_mul T).symm
              _ ≤ (1 + Binary64.unitRoundoff) ^ j * T := mul_le_mul_of_nonneg_right hP1 hT.le
          linarith
      _ = (1 + Binary64.unitRoundoff) ^ (j + 1) * (((j + 1 : ℕ) : ℚ) * T) := by
          push_cast
          ring
  · intro hy0
    have h1 := hsum_lo (hnz hy0)
    calc (1 - Binary64.unitRoundoff) ^ (j + 1) * c
        = (1 - Binary64.unitRoundoff) * ((1 - Binary64.unitRoundoff) ^ j * c) := by ring
      _ ≤ (1 - Binary64.unitRoundoff) * (s.toRat + x.toRat) :=
          mul_le_mul_of_nonneg_left h1 hb.le
      _ ≤ y.toRat := e1
  · intro h
    have h1 := hsum_lo h
    have h2 : 0 < (1 - Binary64.unitRoundoff) * (s.toRat + x.toRat) :=
      mul_pos hb (lt_of_lt_of_le (mul_pos hB0 hc) h1)
    intro hy0
    rw [Binary64.toRat_of_m_eq_zero hy0] at e1
    linarith

/-- A bound of the form `(2 * 2 ^ 32 + 1) * 2 ^ k` stays in the range of
doubles. -/
theorem accumulator_range (k : ℤ) (hk : k ≤ 989) :
    (2 * 2 ^ 32 + 1) * (2 : ℚ) ^ k ≤ (2 : ℚ) ^ (1023 : ℤ) := by
  have hp : (0 : ℚ) < (2 : ℚ) ^ k := by positivity
  calc (2 * 2 ^ 32 + 1) * (2 : ℚ) ^ k ≤ (2 : ℚ) ^ (34 : ℤ) * (2 : ℚ) ^ k :=
      mul_le_mul_of_nonneg_right (by norm_num) hp.le
    _ = (2 : ℚ) ^ (34 + k) := (zpow_add₀ (by norm_num) 34 k).symm
    _ ≤ (2 : ℚ) ^ (1023 : ℤ) := zpow_le_zpow_right₀ (by norm_num) (by omega)

/-- The fairness loop on binary64 is computed: for a flow duration between
`2 ^ (-348)` and `2 ^ 453` seconds, byte counts below `2 ^ 64` and at most
`2 ^ 32` flows, every operation of the loop stays in the normal range. With `j`
flows added before, the sums it returns are bounded by `j` plus the number of
flows times the largest throughput and its square, and they are not zero once a
flow with bytes was added. -/
theorem fairnessLoop64_some {β : Type} {dur : Binary64} (hd : dur.Normal)
    (hlo : -400 ≤ dur.e) (hhi : dur.e ≤ 400) :
    ∀ (rs : List (FlowStats β)) (j : ℕ) (s1 s2 : Binary64),
      j + (rs.filter (fun r => decide (0 < r.rxPackets))).length ≤ 2 ^ 32 →
      (∀ r ∈ rs, 0 < r.rxPackets → r.rxBytes < 2 ^ 64) →
      s1.toRat ≤ (1 + Binary64.unitRoundoff) ^ j * ((j : ℚ) * (2 : ℚ) ^ (403 : ℤ)) →
      s2.toRat ≤ (1 + Binary64.unitRoundoff) ^ j * ((j : ℚ) * (2 : ℚ) ^ (807 : ℤ)) →
      (s1.m ≠ 0 → (1 - Binary64.unitRoundoff) ^ j * (2 : ℚ) ^ (-470 : ℤ) ≤ s1.toRat) →
      (s2.m ≠ 0 → (1 - Binary64.unitRoundoff) ^ j * (2 : ℚ) ^ (-941 : ℤ) ≤ s2.toRat) →
      ∃ r1 r2 : Binary64, ∃ n : ℕ,
        fairnessLoop64 dur rs (s1, s2) = some (r1, r2) ∧
        n = j + (rs.filter (fun r => decide (0 < r.rxPackets))).length ∧
        r1.toRat ≤ (1 + Binary64.unitRoundoff) ^ n * ((n : ℚ) * (2 : ℚ) ^ (403 : ℤ)) ∧
        r2.toRat ≤ (1 + Binary64.unitRoundoff) ^ n * ((n : ℚ) * (2 : ℚ) ^ (807 : ℤ)) ∧
        (r1.m ≠ 0 → (1 - Binary64.unitRoundoff) ^ n * (2 : ℚ) ^ (-470 : ℤ) ≤ r1.toRat) ∧
        (r2.m ≠ 0 → (1 - Binary64.unitRoundoff) ^ n * (2 : ℚ) ^ (-941 : ℤ) ≤ r2.toRat) ∧
        (((s1.m ≠ 0 ∧ s2.m ≠ 0) ∨ ∃ r ∈ rs, 0 < r.rxPackets ∧ 0 < r.rxBytes) →
          r1.m ≠ 0 ∧ r2.m ≠ 0) := by
  intro rs
  induction rs with
  | nil =>
    intro j s1 s2 _ _ h1 h2 h3 h4
    refine ⟨s1, s2, j, rfl, by simp, h1, h2, h3, h4, ?_⟩
    rintro (h | ⟨r, hr, _⟩)
    · exact h
    · simp at hr
  | cons r rs ih =>
    intro j s1 s2 hlen hbytes h1 h2 h3 h4
    by_cases hr : 0 < r.rxPackets
    · have hfl : ((r :: rs).filter (fun r => decide (0 < r.rxPackets))).length
          = (rs.filter (fun r => decide (0 < r.rxPackets))).length + 1 := by
        rw [List.filter_cons_of_pos (by simpa using hr), List.length_cons]
      rw [hfl] at hlen
      obtain ⟨t, ht, _, htb, htr, hthi, htlo⟩ :=
        throughputMbps64_range hd hlo hhi (hbytes r (List.mem_cons_self r rs) hr)
      obtain ⟨sq, hsq, _, hsqt, hsqhi, hsqlo⟩ := square64_range htr hthi htlo
      obtain ⟨sum, hsum, a1, a2, a3⟩ := accumulate64 j (by omega) s1 t
        ((2 : ℚ) ^ (403 : ℤ)) ((2 : ℚ) ^ (-470 : ℤ)) (by positivity)
        (zpow_le_zpow_right₀ (by norm_num) (by norm_num))
        (zpow_le_zpow_right₀ (by norm_num) (by norm_num))
        (accumulator_range 403 (by norm_num)) h1 h3 hthi htlo
      obtain ⟨sumSq, hsumSq, c1, c2, c3⟩ := accumulate64 j (by omega) s2 sq
        ((2 : ℚ) ^ (807 : ℤ)) ((2 : ℚ) ^ (-941 : ℤ)) (by positivity)
        (zpow_le_zpow_right₀ (by norm_num) (by norm_num))
        (zpow_le_zpow_right₀ (by norm_num) (by norm_num))
        (accumulator_range 807 (by norm_num)) h2 h4 hsqhi hsqlo
      obtain ⟨r1, r2, n, hloop, hn, b1, b2, b3, b4, b5⟩ := ih (j + 1) sum sumSq (by omega)
        (fun x hx => hbytes x (List.mem_cons_of_mem r hx)) a1 c1 a2 c2
      refine ⟨r1, r2, n, ?_, by rw [hfl]; omega, b1, b2, b3, b4, ?_⟩
      · simp only [fairnessLoop64, if_pos hr, ht, hsum, hsq, hsumSq, Option.bind_eq_bind,
          Option.some_bind]
        exact hloop
      · rintro (h | ⟨x, hx, hx1, hx2⟩)
        · exact b5 (Or.inl ⟨a3 (Or.inl h.1), c3 (Or.inl h.2)⟩)
        · rcases List.mem_cons.mp hx with rfl | hx
          · have ht0 := htb hx2
            exact b5 (Or.inl ⟨a3 (Or.inr ht0), c3 (Or.inr (hsqt ht0))⟩)
          · exact b5 (Or.inr ⟨x, hx, hx1, hx2⟩)
    · have hfl : ((r :: rs).filter (fun r => decide (0 < r.rxPackets))).length
          = (rs.filter (fun r => decide (0 < r.rxPackets))).length := by
        rw [List.filter_cons_of_neg (by simpa using hr)]
      rw [hfl] at hlen
      obtain ⟨r1, r2, n, hloop, hn, b1, b2, b3, b4, b5⟩ := ih j s1 s2 hlen
        (fun x hx => hbytes x (List.mem_cons_of_mem r hx)) h1 h2 h3 h4
      refine ⟨r1, r2, n, ?_, by rw [hfl]; exact hn, b1, b2, b3, b4, ?_⟩
      · simp only [fairnessLoop64, if_neg hr]
        exact hloop
      · rintro (h | ⟨x, hx, hx1, hx2⟩)
        · exact b5 (Or.inl h)
        · rcases List.mem_cons.mp hx with rfl | hx
          · exact absurd hx1 hr
          · exact b5 (Or.inr ⟨x, hx, hx1, hx2⟩)

/-- The fairness index on binary64 is computed: for more than one and fewer than
`2 ^ 32` flows that received packets, byte counts below `2 ^ 64` of which one is
not zero, and a flow duration between `2 ^ (-348)` and `2 ^ 453` seconds, no
operation of the computation leaves the normal range. -/
theorem fairnessIndex64_some {β : Type} {dur : Binary64} (hd : dur.Normal)
    (hlo : -400 ≤ dur.e) (hhi : dur.e ≤ 400) (stats : List (FlowStats β))
    (hF1 : 1 < (stats.filter (fun r => decide (0 < r.rxPackets))).length)
    (hF2 : (stats.filter (fun r => decide (0 < r.rxPackets))).length < 2 ^ 32)
    (hbytes : ∀ r ∈ stats, 0 < r.rxPackets → r.rxBytes < 2 ^ 64)
    (hpos : ∃ r ∈ stats, 0 < r.rxPackets ∧ 0 < r.rxBytes) :
    ∃ v, fairnessIndex64 dur stats = some v := by
  have hu := Binary64.unitRoundoff_pos
  have ha : 0 < 1 + Binary64.unitRoundoff := by linarith [hu.1]
  have hb : 0 < 1 - Binary64.unitRoundoff := by linarith [hu.2]
  have hz0 : (⟨0, 0⟩ : Binary64).toRat = 0 := Binary64.toRat_of_m_eq_zero rfl
  obtain ⟨r1, r2, n, hloop, hn, b1, b2, b3, b4, b5⟩ :=
    fairnessLoop64_some hd hlo hhi stats 0 ⟨0, 0⟩ ⟨0, 0⟩ (by omega) hbytes
      (by rw [hz0]; simp) (by rw [hz0]; simp) (fun h => absurd rfl h) (fun h => absurd rfl h)
  rw [Nat.zero_add] at hn
  generalize hFdef : (stats.filter (fun r => decide (0 < r.rxPackets))).length = F
    at hF1 hF2 hn
  subst hn
  have hcount := countFlows_of_lt stats n hFdef hF2
  obtain ⟨hr1, hr2⟩ := b5 (Or.inr hpos)
  have hP : (1 + Binary64.unitRoundoff) ^ n ≤ 2 := pow_one_add_le_two n hF2.le
  have hB : 1 / 2 ≤ (1 - Binary64.unitRoundoff) ^ n := half_le_pow_one_sub n hF2.le
  have hnq : (n : ℚ) ≤ 2 ^ 32 := by exact_mod_cast hF2.le
  have hn1 : (1 : ℚ) ≤ (n : ℚ) := by exact_mod_cast (show 1 ≤ n by omega)
  have hn0 : (0 : ℚ) < (n : ℚ) := by linarith
  have e436 : (2 : ℚ) ^ (436 : ℤ) = 2 * (2 ^ 32 * (2 : ℚ) ^ (403 : ℤ)) := by
    rw [show (436 : ℤ) = 1 + (32 + 403) by norm_num, zpow_add₀ (by norm_num),
      zpow_add₀ (by norm_num)]
    norm_num
  have e840 : (2 : ℚ) ^ (840 : ℤ) = 2 * (2 ^ 32 * (2 : ℚ) ^ (807 : ℤ)) := by
    rw [show (840 : ℤ) = 1 + (32 + 807) by norm_num, zpow_add₀ (by norm_num),
      zpow_add₀ (by norm_num)]
    norm_num
  have e471 : (2 : ℚ) ^ (-471 : ℤ) = 1 / 2 * (2 : ℚ) ^ (-470 : ℤ) := by
    rw [show (-471 : ℤ) = -1 + -470 by norm_num, zpow_add₀ (by norm_num)]
    norm_num
  have e942 : (2 : ℚ) ^ (-942 : ℤ) = 1 / 2 * (2 : ℚ) ^ (-941 : ℤ) := by
    rw [show (-942 : ℤ) = -1 + -941 by norm_num, zpow_add₀ (by norm_num)]
    norm_num
  have e32 : (2 : ℚ) ^ (32 : ℤ) = 2 ^ 32 := by norm_num
  have r1hi : r1.toRat ≤ (2 : ℚ) ^ (436 : ℤ) := by
    rw [e436]
    exact le_trans b1 (mul_le_mul hP (mul_le_mul_of_nonneg_right hnq (by positivity))
      (by positivity) (by norm_num))
  have r2hi : r2.toRat ≤ (2 : ℚ) ^ (840 : ℤ) := by
    rw [e840]
    exact le_trans b2 (mul_le_mul hP (mul_le_mul_of_nonneg_right hnq (by positivity))
      (by positivity) (by norm_num))
  have r1lo : (2 : ℚ) ^ (-471 : ℤ) ≤ r1.toRat := by
    rw [e471]
    exact le_trans (mul_le_mul_of_nonneg_right hB (by positivity)) (b3 hr1)
  have r2lo : (2 : ℚ) ^ (-942 : ℤ) ≤ r2.toRat := by
    rw [e942]
    exact le_trans (mul_le_mul_of_nonneg_right hB (by positivity)) (b4 hr2)
  have hr1pos := Binary64.toRat_pos hr1
  have hr2pos := Binary64.toRat_pos hr2
  have hnF : (Binary64.ofNat n).toRat = (n : ℚ) := Binary64.ofNat_toRat (by omega)
  obtain ⟨num, hnum⟩ := Binary64.mul_some (a := r1) (b := r1) (Or.inr ⟨by
      calc (2 : ℚ) ^ (-1021 : ℤ) ≤ (2 : ℚ) ^ (-471 + -471 : ℤ) :=
          zpow_le_zpow_right₀ (by norm_num) (by norm_num)
        _ = (2 : ℚ) ^ (-471 : ℤ) * (2 : ℚ) ^ (-471 : ℤ) := zpow_add₀ (by norm_num) _ _
        _ ≤ r1.toRat * r1.toRat := mul_le_mul r1lo r1lo (by positivity) hr1pos.le, by
      calc r1.toRat * r1.toRat ≤ (2 : ℚ) ^ (436 : ℤ) * (2 : ℚ) ^ (436 : ℤ) :=
          mul_le_mul r1hi r1hi hr1pos.le (by positivity)
        _ = (2 : ℚ) ^ (436 + 436 : ℤ) := (zpow_add₀ (by norm_num) _ _).symm
        _ ≤ (2 : ℚ) ^ (1023 : ℤ) := zpow_le_zpow_right₀ (by norm_num) (by norm_num)⟩)
  obtain ⟨den, hden⟩ := Binary64.mul_some (a := Binary64.ofNat n) (b := r2) (Or.inr ⟨by
      rw [hnF]
      calc (2 : ℚ) ^ (-1021 : ℤ) ≤ (2 : ℚ) ^ (-942 : ℤ) :=
          zpow_le_zpow_right₀ (by norm_num) (by norm_num)
        _ = 1 * (2 : ℚ) ^ (-942 : ℤ) := (one_mul _).symm
        _ ≤ (n : ℚ) * r2.toRat := mul_le_mul hn1 r2lo (by positivity) hn0.le, by
      rw [hnF]
      calc (n : ℚ) * r2.toRat ≤ (2 : ℚ) ^ (32 : ℤ) * (2 : ℚ) ^ (840 : ℤ) :=
          mul_le_mul (by rw [e32]; exact hnq) r2hi hr2pos.le (by positivity)
        _ = (2 : ℚ) ^ (32 + 840 : ℤ) := (zpow_add₀ (by norm_num) _ _).symm
        _ ≤ (2 : ℚ) ^ (1023 : ℤ) := zpow_le_zpow_right₀ (by norm_num) (by norm_num)⟩)
  have hden0 : den.m ≠ 0 := by
    intro h0
    have e := (Binary64.mul_err hden).1
    rw [Binary64.toRat_of_m_eq_zero h0, hnF] at e
    have : 0 < (1 - Binary64.unitRoundoff) * ((n : ℚ) * r2.toRat) :=
      mul_pos hb (mul_pos hn0 hr2pos)
    linarith
  obtain ⟨hnumn, hdenn, q1, q2⟩ := fairness_ratio_bounds dur stats n hFdef hF1 hF2 r1 r2 num den
    hloop hnum hden hden0 (1 / (n : ℚ)) 1 (one_div_pos.mpr hn0)
    (fun ts hl hnn _ => jain_bounds_rat n (by omega) ts hl hnn)
  rw [one_mul] at q2
  have hcast : (((2 * n + 1) + (n + 2) : ℕ) : ℚ) = 3 * (n : ℚ) + 3 := by
    push_cast
    ring
  have hsmall : (3 * (n : ℚ) + 3) * Binary64.unitRoundoff ≤ 1 / 4 := by
    unfold Binary64.unitRoundoff
    calc (3 * (n : ℚ) + 3) * (1 / 2 ^ 53) ≤ (3 * 2 ^ 32 + 3) * (1 / 2 ^ 53) :=
        mul_le_mul_of_nonneg_right (by linarith) (by positivity)
      _ ≤ 1 / 4 := by norm_num
  have hL := pow_ratio_lower Binary64.unitRoundoff hu.1 hu.2 (2 * n + 1) (n + 2)
  have hU := pow_ratio_upper Binary64.unitRoundoff hu.1 hu.2 (2 * n + 1) (n + 2)
    (by rw [hcast]; linarith)
  rw [hcast] at hL hU
  obtain ⟨v, hv⟩ := Binary64.div_some hnumn hdenn
    (by
      have q1b : (1 - Binary64.unitRoundoff) ^ (2 * n + 1)
          / (1 + Binary64.unitRoundoff) ^ (n + 2) / (n : ℚ) ≤ num.toRat / den.toRat := by
        refine le_trans (le_of_eq ?_) q1
        rw [div_eq_mul_one_div _ (n : ℚ), mul_comm]
      refine le_trans ?_ q1b
      calc (2 : ℚ) ^ (-1020 : ℤ) ≤ (2 : ℚ) ^ (-33 : ℤ) :=
          zpow_le_zpow_right₀ (by norm_num) (by norm_num)
        _ = 1 / 2 / 2 ^ 32 := by norm_num
        _ ≤ (1 - Binary64.unitRoundoff) ^ (2 * n + 1)
              / (1 + Binary64.unitRoundoff) ^ (n + 2) / (n : ℚ) :=
            div_le_div₀ (by linarith) (by linarith) hn0 hnq)
    (by
      refine le_trans q2 ?_
      calc (1 + Binary64.unitRoundoff) ^ (2 * n + 1) / (1 - Binary64.unitRoundoff) ^ (n + 2)
          ≤ (2 : ℚ) ^ (1 : ℤ) := by
            rw [zpow_one]
            linarith
        _ ≤ (2 : ℚ) ^ (1022 : ℤ) := zpow_le_zpow_right₀ (by norm_num) (by norm_num))
  refine ⟨v, ?_⟩
  unfold fairnessIndex64
  simp only [hcount, if_pos hF1, hloop, hnum, hden, Option.bind_eq_bind, Option.some_bind]
  exact hv

/-! ### Claims on the fairness index -/

/-- C15 as stated fails on the doubles of the hardware: three flows with 64800
bytes received each, over the flow duration of the scripts (the double
nearest to 59.9), have the same positive throughput, and the fairness index
computed on binary64 is `4503599627370497 * 2 ^ (-52)`, the double next above
1.0, not 1.0. -/
theorem three_equal_flows_not_one :
    (∀ r ∈ contributing ([⟨108, 64800, 108, 64800, 1 / 10⟩, ⟨108, 64800, 108, 64800, 1 / 10⟩,
        ⟨108, 64800, 108, 64800, 1 / 10⟩] : List (FlowStats ℚ)), r.rxBytes = 64800) ∧
    2 ≤ (contributing ([⟨108, 64800, 108, 64800, 1 / 10⟩, ⟨108, 64800, 108, 64800, 1 / 10⟩,
        ⟨108, 64800, 108, 64800, 1 / 10⟩] : List (FlowStats ℚ))).length ∧
    fairnessIndex64 ⟨8430175552484147, -47⟩
        ([⟨108, 64800, 108, 64800, 1 / 10⟩, ⟨108, 64800, 108, 64800, 1 / 10⟩,
          ⟨108, 64800, 108, 64800, 1 / 10⟩] : List (FlowStats ℚ))
      = some ⟨4503599627370497, -52⟩ ∧
    fairnessIndex64 ⟨8430175552484147, -47⟩
        ([⟨108, 64800, 108, 64800, 1 / 10⟩, ⟨108, 64800, 108, 64800, 1 / 10⟩,
          ⟨108, 64800, 108, 64800, 1 / 10⟩] : List (FlowStats ℚ))
      ≠ some ⟨4503599627370496, -52⟩ ∧
    Binary64.toRat ⟨4503599627370496, -52⟩ = 1 ∧
    Binary64.toRat ⟨4503599627370497, -52⟩ = 1 + 1 / 2 ^ 52 := by
  refine ⟨by simp [contributing], by simp [contributing], fairnessIndex64_three_equal, ?_,
    by norm_num [Binary64.toRat], by norm_num [Binary64.toRat]⟩
  rw [fairnessIndex64_three_equal]
  decide

/-- C15, amended: when the flows that received packets are at least two and all
have the same positive number of received bytes, hence the same positive
throughput, the fairness index is 1 in exact arithmetic, whatever flows
without received packets the record set holds besides.  On binary64, for byte
counts below `2 ^ 64` and a flow duration that is a normal double between
`2 ^ (-348)` and `2 ^ 453` seconds, the index of `F` such flows is computed
without leaving the normal range, lies between `1 - (3 F + 4) / 2 ^ 53` and
`1 + (3 F + 4) / 2 ^ 52`, and is exactly 1.0 when `F = 2`. -/
theorem equal_flows_fairness_one {α : Type} [LinearOrderedField α] (flowDuration : α)
    (stats : List (FlowStats α)) (hlen : stats.length < 2 ^ 32)
    (hF : 2 ≤ (contributing stats).length) (hd : 0 < flowDuration)
    (b : Nat) (hb : 0 < b) (heq : ∀ r ∈ contributing stats, r.rxBytes = b) :
    (aggregate flowDuration stats).2.fairnessIndex = Dbl.fin 1 ∧
    (∀ dur : Binary64, (contributing stats).length = 2 → b < 2 ^ 64 →
      dur.Normal → -400 ≤ dur.e → dur.e ≤ 400 →
      fairnessIndex64 dur stats = some ⟨4503599627370496, -52⟩) ∧
    (∀ dur : Binary64, b < 2 ^ 64 → dur.Normal → -400 ≤ dur.e → dur.e ≤ 400 →
      ∃ v, fairnessIndex64 dur stats = some v ∧
        1 - (3 * ((contributing stats).length : ℚ) + 4) / 2 ^ 53 ≤ v.toRat ∧
        v.toRat ≤ 1 + (3 * ((contributing stats).length : ℚ) + 4) / 2 ^ 52) := by
  refine ⟨fairnessIndex_equal_flows flowDuration stats hlen hF hd b hb heq, ?_, ?_⟩
  rotate_left
  · intro dur hb64 hdn hlo hhi
    have hmem : ∀ r, r ∈ contributing stats ↔ r ∈ stats ∧ 0 < r.rxPackets := by
      intro r
      simp [contributing, List.mem_filter]
    have hF1 : 1 < (contributing stats).length := by omega
    have hF2 : (contributing stats).length < 2 ^ 32 :=
      lt_of_le_of_lt (List.length_filter_le _ _) hlen
    obtain ⟨r0, hr0⟩ := List.exists_mem_of_length_pos
      (show 0 < (contributing stats).length by omega)
    obtain ⟨v, hv⟩ := fairnessIndex64_some hdn hlo hhi stats hF1 hF2
      (fun x hx hxp => by
        rw [heq x ((hmem x).mpr ⟨hx, hxp⟩)]
        exact hb64)
      ⟨r0, ((hmem r0).mp hr0).1, ((hmem r0).mp hr0).2, by
        rw [heq r0 hr0]
        exact hb⟩
    exact ⟨v, hv, fairnessIndex64_equal_bounds dur stats v hF1 hF2 hv b
      (fun x hx hxp => heq x ((hmem x).mpr ⟨hx, hxp⟩))⟩
  intro dur h2 hb64 hdn hlo hhi
  obtain ⟨r1, r2, hc⟩ : ∃ r1 r2, contributing stats = [r1, r2] := by
    match hl : contributing stats, h2 with
    | [r1, r2], _ => exact ⟨r1, r2, rfl⟩
  have hb1 : r1.rxBytes = b := heq r1 (by rw [hc]; exact List.mem_cons_self _ _)
  have hb2 : r2.rxBytes = b :=
    heq r2 (by rw [hc]; exact List.mem_cons_of_mem _ (List.mem_cons_self _ _))
  obtain ⟨t, ht, htn, ht1, ht2⟩ :=
    throughputMbps64_normal hdn hlo hhi (show 0 < r1.rxBytes by omega)
      (show r1.rxBytes < 2 ^ 64 by omega)
  obtain ⟨tt, htt, _, _, htt2⟩ := Binary64.mul_normal htn htn (by omega) (by omega)
  exact fairnessIndex64_two_eq dur stats r1 r2 hc (by omega) t tt ht htn (by omega) (by omega)
    htt (by omega)

/-- C15, amended, on two flows with 2000 bytes received each, next to a flow
that received nothing: the index is 1 in exact arithmetic and exactly 1.0 on
binary64 over the flow duration of the scripts; and on three flows with 64800
bytes received each, where the index on binary64 is within the stated
distance of 1. -/
theorem equal_flows_fairness_one_witness :
    ([⟨10, 5120, 10, 2000, 1 / 10⟩, ⟨10, 5120, 0, 0, 0⟩, ⟨20, 5120, 7, 2000, 1 / 5⟩] :
      List (FlowStats ℚ)).length < 2 ^ 32 ∧
    2 ≤ (contributing ([⟨10, 5120, 10, 2000, 1 / 10⟩, ⟨10, 5120, 0, 0, 0⟩,
      ⟨20, 5120, 7, 2000, 1 / 5⟩] : List (FlowStats ℚ))).length ∧
    (0 : ℚ) < 599 / 10 ∧
    0 < 2000 ∧
    (∀ r ∈ contributing ([⟨10, 5120, 10, 2000, 1 / 10⟩, ⟨10, 5120, 0, 0, 0⟩,
      ⟨20, 5120, 7, 2000, 1 / 5⟩] : List (FlowStats ℚ)), r.rxBytes = 2000) ∧
    (aggregate (599 / 10 : ℚ) [⟨10, 5120, 10, 2000, 1 / 10⟩, ⟨10, 5120, 0, 0, 0⟩,
      ⟨20, 5120, 7, 2000, 1 / 5⟩]).2.fairnessIndex = Dbl.fin 1 ∧
    (contributing ([⟨10, 5120, 10, 2000, 1 / 10⟩, ⟨10, 5120, 0, 0, 0⟩,
      ⟨20, 5120, 7, 2000, 1 / 5⟩] : List (FlowStats ℚ))).length = 2 ∧
    2000 < 2 ^ 64 ∧
    (⟨8430175552484147, -47⟩ : Binary64).Normal ∧
    fairnessIndex64 ⟨8430175552484147, -47⟩
        ([⟨10, 5120, 10, 2000, 1 / 10⟩, ⟨10, 5120, 0, 0, 0⟩, ⟨20, 5120, 7, 2000, 1 / 5⟩] :
          List (FlowStats ℚ))
      = some ⟨4503599627370496, -52⟩ ∧
    (2 ≤ (contributing ([⟨108, 64800, 108, 64800, 1 / 10⟩, ⟨108, 64800, 108, 64800, 1 / 10⟩,
        ⟨108, 64800, 108, 64800, 1 / 10⟩] : List (FlowStats ℚ))).length ∧
      (∀ r ∈ contributing ([⟨108, 64800, 108, 64800, 1 / 10⟩,
        ⟨108, 64800, 108, 64800, 1 / 10⟩, ⟨108, 64800, 108, 64800, 1 / 10⟩] :
          List (FlowStats ℚ)), r.rxBytes = 64800) ∧
      ∃ v, fairnessIndex64 ⟨8430175552484147, -47⟩
            ([⟨108, 64800, 108, 64800, 1 / 10⟩, ⟨108, 64800, 108, 64800, 1 / 10⟩,
              ⟨108, 64800, 108, 64800, 1 / 10⟩] : List (FlowStats ℚ)) = some v ∧
        1 - (3 * ((contributing ([⟨108, 64800, 108, 64800, 1 / 10⟩,
            ⟨108, 64800, 108, 64800, 1 / 10⟩, ⟨108, 64800, 108, 64800, 1 / 10⟩] :
              List (FlowStats ℚ))).length : ℚ) + 4) / 2 ^ 53 ≤ v.toRat ∧
        v.toRat ≤ 1 + (3 * ((contributing ([⟨108, 64800, 108, 64800, 1 / 10⟩,
            ⟨108, 64800, 108, 64800, 1 / 10⟩, ⟨108, 64800, 108, 64800, 1 / 10⟩] :
              List (FlowStats ℚ))).length : ℚ) + 4) / 2 ^ 52) :=
  have h := equal_flows_fairness_one (599 / 10 : ℚ)
    [⟨10, 5120, 10, 2000, 1 / 10⟩, ⟨10, 5120, 0, 0, 0⟩, ⟨20, 5120, 7, 2000, 1 / 5⟩]
    (by simp) (by simp [contributing]) (by norm_num) 2000 (by decide) (by simp [contributing])
  have h3 := equal_flows_fairness_one (599 / 10 : ℚ)
    [⟨108, 64800, 108, 64800, 1 / 10⟩, ⟨108, 64800, 108, 64800, 1 / 10⟩,
      ⟨108, 64800, 108, 64800, 1 / 10⟩]
    (by simp) (by simp [contributing]) (by norm_num) 64800 (by decide)
    (by simp [contributing])
  ⟨by simp, by simp [contributing], by norm_num, by decide, by simp [contributing], h.1,
    by simp [contributing], by norm_num, by decide,
    h.2.1 ⟨8430175552484147, -47⟩ (by simp [contributing]) (by norm_num) (by decide)
      (by decide) (by decide),
    by simp [contributing], by simp [contributing],
    h3.2.2 ⟨8430175552484147, -47⟩ (by norm_num) (by decide) (by decide) (by decide)⟩

/-- C16 as stated fails, in three ways.  Two flows with a packet received and no
byte received give the fairness index `NaN` (0 / 0), which is no value of
`[0, 1]`.  On the doubles of the hardware, over the flow duration of the
scripts (the double nearest to 59.9), three flows with 64800 bytes received
each give the double next above 1, and five flows that received packets, one
of which received bytes, give the double next below `1 / 5`. -/
theorem fairness_leaves_unit_interval :
    ((0 : ℚ) < 599 / 10 ∧
      (aggregate (599 / 10 : ℚ) [⟨1, 0, 1, 0, 0⟩, ⟨1, 0, 1, 0, 0⟩]).2.fairnessIndex = Dbl.nan ∧
      ¬ ∃ v : ℚ, (aggregate (599 / 10 : ℚ) [⟨1, 0, 1, 0, 0⟩, ⟨1, 0, 1, 0, 0⟩]).2.fairnessIndex
          = Dbl.fin v ∧ 0 ≤ v ∧ v ≤ 1) ∧
    (∃ v, fairnessIndex64 ⟨8430175552484147, -47⟩
          ([⟨108, 64800, 108, 64800, 1 / 10⟩, ⟨108, 64800, 108, 64800, 1 / 10⟩,
            ⟨108, 64800, 108, 64800, 1 / 10⟩] : List (FlowStats ℚ)) = some v ∧
        1 < v.toRat) ∧
    (∃ v, fairnessIndex64 ⟨8430175552484147, -47⟩
          ([⟨108, 64800, 108, 64800, 1 / 10⟩, ⟨1, 0, 1, 0, 0⟩, ⟨1, 0, 1, 0, 0⟩,
            ⟨1, 0, 1, 0, 0⟩, ⟨1, 0, 1, 0, 0⟩] : List (FlowStats ℚ)) = some v ∧
        (contributing ([⟨108, 64800, 108, 64800, 1 / 10⟩, ⟨1, 0, 1, 0, 0⟩, ⟨1, 0, 1, 0, 0⟩,
            ⟨1, 0, 1, 0, 0⟩, ⟨1, 0, 1, 0, 0⟩] : List (FlowStats ℚ))).length = 5 ∧
        v.toRat < 1 / 5) := by
  have h : (aggregate (599 / 10 : ℚ) [⟨1, 0, 1, 0, 0⟩, ⟨1, 0, 1, 0, 0⟩]).2.fairnessIndex
      = Dbl.nan := by
    simp only [aggregate, networkKPI, fairnessIndex, flowLoop, flowStep, fairnessLoop,
      Totals.init, u32]
    rw [if_pos (by decide), if_pos (by decide), if_pos (by decide)]
    simp only [throughputMbps_fin (599 / 10 : ℚ) (by norm_num), Dbl.fin_add_fin,
      Dbl.fin_mul_fin, Dbl.ofNat_eq]
    norm_num
  refine ⟨⟨by norm_num, h, ?_⟩, ⟨_, fairnessIndex64_three_equal, ?_⟩,
    ⟨_, fairnessIndex64_one_of_five, by simp [contributing], ?_⟩⟩
  · rintro ⟨v, hv, _⟩
    rw [h] at hv
    exact Dbl.noConfusion hv
  · norm_num [Binary64.toRat]
  · norm_num [Binary64.toRat]

/-- C16, amended: for a positive flow duration the fairness index is 0 when at
most one flow received packets, in exact arithmetic and on binary64 alike;
when more than one did and none of them received a byte it is `NaN`; and
when more than one did and one of them received bytes it is, in exact
arithmetic, a finite value between `1 / F` and 1, so within `[0, 1]`.  On
binary64, for a flow duration that is a normal double between `2 ^ (-348)` and
`2 ^ 453` seconds and byte counts below `2 ^ 64`, the index of `F > 1` flows
that received packets, one of which received bytes, is computed without
leaving the normal range and lies between `(1 - (3 F + 4) / 2 ^ 53) / F` and
`1 + (3 F + 4) / 2 ^ 52`. -/
theorem fairness_bounds {α : Type} [LinearOrderedField α] (flowDuration : α)
    (stats : List (FlowStats α)) (hlen : stats.length < 2 ^ 32) (hd : 0 < flowDuration) :
    ((contributing stats).length ≤ 1 →
      (aggregate flowDuration stats).2.fairnessIndex = Dbl.fin 0) ∧
    (1 < (contributing stats).length → (∃ r ∈ contributing stats, 0 < r.rxBytes) →
      ∃ v, (aggregate flowDuration stats).2.fairnessIndex = Dbl.fin v ∧
        0 ≤ v ∧ 1 / ((contributing stats).length : α) ≤ v ∧ v ≤ 1) ∧
    (1 < (contributing stats).length → (∀ r ∈ contributing stats, r.rxBytes = 0) →
      (aggregate flowDuration stats).2.fairnessIndex = Dbl.nan) ∧
    ((contributing stats).length ≤ 1 →
      ∀ dur : Binary64, fairnessIndex64 dur stats = some ⟨0, 0⟩) ∧
    (∀ dur : Binary64, dur.Normal → -400 ≤ dur.e → dur.e ≤ 400 →
      1 < (contributing stats).length → (∀ r ∈ contributing stats, r.rxBytes < 2 ^ 64) →
      (∃ r ∈ contributing stats, 0 < r.rxBytes) →
      ∃ v, fairnessIndex64 dur stats = some v ∧
        (1 - (3 * ((contributing stats).length : ℚ) + 4) / 2 ^ 53)
            / ((contributing stats).length : ℚ) ≤ v.toRat ∧
        v.toRat ≤ 1 + (3 * ((contributing stats).length : ℚ) + 4) / 2 ^ 52) := by
  refine ⟨?_, ?_, ?_, fun hF dur => fairnessIndex64_of_le_one dur stats hF, ?_⟩
  rotate_right
  · intro dur hdn hlo hhi hF hbytes hex
    have hmem : ∀ r, r ∈ contributing stats ↔ r ∈ stats ∧ 0 < r.rxPackets := by
      intro r
      simp [contributing, List.mem_filter]
    have hF2 : (contributing stats).length < 2 ^ 32 :=
      lt_of_le_of_lt (List.length_filter_le _ _) hlen
    obtain ⟨r, hr, hrb⟩ := hex
    obtain ⟨v, hv⟩ := fairnessIndex64_some hdn hlo hhi stats hF hF2
      (fun x hx hxp => hbytes x ((hmem x).mpr ⟨hx, hxp⟩))
      ⟨r, ((hmem r).mp hr).1, ((hmem r).mp hr).2, hrb⟩
    exact ⟨v, hv, fairnessIndex64_bounds dur stats v hF hF2 hv⟩
  · intro hF
    rw [fairnessIndex_eq_jain flowDuration stats hlen, if_neg (by omega)]
  · intro hF hex
    obtain ⟨hval, hQ⟩ := fairnessIndex_fin flowDuration stats hlen hF hd hex
    have hF0 : (0 : α) < ((contributing stats).length : α) := by
      exact_mod_cast (show 0 < (contributing stats).length by omega)
    have hden : (0 : α) < ((contributing stats).length : α)
        * (((contributing stats).map
            (fun r => (r.rxBytes : α) * 8 / flowDuration / 1000000)).map
              (fun y => y * y)).sum := mul_pos hF0 hQ
    have hnn : ∀ y ∈ (contributing stats).map
        (fun r => (r.rxBytes : α) * 8 / flowDuration / 1000000), 0 ≤ y := by
      intro y hy
      obtain ⟨r, _, rfl⟩ := List.mem_map.mp hy
      positivity
    have hlow := sum_sq_le_sq_sum _ hnn
    have hup := sq_sum_le_length_mul ((contributing stats).map
        (fun r => (r.rxBytes : α) * 8 / flowDuration / 1000000))
    rw [List.length_map] at hup
    refine ⟨_, hval, ?_, ?_, ?_⟩
    · exact div_nonneg (sq_nonneg _) hden.le
    · rw [div_le_div_iff₀ hF0 hden]
      nlinarith [hlow, hF0, hQ]
    · rw [div_le_one hden]
      exact hup
  · intro hF hzero
    have hd0 : flowDuration ≠ 0 := ne_of_gt hd
    have hthr : (contributing stats).map (throughputMbps flowDuration)
        = ((contributing stats).map (fun _ => (0 : α))).map Dbl.fin := by
      rw [List.map_map]
      apply List.map_congr_left
      intro r hr
      rw [throughputMbps_fin flowDuration hd0 r, hzero r hr]
      simp
    have hsq : (((contributing stats).map (fun _ => (0 : α))).map Dbl.fin).map
          (fun x => x * x)
        = ((contributing stats).map (fun _ => (0 : α))).map Dbl.fin := by
      simp [List.map_map, Function.comp_def]
    have hs0 : ((contributing stats).map (fun _ => (0 : α))).sum = 0 := by
      rw [sum_map_const _ _ 0 (fun _ _ => rfl), mul_zero]
    rw [fairnessIndex_eq_jain flowDuration stats hlen, if_pos hF, hthr, jainIndex, hsq,
      Dbl.sum_fin, hs0]
    simp

/-- C16, amended, on two flows with 1000 and 3000 bytes received, in exact
arithmetic and on binary64 over the flow duration of the scripts, on one flow
alone, and on two flows with a packet and no byte received. -/
theorem fairness_bounds_witness :
    (([⟨10, 5120, 10, 1000, 1 / 10⟩, ⟨10, 5120, 10, 3000, 1 / 10⟩] :
        List (FlowStats ℚ)).length < 2 ^ 32 ∧
      (0 : ℚ) < 599 / 10 ∧
      ∃ v, (aggregate (599 / 10 : ℚ)
          [⟨10, 5120, 10, 1000, 1 / 10⟩, ⟨10, 5120, 10, 3000, 1 / 10⟩]).2.fairnessIndex
            = Dbl.fin v ∧
        0 ≤ v ∧
        1 / ((contributing ([⟨10, 5120, 10, 1000, 1 / 10⟩, ⟨10, 5120, 10, 3000, 1 / 10⟩] :
          List (FlowStats ℚ))).length : ℚ) ≤ v ∧ v ≤ 1) ∧
    ((contributing ([⟨10, 5120, 10, 1000, 1 / 10⟩] : List (FlowStats ℚ))).length ≤ 1 ∧
      (aggregate (599 / 10 : ℚ) [⟨10, 5120, 10, 1000, 1 / 10⟩]).2.fairnessIndex = Dbl.fin 0 ∧
      fairnessIndex64 ⟨8430175552484147, -47⟩
          ([⟨10, 5120, 10, 1000, 1 / 10⟩] : List (FlowStats ℚ)) = some ⟨0, 0⟩) ∧
    (1 < (contributing ([⟨1, 0, 1, 0, 0⟩, ⟨1, 0, 1, 0, 0⟩] : List (FlowStats ℚ))).length ∧
      (∀ r ∈ contributing ([⟨1, 0, 1, 0, 0⟩, ⟨1, 0, 1, 0, 0⟩] : List (FlowStats ℚ)),
        r.rxBytes = 0) ∧
      (aggregate (599 / 10 : ℚ) [⟨1, 0, 1, 0, 0⟩, ⟨1, 0, 1, 0, 0⟩]).2.fairnessIndex
        = Dbl.nan) ∧
    ((⟨8430175552484147, -47⟩ : Binary64).Normal ∧
      1 < (contributing ([⟨10, 5120, 10, 1000, 1 / 10⟩, ⟨10, 5120, 10, 3000, 1 / 10⟩] :
          List (FlowStats ℚ))).length ∧
      (∀ r ∈ contributing ([⟨10, 5120, 10, 1000, 1 / 10⟩, ⟨10, 5120, 10, 3000, 1 / 10⟩] :
          List (FlowStats ℚ)), r.rxBytes < 2 ^ 64) ∧
      ∃ v, fairnessIndex64 ⟨8430175552484147, -47⟩
            ([⟨10, 5120, 10, 1000, 1 / 10⟩, ⟨10, 5120, 10, 3000, 1 / 10⟩] :
              List (FlowStats ℚ)) = some v ∧
        (1 - (3 * ((contributing ([⟨10, 5120, 10, 1000, 1 / 10⟩,
              ⟨10, 5120, 10, 3000, 1 / 10⟩] : List (FlowStats ℚ))).length : ℚ) + 4) / 2 ^ 53)
            / ((contributing ([⟨10, 5120, 10, 1000, 1 / 10⟩,
              ⟨10, 5120, 10, 3000, 1 / 10⟩] : List (FlowStats ℚ))).length : ℚ) ≤ v.toRat ∧
        v.toRat ≤ 1 + (3 * ((contributing ([⟨10, 5120, 10, 1000, 1 / 10⟩,
              ⟨10, 5120, 10, 3000, 1 / 10⟩] : List (FlowStats ℚ))).length : ℚ) + 4)
            / 2 ^ 52) :=
  have h1 := fairness_bounds (599 / 10 : ℚ)
    [⟨10, 5120, 10, 1000, 1 / 10⟩, ⟨10, 5120, 10, 3000, 1 / 10⟩] (by simp) (by norm_num)
  have h2 := fairness_bounds (599 / 10 : ℚ) [⟨10, 5120, 10, 1000, 1 / 10⟩] (by simp)
    (by norm_num)
  have h3 := fairness_bounds (599 / 10 : ℚ) [⟨1, 0, 1, 0, 0⟩, ⟨1, 0, 1, 0, 0⟩] (by simp)
    (by norm_num)
  ⟨⟨by simp, by norm_num,
      h1.2.1 (by simp [contributing])
        ⟨⟨10, 5120, 10, 1000, 1 / 10⟩, by simp [contributing], by decide⟩⟩,
    ⟨by simp [contributing], h2.1 (by simp [contributing]),
      h2.2.2.2.1 (by simp [contributing]) _⟩,
    ⟨by simp [contributing], by simp [contributing],
      h3.2.2.1 (by simp [contributing]) (by simp [contributing])⟩,
    ⟨by decide, by simp [contributing], by simp [contributing],
      h1.2.2.2.2 ⟨8430175552484147, -47⟩ (by decide) (by decide) (by decide)
        (by simp [contributing]) (by simp [contributing])
        ⟨⟨10, 5120, 10, 1000, 1 / 10⟩, by simp [contributing], by decide⟩⟩⟩

/-! ### Order of the records -/

/-- Adding two doubles to an accumulator gives the same value in either
order, infinities and `NaN` included. -/
theorem Dbl.add_right_comm_dbl {α : Type} [LinearOrderedField α] (s a b : Dbl α) :
    s + a + b = s + b + a := by
  show Dbl.add (Dbl.add s a) b = Dbl.add (Dbl.add s b) a
  cases s with
  | fin u =>
    cases a with
    | fin v =>
      cases b with
      | fin w => simp [Dbl.add, add_right_comm]
      | inf q => simp [Dbl.add]
      | nan => simp [Dbl.add]
    | inf p =>
      cases b with
      | fin w => simp [Dbl.add]
      | inf q => cases p <;> cases q <;> simp [Dbl.add]
      | nan => simp [Dbl.add]
    | nan =>
      cases b with
      | fin w => simp [Dbl.add]
      | inf q => simp [Dbl.add]
      | nan => simp [Dbl.add]
  | inf r =>
    cases a with
    | fin v =>
      cases b with
      | fin w => simp [Dbl.add]
      | inf q => cases r <;> cases q <;> simp [Dbl.add]
      | nan => simp [Dbl.add]
    | inf p =>
      cases b with
      | fin w => cases r <;> cases p <;> simp [Dbl.add]
      | inf q => cases r <;> cases p <;> cases q <;> simp [Dbl.add]
      | nan => cases r <;> cases p <;> simp [Dbl.add]
    | nan =>
      cases b with
      | fin w => simp [Dbl.add]
      | inf q => cases r <;> cases q <;> simp [Dbl.add]
      | nan => simp [Dbl.add]
  | nan =>
    cases a <;> cases b <;> simp [Dbl.add]

/-- A left fold of `+` over doubles does not depend on the order of the list. -/
theorem Dbl.foldl_add_perm {α : Type} [LinearOrderedField α] (xs ys : List (Dbl α))
    (hp : xs.Perm ys) (s : Dbl α) :
    xs.foldl (fun s x => s + x) s = ys.foldl (fun s x => s + x) s :=
  List.Perm.foldl_eq' hp (fun a _ b _ z => Dbl.add_right_comm_dbl z a b) s

/-- The accumulators after the loop do not depend on the order of the records. -/
theorem flowLoop_snd_perm {α : Type} [LinearOrderedField α] (flowDuration : α)
    (stats1 stats2 : List (FlowStats α)) (hp : stats1.Perm stats2) :
    (flowLoop flowDuration stats1 Totals.init).2
      = (flowLoop flowDuration stats2 Totals.init).2 := by
  have hc : (contributing stats1).Perm (contributing stats2) := hp.filter _
  rw [aggregate_totals, aggregate_totals, (hc.map _).sum_eq, (hc.map _).sum_eq,
    (hc.map _).sum_eq, (hc.map (fun r => r.rxPackets)).sum_eq,
    (hc.map (fun r => r.txPackets)).sum_eq, hc.length_eq]

/-- The two sums of the fairness loop do not depend on the order of the
records. -/
theorem fairnessLoop_perm {α : Type} [LinearOrderedField α] (flowDuration : α)
    (stats1 stats2 : List (FlowStats α)) (hp : stats1.Perm stats2) (sums : Dbl α × Dbl α) :
    fairnessLoop flowDuration stats1 sums = fairnessLoop flowDuration stats2 sums := by
  have hc : (contributing stats1).Perm (contributing stats2) := hp.filter _
  rw [fairnessLoop_eq, fairnessLoop_eq,
    Dbl.foldl_add_perm _ _ (hc.map (throughputMbps flowDuration)) sums.1,
    Dbl.foldl_add_perm _ _ ((hc.map (throughputMbps flowDuration)).map (fun x => x * x))
      sums.2]

/-- C17: the figures of a flow are a function of its record and the flow
duration alone, so the per-flow figures of a record set are the records
mapped one by one, in their order; and for two record sets that are
permutations of one another the per-flow figures are the same permutation of
one another and all four network figures are equal. -/
theorem aggregate_order_independent {α : Type} [LinearOrderedField α] (flowDuration : α)
    (stats1 stats2 : List (FlowStats α)) (hp : stats1.Perm stats2) :
    (∀ stats : List (FlowStats α),
      (aggregate flowDuration stats).1
        = stats.map (fun r => (flowStep flowDuration Totals.init r).1)) ∧
    ((aggregate flowDuration stats1).1).Perm ((aggregate flowDuration stats2).1) ∧
    (aggregate flowDuration stats1).2 = (aggregate flowDuration stats2).2 := by
  have hfst : ∀ stats : List (FlowStats α),
      (aggregate flowDuration stats).1
        = stats.map (fun r => (flowStep flowDuration Totals.init r).1) := by
    intro stats
    simp only [aggregate, flowLoop_fst]
  refine ⟨hfst, ?_, ?_⟩
  · rw [hfst, hfst]
    exact hp.map _
  · simp only [aggregate, networkKPI, fairnessIndex]
    rw [flowLoop_snd_perm flowDuration stats1 stats2 hp,
      fairnessLoop_perm flowDuration stats1 stats2 hp]

/-- C17 on three records and the same records in another order. -/
theorem aggregate_order_independent_witness :
    ([⟨10, 5120, 10, 1000, 1 / 10⟩, ⟨10, 5120, 0, 0, 0⟩, ⟨30, 5120, 30, 3000, 6 / 10⟩] :
        List (FlowStats ℚ)).Perm
      [⟨30, 5120, 30, 3000, 6 / 10⟩, ⟨10, 5120, 10, 1000, 1 / 10⟩, ⟨10, 5120, 0, 0, 0⟩] ∧
    (aggregate (599 / 10 : ℚ)
        [⟨10, 5120, 10, 1000, 1 / 10⟩, ⟨10, 5120, 0, 0, 0⟩, ⟨30, 5120, 30, 3000, 6 / 10⟩]).2
      = (aggregate (599 / 10 : ℚ)
        [⟨30, 5120, 30, 3000, 6 / 10⟩, ⟨10, 5120, 10, 1000, 1 / 10⟩, ⟨10, 5120, 0, 0, 0⟩]).2 :=
  have hp : ([⟨10, 5120, 10, 1000, 1 / 10⟩, ⟨10, 5120, 0, 0, 0⟩,
      ⟨30, 5120, 30, 3000, 6 / 10⟩] : List (FlowStats ℚ)).Perm
      [⟨30, 5120, 30, 3000, 6 / 10⟩, ⟨10, 5120, 10, 1000, 1 / 10⟩, ⟨10, 5120, 0, 0, 0⟩] :=
    ((List.Perm.swap _ _ _).cons _).trans (List.Perm.swap _ _ _)
  ⟨hp, (aggregate_order_independent (599 / 10 : ℚ) _ _ hp).2.2⟩

/-! ### The statistics part on a store -/

/-- Replacing the accumulators determines the accumulators. -/
theorem Store.totals_withTotals {α : Type} (σ : Store α) (t : Totals α) :
    (σ.withTotals t).totals = t := rfl

/-- Replacing the accumulators twice is replacing them once. -/
theorem Store.withTotals_withTotals {α : Type} (σ : Store α) (t u : Totals α) :
    (σ.withTotals t).withTotals u = σ.withTotals u := rfl

/-- One iteration of the flow loop of `5G_RR_LL.cc` changes the accumulators of
the store as `flowStep` does, prints what `flowStep` gives, and leaves the
other variables alone. -/
theorem flowBodyLL_eq {α : Type} [LinearOrderedField α] (flowDuration : α) (σ : Store α)
    (r : FlowStats α) :
    flowBodyLL flowDuration σ r
      = ((flowStep flowDuration σ.totals r).1,
          σ.withTotals (flowStep flowDuration σ.totals r).2) := by
  unfold flowBodyLL flowStep throughputMbps
  by_cases h : 0 < r.rxPackets
  · simp only [gt_iff_lt, h, if_true]
    rfl
  · simp only [gt_iff_lt, h, if_false]
    rfl

/-- The flow loop of `5G_RR_LL.cc` on the store is `flowLoop` on its
accumulators. -/
theorem flowForLL_eq {α : Type} [LinearOrderedField α] (flowDuration : α)
    (rs : List (FlowStats α)) :
    ∀ σ : Store α,
      flowForLL flowDuration rs σ
        = ((flowLoop flowDuration rs σ.totals).1,
            σ.withTotals (flowLoop flowDuration rs σ.totals).2) := by
  induction rs with
  | nil =>
    intro σ
    rfl
  | cons r rs ih =>
    intro σ
    simp only [flowForLL, flowLoop, flowBodyLL_eq, ih, Store.totals_withTotals,
      Store.withTotals_withTotals]

/-- The fairness loop of `5G_RR_LL.cc` on the store is `fairnessLoop` on the two
sums, and writes no other variable. -/
theorem fairnessForLL_eq {α : Type} [LinearOrderedField α] (flowDuration : α)
    (rs : List (FlowStats α)) :
    ∀ σ : Store α,
      fairnessForLL flowDuration rs σ
        = { σ with
            sumThroughput :=
              (fairnessLoop flowDuration rs (σ.sumThroughput, σ.sumThroughputSq)).1
            sumThroughputSq :=
              (fairnessLoop flowDuration rs (σ.sumThroughput, σ.sumThroughputSq)).2 } := by
  induction rs with
  | nil =>
    intro σ
    rfl
  | cons r rs ih =>
    intro σ
    by_cases h : 0 < r.rxPackets
    · simp only [fairnessForLL, fairnessLoop, throughputMbps, gt_iff_lt, h, if_true, ih]
    · simp only [fairnessForLL, fairnessLoop, gt_iff_lt, h, if_false, ih]

/-- What the statistics part of `5G_RR_LL.cc` prints is `aggregate` of the records
and the flow duration, whatever the store holds when the part starts. -/
theorem statisticsLL_fst {α : Type} [LinearOrderedField α] (σ : Store α) (flowDuration : α)
    (stats : List (FlowStats α)) :
    (statisticsLL σ flowDuration stats).1 = aggregate flowDuration stats := by
  unfold statisticsLL aggregate networkKPI fairnessIndex fairnessPartLL
  simp only [flowForLL_eq, fairnessForLL_eq, Store.withTotals, Store.totals,
    declareTotalsLL, networkFiguresLL, declareFairnessLL, declareSumsLL,
    assignFairnessLL, printNetworkLL]
  by_cases h : 1 < (flowLoop flowDuration stats Totals.init).2.totalFlows
  · simp only [gt_iff_lt, Totals.init] at h ⊢
    simp only [h, if_true]
  · simp only [gt_iff_lt, Totals.init] at h ⊢
    simp only [h, if_false]

/-- One iteration of the flow loop of `5G_RR_VT.cc` changes the accumulators of
the store as `flowStep` does, prints what `flowStep` gives, and leaves the
other variables alone. -/
theorem flowBodyVT_eq {α : Type} [LinearOrderedField α] (flowDuration : α) (σ : Store α)
    (r : FlowStats α) :
    flowBodyVT flowDuration σ r
      = ((flowStep flowDuration σ.totals r).1,
          σ.withTotals (flowStep flowDuration σ.totals r).2) := by
  unfold flowBodyVT flowStep throughputMbps
  by_cases h : 0 < r.rxPackets
  · simp only [gt_iff_lt, h, if_true]
    rfl
  · simp only [gt_iff_lt, h, if_false]
    rfl

/-- The flow loop of `5G_RR_VT.cc` on the store is `flowLoop` on its
accumulators. -/
theorem flowForVT_eq {α : Type} [LinearOrderedField α] (flowDuration : α)
    (rs : List (FlowStats α)) :
    ∀ σ : Store α,
      flowForVT flowDuration rs σ
        = ((flowLoop flowDuration rs σ.totals).1,
            σ.withTotals (flowLoop flowDuration rs σ.totals).2) := by
  induction rs with
  | nil =>
    intro σ
    rfl
  | cons r rs ih =>
    intro σ
    simp only [flowForVT, flowLoop, flowBodyVT_eq, ih, Store.totals_withTotals,
      Store.withTotals_withTotals]

/-- The fairness loop of `5G_RR_VT.cc` on the store is `fairnessLoop` on the two
sums, and writes no other variable. -/
theorem fairnessForVT_eq {α : Type} [LinearOrderedField α] (flowDuration : α)
    (rs : List (FlowStats α)) :
    ∀ σ : Store α,
      fairnessForVT flowDuration rs σ
        = { σ with
            sumThroughput :=
              (fairnessLoop flowDuration rs (σ.sumThroughput, σ.sumThroughputSq)).1
            sumThroughputSq :=
              (fairnessLoop flowDuration rs (σ.sumThroughput, σ.sumThroughputSq)).2 } := by
  induction rs with
  | nil =>
    intro σ
    rfl
  | cons r rs ih =>
    intro σ
    by_cases h : 0 < r.rxPackets
    · simp only [fairnessForVT, fairnessLoop, throughputMbps, gt_iff_lt, h, if_true, ih]
    · simp only [fairnessForVT, fairnessLoop, gt_iff_lt, h, if_false, ih]

/-- What the statistics part of `5G_RR_VT.cc` prints is `aggregate` of the records
and the flow duration, whatever the store holds when the part starts. -/
theorem statisticsVT_fst {α : Type} [LinearOrderedField α] (σ : Store α) (flowDuration : α)
    (stats : List (FlowStats α)) :
    (statisticsVT σ flowDuration stats).1 = aggregate flowDuration stats := by
  unfold statisticsVT aggregate networkKPI fairnessIndex fairnessPartVT
  simp only [flowForVT_eq, fairnessForVT_eq, Store.withTotals, Store.totals,
    declareTotalsVT, networkFiguresVT, declareFairnessVT, declareSumsVT,
    assignFairnessVT, printNetworkVT]
  by_cases h : 1 < (flowLoop flowDuration stats Totals.init).2.totalFlows
  · simp only [gt_iff_lt, Totals.init] at h ⊢
    simp only [h, if_true]
  · simp only [gt_iff_lt, Totals.init] at h ⊢
    simp only [h, if_false]

/-- What the statistics part of either script prints is `aggregate` of the
records and the flow duration. -/
theorem Script.statistics_fst {α : Type} [LinearOrderedField α] (s : Script) (σ : Store α)
    (flowDuration : α) (stats : List (FlowStats α)) :
    (s.statistics σ flowDuration stats).1 = aggregate flowDuration stats := by
  cases s
  · exact statisticsLL_fst σ flowDuration stats
  · exact statisticsVT_fst σ flowDuration stats

/-- C18: the statistics part of either script, run on a store of its variables:
what it prints (the figures of every flow and the four network figures) does
not depend on what the store holds when the part starts, because every
variable is written before it is read.  So two evaluations on the same
records and flow duration print the same, whether the second starts from the
store the first left behind or from the store left by an evaluation on
other records; and what is printed is the function `aggregate` of the records
and the flow duration. -/
theorem statistics_carry_no_state {α : Type} [LinearOrderedField α] (s : Script)
    (flowDuration : α) (stats : List (FlowStats α)) :
    (∀ σ σ2 : Store α,
      (s.statistics σ flowDuration stats).1 = (s.statistics σ2 flowDuration stats).1) ∧
    (∀ σ : Store α,
      (s.statistics (s.statistics σ flowDuration stats).2 flowDuration stats).1
        = (s.statistics σ flowDuration stats).1) ∧
    (∀ (σ : Store α) (otherDuration : α) (otherStats : List (FlowStats α)),
      (s.statistics (s.statistics σ otherDuration otherStats).2 flowDuration stats).1
        = (s.statistics σ flowDuration stats).1) ∧
    (∀ σ : Store α, (s.statistics σ flowDuration stats).1 = aggregate flowDuration stats) := by
  refine ⟨?_, ?_, ?_, ?_⟩
  · intro σ σ2
    rw [Script.statistics_fst, Script.statistics_fst]
  · intro σ
    rw [Script.statistics_fst, Script.statistics_fst]
  · intro σ d2 stats2
    rw [Script.statistics_fst, Script.statistics_fst]
  · intro σ
    exact Script.statistics_fst s σ flowDuration stats

/-! ### The attachment loop -/

/-- The attachment loop appends one call per remaining counter value. -/
theorem attachLoop_eq (gNbNum n : Nat) :
    ∀ (k i : Nat) (acc : List Attachment), n - i = k →
      attachLoop gNbNum n i acc
        = acc ++ (List.range' i k).map (fun j => (⟨j, j % gNbNum⟩ : Attachment)) := by
  intro k
  induction k with
  | zero =>
    intro i acc h
    have hi : ¬ i < n := by omega
    rw [attachLoop, if_neg hi]
    simp
  | succ k ih =>
    intro i acc h
    have hi : i < n := by omega
    rw [attachLoop, if_pos hi, ih (i + 1) _ (by omega)]
    simp [List.range'_succ]

/-- The whole loop, as a list comprehension over the terminal indices. -/
theorem attachUes_eq (gNbNum n : Nat) :
    attachUes gNbNum n = (List.range n).map (fun j => (⟨j, j % gNbNum⟩ : Attachment)) := by
  rw [attachUes, attachLoop_eq gNbNum n n 0 [] (by omega), List.range_eq_range']
  simp

/-- Terminal `i` occurs in the loop once when `i < n`, and never otherwise. -/
theorem cellsOf_attachUes (gNbNum n i : Nat) :
    cellsOf (attachUes gNbNum n) i = if i < n then [i % gNbNum] else [] := by
  rw [attachUes_eq]
  induction n with
  | zero => simp [cellsOf]
  | succ n ih =>
    rw [List.range_succ, List.map_append]
    simp only [cellsOf, List.filter_append, List.map_append] at ih ⊢
    rw [ih]
    by_cases h1 : i < n
    · have h2 : ¬ n = i := by omega
      have h3 : i < n + 1 := by omega
      simp [h1, h2, h3]
    · by_cases h2 : n = i
      · subst h2
        simp
      · have h3 : ¬ i < n + 1 := by omega
        simp [h1, h2, h3]

/-- C1: for every terminal count `n` and every cell count `gNbNum ≥ 1`, the
attachment loop makes exactly one call per terminal, in index order; terminal
`i` is attached to cell `i mod gNbNum` and to no other cell, and that index is
below `gNbNum`, so it names an existing cell.  The loop reads no position. -/
theorem attach_round_robin (gNbNum n : Nat) (hC : 1 ≤ gNbNum) :
    (attachUes gNbNum n).map Attachment.ue = List.range n ∧
    ∀ i, i < n →
      cellsOf (attachUes gNbNum n) i = [i % gNbNum] ∧ i % gNbNum < gNbNum := by
  refine ⟨?_, ?_⟩
  · rw [attachUes_eq]
    simp [Function.comp_def]
  · intro i hi
    refine ⟨?_, Nat.mod_lt _ (by omega)⟩
    rw [cellsOf_attachUes, if_pos hi]

/-- C1 at the scripts' own sizes: five terminals on three cells. -/
theorem attach_round_robin_witness :
    1 ≤ 3 ∧ ((attachUes 3 5).map Attachment.ue = List.range 5 ∧
      ∀ i, i < 5 → cellsOf (attachUes 3 5) i = [i % 3] ∧ i % 3 < 3) :=
  ⟨by decide, attach_round_robin 3 5 (by decide)⟩

/-! ### Claims on the scenario set-up -/

section SetupLemmas

variable {α : Type} [LinearOrderedField α]

/-- The frequency guard passes exactly on the frequencies inside the range. -/
theorem checkFrequencies_ok_iff (s : Script) (cfg : Config α) :
    checkFrequencies s cfg = .ok () ↔
      (500000000 ≤ cfg.centralFrequencyBand1 ∧ cfg.centralFrequencyBand1 ≤ s.maxFrequency) ∧
      (500000000 ≤ cfg.centralFrequencyBand2 ∧ cfg.centralFrequencyBand2 ≤ s.maxFrequency) := by
  unfold checkFrequencies
  constructor
  · intro h
    split at h
    · exact Except.noConfusion h
    · split at h
      · exact Except.noConfusion h
      · rename_i h1 h2
        rw [not_or, not_lt, not_lt] at h1 h2
        exact ⟨h1, h2⟩
  · rintro ⟨⟨h1, h2⟩, h3, h4⟩
    rw [if_neg (by rw [not_or, not_lt, not_lt]; exact ⟨h1, h2⟩),
      if_neg (by rw [not_or, not_lt, not_lt]; exact ⟨h3, h4⟩)]

/-- The set-up stops at the frequency guard whenever the guard fails, whatever
the rest of the configuration is. -/
theorem main_of_checkFrequencies_error (s : Script) (m : Libm α) (cfg : Config α) (e : Abort)
    (h : checkFrequencies s cfg = .error e) : main s m cfg = .error e := by
  unfold main
  rw [h]
  rfl

/-- With the guard passed and at least three gNBs the set-up succeeds. -/
theorem main_ok (s : Script) (m : Libm α) (cfg : Config α)
    (hf : checkFrequencies s cfg = .ok ()) (hg : 3 ≤ cfg.gNbNum) :
    main s m cfg = .ok
      { phy := [⟨0, 0, cfg.numerologyBwp1, txPowerBand1 m cfg⟩,
                ⟨1, 0, cfg.numerologyBwp1, txPowerBand1 m cfg⟩,
                ⟨2, 0, cfg.numerologyBwp1, txPowerBand1 m cfg⟩]
              ++ (if cfg.doubleOperationalBand then
                    [⟨0, 1, cfg.numerologyBwp2, txPowerBand2 m cfg⟩,
                     ⟨1, 1, cfg.numerologyBwp2, txPowerBand2 m cfg⟩,
                     ⟨2, 1, cfg.numerologyBwp2, txPowerBand2 m cfg⟩]
                  else [])
        bwpIdForTraffic := if cfg.doubleOperationalBand then 1 else 0
        attachments := attachUes cfg.gNbNum cfg.ueNum
        sinkPort := cfg.dlPort
        remotePort := cfg.dlPort
        bearer := s.bearerPlan cfg } := by
  unfold main configureGnbPhy
  rw [hf, if_neg (by omega)]
  rfl

end SetupLemmas

/-- C7: in either script the set-up aborts at one of the two `NS_ABORT_IF`
lines, whatever the rest of the configuration and before anything is
derived from it, exactly when a central frequency is below `0.5e9` or above
the script's upper bound; this is the case for `0.1e9` and for `500e9` on
either band, and the guard passes exactly when both frequencies are in
the range. -/
theorem frequency_guard {α : Type} [LinearOrderedField α] (s : Script) (m : Libm α)
    (cfg : Config α) :
    ((cfg.centralFrequencyBand1 < 500000000 ∨ s.maxFrequency < cfg.centralFrequencyBand1 ∨
        cfg.centralFrequencyBand2 < 500000000 ∨ s.maxFrequency < cfg.centralFrequencyBand2) ↔
      (main s m cfg = .error Abort.frequencyBand1 ∨
        main s m cfg = .error Abort.frequencyBand2)) ∧
    (((500000000 ≤ cfg.centralFrequencyBand1 ∧ cfg.centralFrequencyBand1 ≤ s.maxFrequency) ∧
        (500000000 ≤ cfg.centralFrequencyBand2 ∧ cfg.centralFrequencyBand2 ≤ s.maxFrequency)) ↔
      checkFrequencies s cfg = .ok ()) ∧
    ((cfg.centralFrequencyBand1 = 100000000 ∨ cfg.centralFrequencyBand1 = 500000000000 ∨
        cfg.centralFrequencyBand2 = 100000000 ∨ cfg.centralFrequencyBand2 = 500000000000) →
      (main s m cfg = .error Abort.frequencyBand1 ∨
        main s m cfg = .error Abort.frequencyBand2)) := by
  have hmax : s.maxFrequency < (500000000000 : α) := by
    cases s <;> simp only [Script.maxFrequency] <;> norm_num
  have hfwd : (cfg.centralFrequencyBand1 < 500000000 ∨
      s.maxFrequency < cfg.centralFrequencyBand1 ∨
      cfg.centralFrequencyBand2 < 500000000 ∨ s.maxFrequency < cfg.centralFrequencyBand2) →
      (main s m cfg = .error Abort.frequencyBand1 ∨
        main s m cfg = .error Abort.frequencyBand2) := by
    intro h
    by_cases h1 : cfg.centralFrequencyBand1 < 500000000
        ∨ cfg.centralFrequencyBand1 > s.maxFrequency
    · left
      apply main_of_checkFrequencies_error
      unfold checkFrequencies
      rw [if_pos h1]
    · right
      apply main_of_checkFrequencies_error
      unfold checkFrequencies
      have h2 : cfg.centralFrequencyBand2 < 500000000
          ∨ cfg.centralFrequencyBand2 > s.maxFrequency := by
        rcases h with h | h | h | h
        · exact absurd (Or.inl h) h1
        · exact absurd (Or.inr h) h1
        · exact Or.inl h
        · exact Or.inr h
      rw [if_neg h1, if_pos h2]
  refine ⟨⟨hfwd, ?_⟩, (checkFrequencies_ok_iff s cfg).symm, ?_⟩
  · intro h
    by_contra hn
    have hin : (500000000 ≤ cfg.centralFrequencyBand1
        ∧ cfg.centralFrequencyBand1 ≤ s.maxFrequency)
        ∧ (500000000 ≤ cfg.centralFrequencyBand2
        ∧ cfg.centralFrequencyBand2 ≤ s.maxFrequency) := by
      simp only [not_or, not_lt] at hn
      exact ⟨⟨hn.1, hn.2.1⟩, hn.2.2.1, hn.2.2.2⟩
    have hok := (checkFrequencies_ok_iff s cfg).mpr hin
    by_cases hg : 3 ≤ cfg.gNbNum
    · rw [main_ok s m cfg hok hg] at h
      rcases h with h | h <;> exact Except.noConfusion h
    · have hm : main s m cfg = .error Abort.gnbIndex := by
        unfold main configureGnbPhy
        rw [hok, if_pos (by omega)]
        rfl
      rw [hm] at h
      rcases h with h | h
      · exact Abort.noConfusion (Except.error.inj h)
      · exact Abort.noConfusion (Except.error.inj h)
  · intro h
    apply hfwd
    rcases h with h | h | h | h
    · left
      rw [h]
      norm_num
    · right; left
      rw [h]
      exact hmax
    · right; right; left
      rw [h]
      norm_num
    · right; right; right
      rw [h]
      exact hmax

/-- C7 on the voice script with band 1 at `0.1e9` and on the low-latency script
with band 2 at `500e9`; the other values are the scripts' own. -/
theorem frequency_guard_witness :
    (main Script.voice (⟨fun b e => b ^ e, fun v => Real.logb 10 v⟩ : Libm ℝ)
        { (Script.config Script.voice : Config ℝ) with centralFrequencyBand1 := 100000000 }
        = .error Abort.frequencyBand1 ∨
      main Script.voice (⟨fun b e => b ^ e, fun v => Real.logb 10 v⟩ : Libm ℝ)
        { (Script.config Script.voice : Config ℝ) with centralFrequencyBand1 := 100000000 }
        = .error Abort.frequencyBand2) ∧
    (main Script.lowLatency (⟨fun b e => b ^ e, fun v => Real.logb 10 v⟩ : Libm ℝ)
        { (Script.config Script.lowLatency : Config ℝ) with
          centralFrequencyBand2 := 500000000000 }
        = .error Abort.frequencyBand1 ∨
      main Script.lowLatency (⟨fun b e => b ^ e, fun v => Real.logb 10 v⟩ : Libm ℝ)
        { (Script.config Script.lowLatency : Config ℝ) with
          centralFrequencyBand2 := 500000000000 }
        = .error Abort.frequencyBand2) :=
  ⟨(frequency_guard Script.voice _ _).2.2 (Or.inl rfl),
    (frequency_guard Script.lowLatency _ _).2.2 (Or.inr (Or.inr (Or.inr rfl)))⟩

/-- The activation loop appends one call per remaining counter value. -/
theorem activateLoop_eq {α : Type} [LinearOrderedField α] (cfg : Config α) (n : Nat) :
    ∀ (k i : Nat) (acc : List Activation), n - i = k →
      activateLoop cfg n i acc
        = acc ++ (List.range' i k).map
            (fun j => (⟨j, Qci.NGBR_LOW_LAT_EMBB, [dlpf cfg]⟩ : Activation)) := by
  intro k
  induction k with
  | zero =>
    intro i acc h
    have hi : ¬ i < n := by omega
    rw [activateLoop, if_neg hi]
    simp
  | succ k ih =>
    intro i acc h
    have hi : i < n := by omega
    rw [activateLoop, if_pos hi, ih (i + 1) _ (by omega)]
    simp [List.range'_succ]

/-- The total bandwidth as a finite value. -/
theorem totalBandwidth_fin {α : Type} [LinearOrderedField α] (cfg : Config α) :
    totalBandwidth cfg
      = Dbl.fin (if cfg.doubleOperationalBand then cfg.bandwidthBand1 + cfg.bandwidthBand2
          else cfg.bandwidthBand1) := by
  unfold totalBandwidth
  split <;> rfl

/-- C9: with positive bandwidths the shares `bandwidth_i / totalBandwidth` of
the active bands add up to exactly 1, where `totalBandwidth` counts band 2
only under `doubleOperationalBand`: the two shares sum to 1 when both
bands are active, and the share of band 1 alone is 1 otherwise. -/
theorem band_shares_sum_to_one {α : Type} [LinearOrderedField α] (cfg : Config α)
    (h1 : 0 < cfg.bandwidthBand1) (h2 : 0 < cfg.bandwidthBand2) :
    (cfg.doubleOperationalBand = true → bandShare1 cfg + bandShare2 cfg = Dbl.fin 1) ∧
    (cfg.doubleOperationalBand = false → bandShare1 cfg = Dbl.fin 1) := by
  constructor
  · intro hd
    have ht : cfg.bandwidthBand1 + cfg.bandwidthBand2 ≠ 0 := ne_of_gt (add_pos h1 h2)
    simp only [bandShare1, bandShare2, totalBandwidth_fin, hd, if_true,
      Dbl.fin_div_fin _ _ ht, Dbl.fin_add_fin]
    congr 1
    field_simp
  · intro hd
    have ht : cfg.bandwidthBand1 ≠ 0 := ne_of_gt h1
    simp only [bandShare1, totalBandwidth_fin, hd, Bool.false_eq_true, if_false,
      Dbl.fin_div_fin _ _ ht]
    congr 1
    exact div_self ht

/-- C9 on the low-latency script's own values: two bands of 400 MHz. -/
theorem band_shares_sum_to_one_witness :
    0 < (Script.config Script.lowLatency : Config ℚ).bandwidthBand1 ∧
    0 < (Script.config Script.lowLatency : Config ℚ).bandwidthBand2 ∧
    (Script.config Script.lowLatency : Config ℚ).doubleOperationalBand = true ∧
    bandShare1 (Script.config Script.lowLatency : Config ℚ)
      + bandShare2 (Script.config Script.lowLatency : Config ℚ) = Dbl.fin 1 :=
  ⟨by norm_num [Script.config], by norm_num [Script.config], rfl,
    (band_shares_sum_to_one (Script.config Script.lowLatency : Config ℚ)
      (by norm_num [Script.config]) (by norm_num [Script.config])).1 rfl⟩

/-- The transmit power of a band as a finite value, for positive bandwidths and
a positive value of `pow`. -/
theorem txPower_fin {α : Type} [LinearOrderedField α] (m : Libm α) (cfg : Config α)
    (h1 : 0 < cfg.bandwidthBand1) (h2 : 0 < cfg.bandwidthBand2)
    (hx : 0 < m.pow 20 (cfg.totalTxPower / 5)) :
    txPowerBand1 m cfg
      = Dbl.fin (10 * m.log10
          (cfg.bandwidthBand1
            / (if cfg.doubleOperationalBand then cfg.bandwidthBand1 + cfg.bandwidthBand2
                else cfg.bandwidthBand1)
            * m.pow 20 (cfg.totalTxPower / 5))) ∧
    txPowerBand2 m cfg
      = Dbl.fin (10 * m.log10
          (cfg.bandwidthBand2
            / (if cfg.doubleOperationalBand then cfg.bandwidthBand1 + cfg.bandwidthBand2
                else cfg.bandwidthBand1)
            * m.pow 20 (cfg.totalTxPower / 5))) := by
  have ht : 0 < (if cfg.doubleOperationalBand then cfg.bandwidthBand1 + cfg.bandwidthBand2
      else cfg.bandwidthBand1) := by
    split
    · exact add_pos h1 h2
    · exact h1
  have hp1 : 0 < cfg.bandwidthBand1
      / (if cfg.doubleOperationalBand then cfg.bandwidthBand1 + cfg.bandwidthBand2
          else cfg.bandwidthBand1) * m.pow 20 (cfg.totalTxPower / 5) :=
    mul_pos (div_pos h1 ht) hx
  have hp2 : 0 < cfg.bandwidthBand2
      / (if cfg.doubleOperationalBand then cfg.bandwidthBand1 + cfg.bandwidthBand2
          else cfg.bandwidthBand1) * m.pow 20 (cfg.totalTxPower / 5) :=
    mul_pos (div_pos h2 ht) hx
  constructor
  · simp only [txPowerBand1, bandShare1, x, totalBandwidth_fin,
      Dbl.fin_div_fin _ _ (ne_of_gt ht), Dbl.fin_mul_fin, Dbl.log10, if_pos hp1]
  · simp only [txPowerBand2, bandShare2, x, totalBandwidth_fin,
      Dbl.fin_div_fin _ _ (ne_of_gt ht), Dbl.fin_mul_fin, Dbl.log10, if_pos hp2]

/-- With the guard passed and at least three gNBs, the transmit powers of the
plan: the value of band 1 on band part 0 of the gNBs 0, 1 and 2, under
`doubleOperationalBand` the value of band 2 on band part 1 of these three, and
nothing on any gNB of index 3 or more. -/
theorem main_txPower {α : Type} [LinearOrderedField α] (s : Script) (m : Libm α)
    (cfg : Config α) (hf : checkFrequencies s cfg = .ok ()) (hg : 3 ≤ cfg.gNbNum) :
    ∃ p, main s m cfg = .ok p ∧
      (∀ gnb, gnb < 3 → txPowerOf p gnb 0 = [txPowerBand1 m cfg]) ∧
      (cfg.doubleOperationalBand = true → ∀ gnb, gnb < 3 →
        txPowerOf p gnb 1 = [txPowerBand2 m cfg]) ∧
      (cfg.doubleOperationalBand = false → ∀ gnb, txPowerOf p gnb 1 = []) ∧
      (∀ gnb, 3 ≤ gnb → ∀ bwp, txPowerOf p gnb bwp = []) := by
  refine ⟨_, main_ok s m cfg hf hg, ?_, ?_, ?_, ?_⟩
  · intro gnb hlt
    cases hd : cfg.doubleOperationalBand <;> interval_cases gnb <;> simp [txPowerOf]
  · intro hd gnb hlt
    rw [hd]
    interval_cases gnb <;> simp [txPowerOf]
  · intro hd gnb
    rw [hd]
    simp [txPowerOf]
  · intro gnb hge bwp
    have h0 : ¬ (0 = gnb) := by omega
    have h1 : ¬ (1 = gnb) := by omega
    have h2 : ¬ (2 = gnb) := by omega
    cases hd : cfg.doubleOperationalBand <;> simp [txPowerOf, List.filter_cons, h0, h1, h2]

/-- C10 as stated fails: the low-latency script with four gNBs instead of
three, everything else as in the script.  The set-up succeeds, terminal 3 is
attached to gNB 3, and gNB 3 is assigned no transmit power on either band
part, while gNB 0 is assigned the value of the formula on both: the power
is not assigned to every cell of the deployment. -/
theorem fourth_cell_gets_no_tx_power :
    ∃ p, main Script.lowLatency (⟨fun b e => b ^ e, fun v => Real.logb 10 v⟩ : Libm ℝ)
        { (Script.config Script.lowLatency : Config ℝ) with gNbNum := 4 } = .ok p ∧
      cellsOf p.attachments 3 = [3] ∧
      txPowerOf p 3 0 = [] ∧ txPowerOf p 3 1 = [] ∧
      txPowerOf p 0 0
        = [Dbl.fin (10 * Real.logb 10
            (400000000 / (400000000 + 400000000) * (20 : ℝ) ^ ((55 : ℝ) / 5)))] ∧
      txPowerOf p 0 1
        = [Dbl.fin (10 * Real.logb 10
            (400000000 / (400000000 + 400000000) * (20 : ℝ) ^ ((55 : ℝ) / 5)))] ∧
      ¬ (∀ gnb, gnb < 4 →
          txPowerOf p gnb 0
            = [Dbl.fin (10 * Real.logb 10
                (400000000 / (400000000 + 400000000) * (20 : ℝ) ^ ((55 : ℝ) / 5)))]) := by
  have hf : checkFrequencies Script.lowLatency
      { (Script.config Script.lowLatency : Config ℝ) with gNbNum := 4 } = .ok () := by
    rw [checkFrequencies_ok_iff]
    simp only [Script.config, Script.maxFrequency]
    norm_num
  have hb1 : (0 : ℝ) < ({ (Script.config Script.lowLatency : Config ℝ) with
      gNbNum := 4 }).bandwidthBand1 := by
    norm_num [Script.config]
  have hb2 : (0 : ℝ) < ({ (Script.config Script.lowLatency : Config ℝ) with
      gNbNum := 4 }).bandwidthBand2 := by
    norm_num [Script.config]
  have hfin := txPower_fin (⟨fun b e => b ^ e, fun v => Real.logb 10 v⟩ : Libm ℝ)
    { (Script.config Script.lowLatency : Config ℝ) with gNbNum := 4 } hb1 hb2
    (Real.rpow_pos_of_pos (by norm_num) _)
  have hmain := main_ok Script.lowLatency (⟨fun b e => b ^ e, fun v => Real.logb 10 v⟩ : Libm ℝ)
    { (Script.config Script.lowLatency : Config ℝ) with gNbNum := 4 } hf
    (by simp [Script.config])
  obtain ⟨p, hp, h0, h1, _, h3⟩ :=
    main_txPower Script.lowLatency (⟨fun b e => b ^ e, fun v => Real.logb 10 v⟩ : Libm ℝ)
      { (Script.config Script.lowLatency : Config ℝ) with gNbNum := 4 } hf
      (by simp [Script.config])
  have hatt : p.attachments = attachUes 4 5 := by
    rw [hmain] at hp
    rw [← Except.ok.inj hp]
    rfl
  have e0 : txPowerOf p 0 0
      = [Dbl.fin (10 * Real.logb 10
          (400000000 / (400000000 + 400000000) * (20 : ℝ) ^ ((55 : ℝ) / 5)))] := by
    rw [h0 0 (by omega), hfin.1]
    rfl
  have e3 : txPowerOf p 3 0 = [] := h3 3 (by omega) 0
  refine ⟨p, hp, ?_, e3, h3 3 (by omega) 1, e0, ?_, ?_⟩
  · rw [hatt, cellsOf_attachUes]
    rfl
  · rw [h1 rfl 0 (by omega), hfin.2]
    rfl
  · intro hall
    have h := hall 3 (by omega)
    rw [e3] at h
    exact List.noConfusion h

/-- C10, amended: the statements that set the transmit power name the gNBs 0, 1
and 2.  With the frequency guard passed and at least three gNBs the set-up
succeeds and sets, on band 1 of each of these three gNBs, the one transmit
power `10 * log10((bandwidthBand1 / totalBandwidth) * x)` with
`x = pow(20, totalTxPower / 5)`, and under `doubleOperationalBand` the same
with `bandwidthBand2` on band 2 of each of them; the value does not depend on
the gNB.  Without `doubleOperationalBand` nothing is set on band 2, and a gNB
of index 3 or more is assigned no transmit power at all, so the three gNBs are
every cell exactly in a deployment of three.  For positive bandwidths and a
positive `x` the values are finite. -/
theorem tx_power_per_cell {α : Type} [LinearOrderedField α] (s : Script) (m : Libm α)
    (cfg : Config α) (hf : checkFrequencies s cfg = .ok ()) (hg : 3 ≤ cfg.gNbNum) :
    ∃ p, main s m cfg = .ok p ∧
      (∀ gnb, gnb < 3 →
        txPowerOf p gnb 0
          = [Dbl.fin 10 * Dbl.log10 m
              ((Dbl.fin cfg.bandwidthBand1 / totalBandwidth cfg)
                * Dbl.fin (m.pow 20 (cfg.totalTxPower / 5)))]) ∧
      (cfg.doubleOperationalBand = true → ∀ gnb, gnb < 3 →
        txPowerOf p gnb 1
          = [Dbl.fin 10 * Dbl.log10 m
              ((Dbl.fin cfg.bandwidthBand2 / totalBandwidth cfg)
                * Dbl.fin (m.pow 20 (cfg.totalTxPower / 5)))]) ∧
      (cfg.doubleOperationalBand = false → ∀ gnb, txPowerOf p gnb 1 = []) ∧
      (∀ gnb, 3 ≤ gnb → ∀ bwp, txPowerOf p gnb bwp = []) ∧
      ((∀ gnb, gnb < cfg.gNbNum → txPowerOf p gnb 0 ≠ []) ↔ cfg.gNbNum = 3) ∧
      (0 < cfg.bandwidthBand1 → 0 < cfg.bandwidthBand2 →
        0 < m.pow 20 (cfg.totalTxPower / 5) →
        ∀ gnb, gnb < 3 →
          txPowerOf p gnb 0
            = [Dbl.fin (10 * m.log10
                (cfg.bandwidthBand1
                  / (if cfg.doubleOperationalBand then
                      cfg.bandwidthBand1 + cfg.bandwidthBand2
                    else cfg.bandwidthBand1)
                  * m.pow 20 (cfg.totalTxPower / 5)))] ∧
          (cfg.doubleOperationalBand = true →
            txPowerOf p gnb 1
              = [Dbl.fin (10 * m.log10
                  (cfg.bandwidthBand2 / (cfg.bandwidthBand1 + cfg.bandwidthBand2)
                    * m.pow 20 (cfg.totalTxPower / 5)))])) := by
  obtain ⟨p, hp, h0, h1, h2, h3⟩ := main_txPower s m cfg hf hg
  refine ⟨p, hp, ?_, ?_, h2, h3, ?_, ?_⟩
  · intro gnb hlt
    rw [h0 gnb hlt]
    rfl
  · intro hd gnb hlt
    rw [h1 hd gnb hlt]
    rfl
  · constructor
    · intro hall
      by_contra hne
      exact hall 3 (by omega) (h3 3 (by omega) 0)
    · intro h3eq gnb hlt
      rw [h0 gnb (by omega)]
      exact List.cons_ne_nil _ _
  · intro hb1 hb2 hx gnb hlt
    refine ⟨?_, ?_⟩
    · rw [h0 gnb hlt, (txPower_fin m cfg hb1 hb2 hx).1]
    · intro hd
      rw [h1 hd gnb hlt, (txPower_fin m cfg hb1 hb2 hx).2, hd]
      rfl

/-- With the real power function and the scripts' 55 dBm, the power budget
`20 ^ (55 / 5)` is not the standard conversion `10 ^ (55 / 10)`. -/
theorem x_is_not_standard_conversion :
    x (⟨fun b e => b ^ e, fun v => Real.logb 10 v⟩ : Libm ℝ)
        (Script.config Script.lowLatency : Config ℝ)
      ≠ Dbl.fin ((10 : ℝ) ^ ((55 : ℝ) / 10)) := by
  intro h
  have h1 : ((20 : ℝ) ^ ((55 : ℝ) / 5)) = (10 : ℝ) ^ ((55 : ℝ) / 10) := Dbl.fin.inj h
  have h2 : ((55 : ℝ) / 5) = ((11 : ℕ) : ℝ) := by norm_num
  have h3 : (10 : ℝ) ^ ((55 : ℝ) / 10) < (10 : ℝ) ^ (((6 : ℕ) : ℝ)) :=
    (Real.rpow_lt_rpow_left_iff (by norm_num)).mpr (by norm_num)
  rw [h2, Real.rpow_natCast] at h1
  rw [Real.rpow_natCast] at h3
  rw [← h1] at h3
  norm_num at h3

/-- C10, amended, on the low-latency script's own values, with the real `pow`
and `log10`: each of the three gNBs gets
`10 * log10(400e6 / 800e6 * 20 ^ (55 / 5))` on each of the two bands, the
three are every cell of the script's deployment, and the power budget
`20 ^ (55 / 5)` is not `10 ^ (55 / 10)`. -/
theorem tx_power_per_cell_witness :
    checkFrequencies Script.lowLatency (Script.config Script.lowLatency : Config ℝ) = .ok () ∧
    3 ≤ (Script.config Script.lowLatency : Config ℝ).gNbNum ∧
    ∃ p, main Script.lowLatency (⟨fun b e => b ^ e, fun v => Real.logb 10 v⟩ : Libm ℝ)
        (Script.config Script.lowLatency : Config ℝ) = .ok p ∧
      (∀ gnb, gnb < 3 →
        txPowerOf p gnb 0
          = [Dbl.fin (10 * Real.logb 10
              (400000000 / (400000000 + 400000000) * (20 : ℝ) ^ ((55 : ℝ) / 5)))] ∧
        txPowerOf p gnb 1
          = [Dbl.fin (10 * Real.logb 10
              (400000000 / (400000000 + 400000000) * (20 : ℝ) ^ ((55 : ℝ) / 5)))]) ∧
      (∀ gnb, gnb < 3 → txPowerOf p gnb 0 ≠ []) ∧
      x (⟨fun b e => b ^ e, fun v => Real.logb 10 v⟩ : Libm ℝ)
          (Script.config Script.lowLatency : Config ℝ)
        ≠ Dbl.fin ((10 : ℝ) ^ ((55 : ℝ) / 10)) := by
  have hf : checkFrequencies Script.lowLatency
      (Script.config Script.lowLatency : Config ℝ) = .ok () := by
    rw [checkFrequencies_ok_iff]
    simp only [Script.config, Script.maxFrequency]
    norm_num
  obtain ⟨p, hp, _, _, _, _, h5, h6⟩ :=
    tx_power_per_cell Script.lowLatency (⟨fun b e => b ^ e, fun v => Real.logb 10 v⟩ : Libm ℝ)
      (Script.config Script.lowLatency : Config ℝ) hf (by simp [Script.config])
  refine ⟨hf, by simp [Script.config], p, hp, ?_, h5.mpr rfl, x_is_not_standard_conversion⟩
  intro gnb hlt
  have h7 := h6 (by norm_num [Script.config]) (by norm_num [Script.config])
    (Real.rpow_pos_of_pos (by norm_num) _) gnb hlt
  exact ⟨h7.1, h7.2 rfl⟩

/-- The set-up succeeds with the guard passed and three gNBs, and then every
gNB has the transmit power of band 1 on its first band part. -/
theorem main_txPower_band1 {α : Type} [LinearOrderedField α] (s : Script) (m : Libm α)
    (cfg : Config α) (hf : checkFrequencies s cfg = .ok ()) (hg : cfg.gNbNum = 3) :
    ∃ p, main s m cfg = .ok p ∧
      (∀ gnb, gnb < cfg.gNbNum → txPowerOf p gnb 0 = [txPowerBand1 m cfg]) ∧
      (cfg.doubleOperationalBand = false → ∀ q ∈ p.phy, q.bwp = 0) ∧
      p.bwpIdForTraffic = (if cfg.doubleOperationalBand then 1 else 0) := by
  refine ⟨_, main_ok s m cfg hf (by omega), ?_, ?_, rfl⟩
  · intro gnb hlt
    rw [hg] at hlt
    cases hd : cfg.doubleOperationalBand <;> interval_cases gnb <;> simp [txPowerOf]
  · intro hd q hq
    rw [hd] at hq
    simp only [Bool.false_eq_true, if_false, List.append_nil, List.mem_cons,
      List.mem_singleton, List.not_mem_nil, or_false] at hq
    rcases hq with rfl | rfl | rfl <;> rfl

/-- C11: with `doubleOperationalBand` false and a positive `bandwidthBand1`
(the guard passed, three gNBs), whatever `bandwidthBand2` is: the share of
band 1 is exactly 1, every gNB gets the power `10 * log10(x)` with
`x = pow(20, totalTxPower / 5)` on band 1, which is finite when `x` is
positive, and no numerology or power is set on a second band part: every
PHY setting of the plan is on band part 0, and the traffic is mapped to it. -/
theorem single_band_plan {α : Type} [LinearOrderedField α] (s : Script) (m : Libm α)
    (cfg : Config α) (hsingle : cfg.doubleOperationalBand = false)
    (hb1 : 0 < cfg.bandwidthBand1) (hf : checkFrequencies s cfg = .ok ())
    (hg : cfg.gNbNum = 3) :
    bandShare1 cfg = Dbl.fin 1 ∧
    ∃ p, main s m cfg = .ok p ∧
      (∀ gnb, gnb < cfg.gNbNum →
        txPowerOf p gnb 0
          = [Dbl.fin 10 * Dbl.log10 m (Dbl.fin (m.pow 20 (cfg.totalTxPower / 5)))]) ∧
      (0 < m.pow 20 (cfg.totalTxPower / 5) → ∀ gnb, gnb < cfg.gNbNum →
        txPowerOf p gnb 0
          = [Dbl.fin (10 * m.log10 (m.pow 20 (cfg.totalTxPower / 5)))]) ∧
      (∀ q ∈ p.phy, q.bwp = 0) ∧
      (∀ gnb, txPowerOf p gnb 1 = []) ∧
      p.bwpIdForTraffic = 0 := by
  have hshare : bandShare1 cfg = Dbl.fin 1 := by
    have ht : cfg.bandwidthBand1 ≠ 0 := ne_of_gt hb1
    simp only [bandShare1, totalBandwidth_fin, hsingle, Bool.false_eq_true, if_false,
      Dbl.fin_div_fin _ _ ht]
    congr 1
    exact div_self ht
  have hpow : txPowerBand1 m cfg
      = Dbl.fin 10 * Dbl.log10 m (Dbl.fin (m.pow 20 (cfg.totalTxPower / 5))) := by
    simp only [txPowerBand1, hshare, x, Dbl.fin_mul_fin, one_mul]
  obtain ⟨p, hp, h1, h2, h3⟩ := main_txPower_band1 s m cfg hf hg
  refine ⟨hshare, p, hp, ?_, ?_, h2 hsingle, ?_, ?_⟩
  · intro gnb hlt
    rw [h1 gnb hlt, hpow]
  · intro hx gnb hlt
    rw [h1 gnb hlt, hpow]
    simp only [Dbl.log10, if_pos hx, Dbl.fin_mul_fin]
  · intro gnb
    have hnone : ∀ l : List (PhySetting α), (∀ q ∈ l, q.bwp = 0) →
        (l.filter (fun q => decide (q.gnb = gnb ∧ q.bwp = 1))) = [] := by
      intro l hl
      apply List.filter_eq_nil_iff.mpr
      intro q hq
      simp [hl q hq]
    simp only [txPowerOf, hnone p.phy (h2 hsingle), List.map_nil]
  · rw [h3, hsingle]
    rfl

/-- C11 on the low-latency script's values with the second band switched off,
with the real `pow` and `log10`. -/
theorem single_band_plan_witness :
    ({ (Script.config Script.lowLatency : Config ℝ) with
        doubleOperationalBand := false }).doubleOperationalBand = false ∧
    (0 : ℝ) < ({ (Script.config Script.lowLatency : Config ℝ) with
        doubleOperationalBand := false }).bandwidthBand1 ∧
    checkFrequencies Script.lowLatency
      { (Script.config Script.lowLatency : Config ℝ) with
        doubleOperationalBand := false } = .ok () ∧
    ({ (Script.config Script.lowLatency : Config ℝ) with
        doubleOperationalBand := false }).gNbNum = 3 ∧
    bandShare1 { (Script.config Script.lowLatency : Config ℝ) with
        doubleOperationalBand := false } = Dbl.fin 1 ∧
    ∃ p, main Script.lowLatency (⟨fun b e => b ^ e, fun v => Real.logb 10 v⟩ : Libm ℝ)
        { (Script.config Script.lowLatency : Config ℝ) with
          doubleOperationalBand := false } = .ok p ∧
      (∀ gnb, gnb < 3 →
        txPowerOf p gnb 0 = [Dbl.fin (10 * Real.logb 10 ((20 : ℝ) ^ ((55 : ℝ) / 5)))]) ∧
      (∀ q ∈ p.phy, q.bwp = 0) := by
  have hf : checkFrequencies Script.lowLatency
      { (Script.config Script.lowLatency : Config ℝ) with
        doubleOperationalBand := false } = .ok () := by
    rw [checkFrequencies_ok_iff]
    simp only [Script.config, Script.maxFrequency]
    norm_num
  have hb : (0 : ℝ) < ({ (Script.config Script.lowLatency : Config ℝ) with
      doubleOperationalBand := false }).bandwidthBand1 := by
    norm_num [Script.config]
  obtain ⟨hs, p, hp, _, h2, h3, _, _⟩ :=
    single_band_plan Script.lowLatency (⟨fun b e => b ^ e, fun v => Real.logb 10 v⟩ : Libm ℝ)
      { (Script.config Script.lowLatency : Config ℝ) with doubleOperationalBand := false }
      rfl hb hf rfl
  exact ⟨rfl, hb, hf, rfl, hs, p, hp,
    h2 (Real.rpow_pos_of_pos (by norm_num) _), h3⟩

/-! ### Conservation of the power budget -/

/-- Under `doubleOperationalBand` every gNB has the transmit power of band 2 on
its second band part. -/
theorem main_txPower_band2 {α : Type} [LinearOrderedField α] (s : Script) (m : Libm α)
    (cfg : Config α) (hf : checkFrequencies s cfg = .ok ()) (hg : cfg.gNbNum = 3)
    (p : Plan α) (hp : main s m cfg = .ok p) :
    (cfg.doubleOperationalBand = true → ∀ gnb, gnb < cfg.gNbNum →
      txPowerOf p gnb 1 = [txPowerBand2 m cfg]) ∧
    (cfg.doubleOperationalBand = false → ∀ gnb, txPowerOf p gnb 1 = []) := by
  rw [main_ok s m cfg hf (by omega)] at hp
  have hp2 := Except.ok.inj hp
  subst hp2
  constructor
  · intro hd gnb hlt
    rw [hg] at hlt
    rw [hd]
    interval_cases gnb <;> simp [txPowerOf]
  · intro hd gnb
    rw [hd]
    simp [txPowerOf]

/-- Converting a power `10 * log10(a)` back with `10 ^ (p / 10)` gives `a`, for
a positive `a`. -/
theorem rpow_ten_log10 (a : ℝ) (ha : 0 < a) :
    (10 : ℝ) ^ ((10 * Real.logb 10 a) / 10) = a := by
  rw [mul_div_cancel_left₀ _ (by norm_num : (10 : ℝ) ≠ 0)]
  exact Real.rpow_logb (by norm_num) (by norm_num) ha

/-- C22: over the reals, with the real `pow` and `log10`, positive bandwidths,
the frequency guard passed and the three gNBs: the power `p_i` set on each
active band is finite, its linear value `10 ^ (p_i / 10)` is
`bandwidth_i / totalBandwidth * 20 ^ (totalTxPower / 5)`, in proportion to the
bandwidth, and the linear values of the active bands add up to exactly
`20 ^ (totalTxPower / 5)`: both bands under `doubleOperationalBand`, band 1
alone otherwise. -/
theorem power_budget_conserved (s : Script) (cfg : Config ℝ)
    (hb1 : 0 < cfg.bandwidthBand1) (hb2 : 0 < cfg.bandwidthBand2)
    (hf : checkFrequencies s cfg = .ok ()) (hg : cfg.gNbNum = 3) :
    ∃ p v1 v2,
      main s (⟨fun b e => b ^ e, fun v => Real.logb 10 v⟩ : Libm ℝ) cfg = .ok p ∧
      (∀ gnb, gnb < cfg.gNbNum → txPowerOf p gnb 0 = [Dbl.fin v1]) ∧
      (10 : ℝ) ^ (v1 / 10)
        = cfg.bandwidthBand1
            / (if cfg.doubleOperationalBand then cfg.bandwidthBand1 + cfg.bandwidthBand2
                else cfg.bandwidthBand1)
            * (20 : ℝ) ^ (cfg.totalTxPower / 5) ∧
      (cfg.doubleOperationalBand = true →
        (∀ gnb, gnb < cfg.gNbNum → txPowerOf p gnb 1 = [Dbl.fin v2]) ∧
        (10 : ℝ) ^ (v2 / 10)
          = cfg.bandwidthBand2 / (cfg.bandwidthBand1 + cfg.bandwidthBand2)
              * (20 : ℝ) ^ (cfg.totalTxPower / 5) ∧
        (10 : ℝ) ^ (v1 / 10) + (10 : ℝ) ^ (v2 / 10) = (20 : ℝ) ^ (cfg.totalTxPower / 5)) ∧
      (cfg.doubleOperationalBand = false →
        (∀ gnb, txPowerOf p gnb 1 = []) ∧
        (10 : ℝ) ^ (v1 / 10) = (20 : ℝ) ^ (cfg.totalTxPower / 5)) := by
  have hX : (0 : ℝ) < (20 : ℝ) ^ (cfg.totalTxPower / 5) :=
    Real.rpow_pos_of_pos (by norm_num) _
  have htb : (0 : ℝ) < (if cfg.doubleOperationalBand then
      cfg.bandwidthBand1 + cfg.bandwidthBand2 else cfg.bandwidthBand1) := by
    split
    · exact add_pos hb1 hb2
    · exact hb1
  have hA1 : (0 : ℝ) < cfg.bandwidthBand1
      / (if cfg.doubleOperationalBand then cfg.bandwidthBand1 + cfg.bandwidthBand2
          else cfg.bandwidthBand1) * (20 : ℝ) ^ (cfg.totalTxPower / 5) :=
    mul_pos (div_pos hb1 htb) hX
  have hA2 : (0 : ℝ) < cfg.bandwidthBand2
      / (if cfg.doubleOperationalBand then cfg.bandwidthBand1 + cfg.bandwidthBand2
          else cfg.bandwidthBand1) * (20 : ℝ) ^ (cfg.totalTxPower / 5) :=
    mul_pos (div_pos hb2 htb) hX
  have hfin := txPower_fin (⟨fun b e => b ^ e, fun v => Real.logb 10 v⟩ : Libm ℝ) cfg
    hb1 hb2 hX
  have hfin1 : txPowerBand1 (⟨fun b e => b ^ e, fun v => Real.logb 10 v⟩ : Libm ℝ) cfg
      = Dbl.fin (10 * Real.logb 10 (cfg.bandwidthBand1
          / (if cfg.doubleOperationalBand then cfg.bandwidthBand1 + cfg.bandwidthBand2
              else cfg.bandwidthBand1) * (20 : ℝ) ^ (cfg.totalTxPower / 5))) := hfin.1
  have hfin2 : txPowerBand2 (⟨fun b e => b ^ e, fun v => Real.logb 10 v⟩ : Libm ℝ) cfg
      = Dbl.fin (10 * Real.logb 10 (cfg.bandwidthBand2
          / (if cfg.doubleOperationalBand then cfg.bandwidthBand1 + cfg.bandwidthBand2
              else cfg.bandwidthBand1) * (20 : ℝ) ^ (cfg.totalTxPower / 5))) := hfin.2
  obtain ⟨p, hp, h1, _, _⟩ :=
    main_txPower_band1 s (⟨fun b e => b ^ e, fun v => Real.logb 10 v⟩ : Libm ℝ) cfg hf hg
  obtain ⟨h2, h3⟩ :=
    main_txPower_band2 s (⟨fun b e => b ^ e, fun v => Real.logb 10 v⟩ : Libm ℝ) cfg hf hg p hp
  refine ⟨p,
    10 * Real.logb 10 (cfg.bandwidthBand1
      / (if cfg.doubleOperationalBand then cfg.bandwidthBand1 + cfg.bandwidthBand2
          else cfg.bandwidthBand1) * (20 : ℝ) ^ (cfg.totalTxPower / 5)),
    10 * Real.logb 10 (cfg.bandwidthBand2
      / (if cfg.doubleOperationalBand then cfg.bandwidthBand1 + cfg.bandwidthBand2
          else cfg.bandwidthBand1) * (20 : ℝ) ^ (cfg.totalTxPower / 5)),
    hp, ?_, rpow_ten_log10 _ hA1, ?_, ?_⟩
  · intro gnb hlt
    rw [h1 gnb hlt, hfin1]
  · intro hd
    refine ⟨?_, ?_, ?_⟩
    · intro gnb hlt
      rw [h2 hd gnb hlt, hfin2]
    · rw [rpow_ten_log10 _ hA2, hd]
      rfl
    · rw [rpow_ten_log10 _ hA1, rpow_ten_log10 _ hA2, hd]
      have hs : cfg.bandwidthBand1 + cfg.bandwidthBand2 ≠ 0 := ne_of_gt (add_pos hb1 hb2)
      simp only [if_true]
      field_simp
      ring
  · intro hd
    refine ⟨h3 hd, ?_⟩
    rw [rpow_ten_log10 _ hA1, hd]
    simp only [Bool.false_eq_true, if_false]
    rw [div_self (ne_of_gt hb1), one_mul]

/-- C22 on the low-latency script's own values: the two bands of 400 MHz get
linear powers that add up to `20 ^ (55 / 5)`. -/
theorem power_budget_conserved_witness :
    (0 : ℝ) < (Script.config Script.lowLatency : Config ℝ).bandwidthBand1 ∧
    (0 : ℝ) < (Script.config Script.lowLatency : Config ℝ).bandwidthBand2 ∧
    checkFrequencies Script.lowLatency (Script.config Script.lowLatency : Config ℝ) = .ok () ∧
    (Script.config Script.lowLatency : Config ℝ).gNbNum = 3 ∧
    ∃ p v1 v2,
      main Script.lowLatency (⟨fun b e => b ^ e, fun v => Real.logb 10 v⟩ : Libm ℝ)
        (Script.config Script.lowLatency : Config ℝ) = .ok p ∧
      (∀ gnb, gnb < 3 → txPowerOf p gnb 0 = [Dbl.fin v1]) ∧
      (∀ gnb, gnb < 3 → txPowerOf p gnb 1 = [Dbl.fin v2]) ∧
      (10 : ℝ) ^ (v1 / 10) + (10 : ℝ) ^ (v2 / 10) = (20 : ℝ) ^ ((55 : ℝ) / 5) := by
  have hf : checkFrequencies Script.lowLatency
      (Script.config Script.lowLatency : Config ℝ) = .ok () := by
    rw [checkFrequencies_ok_iff]
    simp only [Script.config, Script.maxFrequency]
    norm_num
  have hb1 : (0 : ℝ) < (Script.config Script.lowLatency : Config ℝ).bandwidthBand1 := by
    norm_num [Script.config]
  have hb2 : (0 : ℝ) < (Script.config Script.lowLatency : Config ℝ).bandwidthBand2 := by
    norm_num [Script.config]
  obtain ⟨p, v1, v2, hp, h1, _, h2, _⟩ :=
    power_budget_conserved Script.lowLatency (Script.config Script.lowLatency : Config ℝ)
      hb1 hb2 hf rfl
  exact ⟨hb1, hb2, hf, rfl, p, v1, v2, hp, h1, (h2 rfl).1, (h2 rfl).2.2⟩

/-! ### The two scripts side by side -/

/-- C20: what the bearer statements of the two files amount to.  In
`5G_RR_LL.cc`, for every port, with the frequency guard passed and at least
three gNBs: the set-up succeeds and builds exactly one traffic flow template,
whose one filter has the port range that starts and ends at the port; the UDP
sink and the UDP client use the same port; and the template is the one
activated for every terminal, once per terminal, with the low-latency
bearer.  In `5G_RR_VT.cc` the bearer statements are not well-formed, and no
plan of its statements has a bearer part. -/
theorem low_latency_builds_one_tft {α : Type} [LinearOrderedField α] (m : Libm α)
    (cfg : Config α) (hf : checkFrequencies Script.lowLatency cfg = .ok ())
    (hg : 3 ≤ cfg.gNbNum) :
    (∃ p b, main Script.lowLatency m cfg = .ok p ∧ p.bearer = some b ∧
      b.tfts = [[⟨cfg.dlPort, cfg.dlPort⟩]] ∧
      p.sinkPort = cfg.dlPort ∧ p.remotePort = cfg.dlPort ∧
      b.activations
        = (List.range cfg.ueNum).map
            (fun i => (⟨i, Qci.NGBR_LOW_LAT_EMBB, [⟨cfg.dlPort, cfg.dlPort⟩]⟩ : Activation))) ∧
    (∀ (cfg2 : Config α) (p : Plan α), main Script.voice m cfg2 = .ok p → p.bearer = none) := by
  constructor
  · refine ⟨_, _, main_ok Script.lowLatency m cfg hf hg, rfl, rfl, rfl, rfl, ?_⟩
    show activateLoop cfg cfg.ueNum 0 [] = _
    rw [activateLoop_eq cfg cfg.ueNum cfg.ueNum 0 [] (by omega), List.range_eq_range']
    simp [dlpf]
  · intro cfg2 p hp
    unfold main at hp
    cases hc : checkFrequencies Script.voice cfg2 with
    | error e =>
      rw [hc] at hp
      exact Except.noConfusion hp
    | ok u =>
      cases hc2 : configureGnbPhy m cfg2 with
      | error e =>
        rw [hc, hc2] at hp
        exact Except.noConfusion hp
      | ok phy =>
        rw [hc, hc2] at hp
        have hp2 := Except.ok.inj hp
        rw [← hp2]
        rfl

/-- C20 on the low-latency script's own values: one template with the filter
`[1236, 1236]`, port 1236 at the sink and at the client, and the five
terminals activated with it in order. -/
theorem low_latency_builds_one_tft_witness :
    checkFrequencies Script.lowLatency (Script.config Script.lowLatency : Config ℚ) = .ok () ∧
    3 ≤ (Script.config Script.lowLatency : Config ℚ).gNbNum ∧
    ∃ p b, main Script.lowLatency (⟨fun _ _ => 1, fun _ => 0⟩ : Libm ℚ)
        (Script.config Script.lowLatency : Config ℚ) = .ok p ∧ p.bearer = some b ∧
      b.tfts = [[⟨1236, 1236⟩]] ∧ p.sinkPort = 1236 ∧ p.remotePort = 1236 ∧
      b.activations
        = [⟨0, Qci.NGBR_LOW_LAT_EMBB, [⟨1236, 1236⟩]⟩, ⟨1, Qci.NGBR_LOW_LAT_EMBB, [⟨1236, 1236⟩]⟩,
            ⟨2, Qci.NGBR_LOW_LAT_EMBB, [⟨1236, 1236⟩]⟩, ⟨3, Qci.NGBR_LOW_LAT_EMBB, [⟨1236, 1236⟩]⟩,
            ⟨4, Qci.NGBR_LOW_LAT_EMBB, [⟨1236, 1236⟩]⟩] :=
  have hf : checkFrequencies Script.lowLatency
      (Script.config Script.lowLatency : Config ℚ) = .ok () := by
    rw [checkFrequencies_ok_iff]
    simp only [Script.config, Script.maxFrequency]
    norm_num
  ⟨hf, by simp [Script.config],
    (low_latency_builds_one_tft (⟨fun _ _ => 1, fun _ => 0⟩ : Libm ℚ)
      (Script.config Script.lowLatency : Config ℚ) hf (by simp [Script.config])).1⟩

end FiveG
